import Mathlib

/-!
# scotland2 loader: dependency resolution and load ordering

A shallow embedding of `src/loader.cpp` (namespace `modloader`) and a verification
of its specification.

* `findSharedObject` is the phase-layered resolver (lines 54-89).
* `getToLoad` is the dependency tree builder (lines 92-152); recursion depth is
  bounded by a fuel argument because the C++ recursion need not terminate.
* `sortDependencies`, `topologicalSortRecurse`, `topologicalSort` are the
  flattening pass (lines 154-190).
* `loadMods` is the orchestrator (lines 215-237); calls of the stub `openLibrary`
  are recorded in a trace.

* `extractNeeded` is the walk of `getToLoad` over the bytes of the mapped ELF image
  (lines 111-134), with every read checked against the length of the file;
  `extractTrace` is the same walk with the names read before it ends.

The file system is a parameter: for every path the outcome of
`std::filesystem::exists`, which may throw, and the outcome of opening, mapping and
walking the ELF image for its `DT_NEEDED` strings.
-/

namespace Scotland2

/-! ## Data model -/

/-- Modelled from the spec: the enumeration `LoadPhase` is declared in `loader.hpp`,
which is absent from the sources. The spec (section 3) gives three layers with
ranks `Mods = 0`, `EarlyMods = 1`, `Libs = 2`, the higher rank being more general. -/
inductive LoadPhase where
  | Mods
  | EarlyMods
  | Libs
deriving DecidableEq

namespace LoadPhase

/-- The value of `static_cast<int>(phase)`. -/
def toInt : LoadPhase → Int
  | Mods => 0
  | EarlyMods => 1
  | Libs => 2

/-- The value of `static_cast<LoadPhase>(i)`. The loader only casts integers between
`0` and `2`; every other integer is sent to `Libs` here and never arises. -/
def ofInt (i : Int) : LoadPhase :=
  if i = 0 then Mods else if i = 1 then EarlyMods else Libs

end LoadPhase

/-- Modelled from the spec: `SharedObject` is declared in `loader.hpp`; the spec
(section 3) says it identifies one binary by its path and is compared by path string. -/
structure SharedObject where
  path : String
deriving DecidableEq

/-- Modelled from the spec: `Dependency` is declared in `loader.hpp`; a tree node made
of the object and the ordered sequence of its already resolved children. -/
inductive Dependency where
  | mk (object : SharedObject) (dependencies : List Dependency)

namespace Dependency

/-- Field `object`. -/
def object : Dependency → SharedObject
  | mk o _ => o

/-- Field `dependencies`. -/
def dependencies : Dependency → List Dependency
  | mk _ ds => ds

/-- The expression `dep.object.path`. -/
def path (d : Dependency) : String := d.object.path

mutual
/-- Number of nodes of a tree. -/
def size : Dependency → Nat
  | mk _ ds => 1 + sizeList ds
/-- Number of nodes of a forest. -/
def sizeList : List Dependency → Nat
  | [] => 0
  | d :: ds => size d + sizeList ds
end

mutual
/-- Every node of a tree, the root first. -/
def nodes : Dependency → List Dependency
  | mk o ds => mk o ds :: nodesList ds
/-- Every node of a forest. -/
def nodesList : List Dependency → List Dependency
  | [] => []
  | d :: ds => nodes d ++ nodesList ds
end

/-- The proper descendants of a node. -/
def descendants (d : Dependency) : List Dependency := nodesList d.dependencies

/-- The paths of the children of a node. -/
def childPaths (d : Dependency) : List String := d.dependencies.map path

end Dependency

/-! ## File system -/

/-- Why a run of the loader did not return normally: a `std::runtime_error` thrown by
`getToLoad` (lines 98 and 108), a `std::filesystem::filesystem_error` thrown by
`std::filesystem::exists` (line 74), or the bound on the depth of the recursion. -/
inductive LoadError where
  | runtimeError (what : String)
  | filesystemError (what : String)
  | outOfFuel
deriving DecidableEq

/-- The part of the outside world the loader reads. `pathExists p` is the outcome of
`std::filesystem::exists(p)`, the overload that throws: `.ok true` when the file
exists, `.ok false` when it is not found, and the message of the `filesystem_error`
thrown when the status of `p` cannot be determined (a name that is too long, a
directory that may not be searched). `dtNeeded p` is the outcome of lines 93-130 on
the file at `p`: the message of the `std::runtime_error` thrown when `open64` or `mmap`
fails, or else the strings the `DT_NEEDED` entries of its dynamic sections refer to, in
the order of the file. -/
structure FileSystem where
  pathExists : String → Except String Bool
  dtNeeded : String → Except String (List String)

instance {ε α : Type} [DecidableEq ε] [DecidableEq α] : DecidableEq (Except ε α) :=
  fun a b =>
  match a, b with
  | .ok x, .ok y =>
    if h : x = y then isTrue (by rw [h]) else isFalse (fun e => h (Except.ok.inj e))
  | .error x, .error y =>
    if h : x = y then isTrue (by rw [h]) else isFalse (fun e => h (Except.error.inj e))
  | .ok _, .error _ => isFalse (fun e => by cases e)
  | .error _, .ok _ => isFalse (fun e => by cases e)

/-- The operator `/` of `std::filesystem::path` on a POSIX system: an absolute right
operand replaces the left one; otherwise a separator is inserted unless the left
operand is empty or already ends with one. -/
def pathJoin (p q : String) : String :=
  match q.data with
  | '/' :: _ => q
  | _ => if p.data = [] ∨ p.data.getLast? = some '/' then p ++ q else p ++ "/" ++ q

/-- The table `getLoadPhaseDirectories` (lines 46-52). -/
def getLoadPhaseDirectories : LoadPhase → String
  | .Libs => "libs"
  | .EarlyMods => "early_mods"
  | .Mods => "mods"

/-! ## Phase-layered resolver -/

/-- The integers `lo, lo + 1, ..., hi` a counting loop runs through. -/
def intRange (lo hi : Int) : List Int :=
  (List.range (hi + 1 - lo).toNat).map (fun k => lo + (k : Int))

/-- The stack built by the loop of lines 63-65, top first. -/
def pushPhaseDirectories (phase : LoadPhase) : List String :=
  (intRange phase.toInt LoadPhase.Libs.toInt).foldl
    (fun paths i => getLoadPhaseDirectories (LoadPhase.ofInt i) :: paths) []

/-- The loop of lines 74-84: `check` is the candidate, `paths` the remaining stack
and `openedPhase` the phase that would be reported. An exception of
`std::filesystem::exists` leaves the function. -/
def findSharedObjectLoop (fs : FileSystem) (dependencyDir name : String) :
    List String → String → LoadPhase → Except LoadError (Option (SharedObject × LoadPhase))
  | paths, check, openedPhase =>
    match fs.pathExists check with
    | .error what => .error (.filesystemError what)
    | .ok true => .ok (some (⟨check⟩, openedPhase))
    | .ok false =>
      match paths with
      | [] => .ok none
      | dir :: rest =>
        findSharedObjectLoop fs dependencyDir name rest
          (pathJoin (pathJoin dependencyDir dir) name)
          (LoadPhase.ofInt (max (openedPhase.toInt - 1) 0))

/-- The function `findSharedObject` (lines 54-89): the object and the reported phase,
`none` for `std::nullopt`, or the exception of `std::filesystem::exists`. The stack is
never empty at line 67 because the loop of line 63 runs at least once. -/
def findSharedObject (fs : FileSystem) (dependencyDir : String) (phase : LoadPhase)
    (name : String) : Except LoadError (Option (SharedObject × LoadPhase)) :=
  match pushPhaseDirectories phase with
  | [] => .ok none
  | dir :: paths =>
    findSharedObjectLoop fs dependencyDir name paths
      (pathJoin (pathJoin dependencyDir dir) name) phase

/-! ## Dependency tree builder -/

/-- The loop of lines 125-143 over the `DT_NEEDED` strings of one object. `recurse` is
the recursive call `obj.getToLoad(dependencyDir, openedPhase)` of line 141. An empty
name is skipped, a name the resolver does not find is skipped, and an exception of
the resolver or of the recursive call propagates. -/
def getToLoadNames (recurse : SharedObject → LoadPhase → Except LoadError (List Dependency))
    (fs : FileSystem) (dependencyDir : String) (phase : LoadPhase) :
    List String → Except LoadError (List Dependency)
  | [] => .ok []
  | name :: rest =>
    if name = "" then getToLoadNames recurse fs dependencyDir phase rest
    else
      match findSharedObject fs dependencyDir phase name with
      | .error e => .error e
      | .ok none => getToLoadNames recurse fs dependencyDir phase rest
      | .ok (some (obj, openedPhase)) =>
        match recurse obj openedPhase with
        | .error e => .error e
        | .ok sub =>
          match getToLoadNames recurse fs dependencyDir phase rest with
          | .error e => .error e
          | .ok deps => .ok (Dependency.mk obj sub :: deps)

/-- The method `SharedObject::getToLoad` (lines 92-152). One unit of fuel is spent per
level of recursion; `outOfFuel` is returned when the bound is reached. -/
def getToLoad (fs : FileSystem) (dependencyDir : String) :
    Nat → SharedObject → LoadPhase → Except LoadError (List Dependency)
  | 0, _, _ => .error .outOfFuel
  | fuel + 1, self, phase =>
    match fs.dtNeeded self.path with
    | .error what => .error (.runtimeError what)
    | .ok names =>
      getToLoadNames (getToLoad fs dependencyDir fuel) fs dependencyDir phase names

/-! ## Flattening -/

/-- The function `sortDependencies` (lines 154-158): a stable sort whose comparator
puts `a` before `b` when `a.object.path > b.object.path`, the paths being compared
character by character. Insertion keeps an element in front of the later elements
that do not compare greater, which is the order a stable sort gives. -/
def sortDependencies (deps : List Dependency) : List Dependency :=
  deps.insertionSort (fun a b => b.path.data ≤ a.path.data)

/-- The two containers `topologicalSortRecurse` mutates: the output deque and the set
of visited paths. -/
structure SortState where
  stack : List Dependency
  visited : List String

mutual
/-- The function `topologicalSortRecurse` (lines 163-176). The first component of the
result is `main` after the call: its children sorted in place, and processed. -/
def topologicalSortRecurse (main : Dependency) (st : SortState) : Dependency × SortState :=
  if main.path ∈ st.visited then (main, st)
  else
    let r := topologicalSortLoop (sortDependencies main.dependencies)
      { st with visited := main.path :: st.visited }
    let main' := Dependency.mk main.object r.1
    (main', { r.2 with stack := r.2.stack ++ [main'] })
termination_by (main.size, 0)
decreasing_by
  have hperm : ∀ l₁ l₂ : List Dependency, l₁.Perm l₂ →
      Dependency.sizeList l₁ = Dependency.sizeList l₂ := by
    intro l₁ l₂ h
    induction h with
    | nil => rfl
    | cons x _ ih => simp [Dependency.sizeList, ih]
    | swap x y l => simp only [Dependency.sizeList]; omega
    | trans _ _ ih₁ ih₂ => exact ih₁.trans ih₂
  left
  cases main with
  | mk o ds =>
    simp only [Dependency.dependencies, Dependency.size]
    rw [sortDependencies, hperm _ _ (List.perm_insertionSort _ ds)]
    omega
/-- The loops of lines 171-173 and 185-187: each element in turn. The first component
of the result is the list after the calls. -/
def topologicalSortLoop (deps : List Dependency) (st : SortState) :
    List Dependency × SortState :=
  match deps with
  | [] => ([], st)
  | dep :: rest =>
    let r₁ := topologicalSortRecurse dep st
    let r₂ := topologicalSortLoop rest r₁.2
    (r₁.1 :: r₂.1, r₂.2)
termination_by (Dependency.sizeList deps, 1)
decreasing_by
  · simp only [Dependency.sizeList]
    rcases Nat.eq_zero_or_pos (Dependency.sizeList ‹List Dependency›) with h | h
    · rw [h]; right; omega
    · left; omega
  · left
    have hpos : 0 < Dependency.size ‹Dependency› := by
      cases ‹Dependency›; simp [Dependency.size]
    simp only [Dependency.sizeList]
    omega
end

/-- The function `modloader::topologicalSort` (lines 178-190). -/
def topologicalSort (list : List Dependency) : List Dependency :=
  (topologicalSortLoop (sortDependencies list) { stack := [], visited := [] }).2.stack

/-! ## Orchestrator -/

/-- The set `skipLoad` and the trace of the calls of `openLibrary` (a stub in the
source, lines 211-213). -/
structure LoadState where
  opened : List String
  skipLoad : List String

/-- The statement pair `openLibrary(p); skipLoad.emplace(p);`. -/
def openAndRecord (p : String) (st : LoadState) : LoadState :=
  { opened := st.opened ++ [p],
    skipLoad := if p ∈ st.skipLoad then st.skipLoad else p :: st.skipLoad }

/-- The loop of lines 225-230 over the sorted dependencies. -/
def loadSorted : List Dependency → LoadState → LoadState
  | [], st => st
  | dep :: rest, st =>
    if dep.path ∈ st.skipLoad then loadSorted rest st
    else loadSorted rest (openAndRecord dep.path st)

/-- The loop of lines 219-234. `failedMods` is the vector returned at line 236. An
exception of `getToLoad` leaves the loop with the state reached so far. -/
def loadModsLoop (fs : FileSystem) (fuel : Nat) (dependencyDir : String) (phase : LoadPhase)
    (failedMods : List SharedObject) :
    List SharedObject → LoadState → LoadState × Except LoadError (List SharedObject)
  | [], st => (st, .ok failedMods)
  | mod :: rest, st =>
    if mod.path ∈ st.skipLoad then
      loadModsLoop fs fuel dependencyDir phase failedMods rest st
    else
      match getToLoad fs dependencyDir fuel mod phase with
      | .error e => (st, .error e)
      | .ok deps =>
        let sorted := topologicalSort deps
        let st₁ := loadSorted sorted st
        loadModsLoop fs fuel dependencyDir phase failedMods rest (openAndRecord mod.path st₁)

/-- The function `modloader::loadMods` (lines 215-237). The result holds the calls of
`openLibrary` made by this call, `skipLoad` as the call leaves it, and the returned
vector or the exception. -/
def loadMods (fs : FileSystem) (fuel : Nat) (mods : List SharedObject)
    (dependencyDir : String) (skipLoad : List String) (phase : LoadPhase) :
    LoadState × Except LoadError (List SharedObject) :=
  loadModsLoop fs fuel dependencyDir phase [] mods { opened := [], skipLoad := skipLoad }

/-! ## Specification-side notions -/

/-- The directories the spec lets a request from `phase` search, most general first:
from `Libs` down to the requesting phase, inclusive. -/
def searchDirectories : LoadPhase → List String
  | .Libs => ["libs"]
  | .EarlyMods => ["libs", "early_mods"]
  | .Mods => ["libs", "early_mods", "mods"]

/-- The candidate `root/<dir>/name`. -/
def candidate (root dir name : String) : String :=
  pathJoin (pathJoin root dir) name

/-- The first existing candidate among the given directories, tested in order; a test
that throws ends the search with its exception. -/
def firstExistingIn (fs : FileSystem) (root name : String) :
    List String → Except LoadError (Option String)
  | [] => .ok none
  | dir :: rest =>
    match fs.pathExists (candidate root dir name) with
    | .error what => .error (.filesystemError what)
    | .ok true => .ok (some (candidate root dir name))
    | .ok false => firstExistingIn fs root name rest

/-- The resolver as the spec words it: the first existing candidate among the
directories from `Libs` down to the requesting phase. -/
def firstExisting (fs : FileSystem) (root : String) (phase : LoadPhase) (name : String) :
    Except LoadError (Option String) :=
  firstExistingIn fs root name (searchDirectories phase)

/-- The three directories of the phases. -/
def phaseDirectories : List String := ["libs", "early_mods", "mods"]

/-- A name without a `/`: the name of a file of a directory. -/
def PlainName (name : String) : Prop := '/' ∉ name.data

instance (name : String) : Decidable (PlainName name) := by
  unfold PlainName; infer_instance

/-- The paths of the nodes of a forest. -/
def forestPaths (f : List Dependency) : List String :=
  (Dependency.nodesList f).map Dependency.path

/-- The paths of the output of the flattening pass. -/
def sortedPaths (f : List Dependency) : List String :=
  (topologicalSort f).map Dependency.path

/-- No node of the forest has the path of one of its ancestors. -/
def AcyclicForest (f : List Dependency) : Prop :=
  ∀ n ∈ Dependency.nodesList f, ∀ m ∈ n.descendants, m.path ≠ n.path

/-- Two nodes of the forest with the same path have the same set of child paths. -/
def ConsistentForest (f : List Dependency) : Prop :=
  ∀ n ∈ Dependency.nodesList f, ∀ m ∈ Dependency.nodesList f,
    n.path = m.path → ∀ p ∈ n.childPaths, p ∈ m.childPaths

instance (f : List Dependency) : Decidable (AcyclicForest f) := by
  unfold AcyclicForest; infer_instance

instance (f : List Dependency) : Decidable (ConsistentForest f) := by
  unfold ConsistentForest; infer_instance

/-- A leaf with the given path. -/
def leaf (p : String) : Dependency := .mk ⟨p⟩ []

/-- A node with the given path and children. -/
def node (p : String) (ds : List Dependency) : Dependency := .mk ⟨p⟩ ds

mutual
/-- The paths of a tree in post-order: the paths of the trees of the children, in the
order of the list of children, then the path of the node. -/
def Dependency.postOrder : Dependency → List String
  | .mk o ds => Dependency.postOrderList ds ++ [o.path]
/-- The paths of the trees of a list in post-order, tree after tree. -/
def Dependency.postOrderList : List Dependency → List String
  | [] => []
  | d :: ds => d.postOrder ++ Dependency.postOrderList ds
end

mutual
/-- The tree with the children of every node put in descending order of path. -/
def Dependency.sorted : Dependency → Dependency
  | .mk o ds => .mk o (sortDependencies (Dependency.sortedList ds))
/-- The trees of a list, each with the children of every node put in descending order
of path; the list itself keeps its order. -/
def Dependency.sortedList : List Dependency → List Dependency
  | [] => []
  | d :: ds => d.sorted :: Dependency.sortedList ds
end

/-- The paths of the output deque, in order. -/
def SortState.emitted (st : SortState) : List String := st.stack.map Dependency.path

/-- Every emitted path is marked visited, and no path is emitted twice. -/
def SortState.Sound (st : SortState) : Prop :=
  (∀ p ∈ st.emitted, p ∈ st.visited) ∧ st.emitted.Nodup

/-- What a traversal step started in `st` and ended in `st'` did, when every path it
may emit is in `paths`: the deque grew at its end by nodes that were not visited
before and have a path of `paths`, no mark was removed, and soundness is kept. -/
def SortState.Step (paths : List String) (st st' : SortState) : Prop :=
  (∃ new, st'.stack = st.stack ++ new ∧
      ∀ x ∈ new, x.path ∉ st.visited ∧ x.path ∈ paths)
    ∧ (∀ p ∈ st.visited, p ∈ st'.visited)
    ∧ st'.Sound

/-- Every path of `E` is the path of a node accepted by `F` whose children all have
their path in `E`, at a smaller index. -/
def ChildrenFirst (F : Dependency → Prop) (E : List String) : Prop :=
  ∀ p ∈ E, ∃ n, F n ∧ n.path = p ∧
    ∀ c ∈ n.dependencies, c.path ∈ E ∧ E.indexOf c.path < E.indexOf p

/-- The state of a traversal below the ancestors `anc`: the visited paths are the
ancestors' and the emitted ones, no ancestor is emitted, and children come first. -/
def SortState.Ordered (F : Dependency → Prop) (anc : List String) (st : SortState) : Prop :=
  (∀ p, p ∈ st.visited ↔ p ∈ anc ∨ p ∈ st.emitted)
    ∧ (∀ p ∈ anc, p ∉ st.emitted)
    ∧ ChildrenFirst F st.emitted

/-- No node of the tree has the path of one of its ancestors, those of `anc` included. -/
def AcyclicUnder (anc : List String) (d : Dependency) : Prop :=
  (∀ n ∈ d.nodes, n.path ∉ anc) ∧ ∀ n ∈ d.nodes, ∀ m ∈ n.descendants, m.path ≠ n.path

/-- What a traversal step does to an ordered state: it stays ordered, keeps what was
emitted, and has emitted the path `p`. -/
def SortState.Emits (F : Dependency → Prop) (anc : List String) (p : String)
    (st st' : SortState) : Prop :=
  st'.Ordered F anc ∧ (∀ q ∈ st.emitted, q ∈ st'.emitted) ∧ p ∈ st'.emitted

/-- The forest refuting claim C1: the path `x` stands for a leaf under `b` and for a
node with the child `y` under `a`. -/
def forestLostPath : List Dependency :=
  [node "b" [leaf "x"], node "a" [node "x" [leaf "y"]]]

/-- A root `r` declaring `[b, c]` where `b` declares `[c]`. -/
def forestDiamond : List Dependency :=
  [node "r" [node "b" [leaf "c"], leaf "c"]]

/-- The forest refuting claim C2. -/
def forestLateChild : List Dependency :=
  [node "z" [leaf "b"], node "c" [node "b" [leaf "a"]], leaf "a"]

/-! ## File systems used in examples -/

/-- Message of the exception thrown when a file cannot be opened (line 98). -/
def cannotOpen : Except String (List String) := .error "Unable to open file descriptor"

/-- A root holding `libx.so` in `libs` only. -/
def fsLibsOnly : FileSystem where
  pathExists := fun p => .ok (p = "/r/libs/libx.so")
  dtNeeded := fun p => if p = "/r/libs/libx.so" then .ok [] else cannotOpen

/-- A root holding `liby.so` in `early_mods` only. -/
def fsEarlyOnly : FileSystem where
  pathExists := fun p => .ok (p = "/r/early_mods/liby.so")
  dtNeeded := fun p => if p = "/r/early_mods/liby.so" then .ok [] else cannotOpen

/-- A mod `root.so` that needs `libB.so`, found in `libs`, which needs `libC.so`, found
in `mods` only. -/
def fsLayered : FileSystem where
  pathExists := fun p =>
    .ok (p = "/r/mods/root.so" || p = "/r/libs/libB.so" || p = "/r/mods/libC.so")
  dtNeeded := fun p =>
    if p = "/r/mods/root.so" then .ok ["libB.so"]
    else if p = "/r/libs/libB.so" then .ok ["libC.so"]
    else if p = "/r/mods/libC.so" then .ok []
    else cannotOpen

/-- A mod `root.so` declaring `[libB.so, libC.so]` where `libB.so` declares `[libC.so]`,
both libraries in `libs`. -/
def fsDiamond : FileSystem where
  pathExists := fun p =>
    .ok (p = "/r/mods/root.so" || p = "/r/libs/libB.so" || p = "/r/libs/libC.so")
  dtNeeded := fun p =>
    if p = "/r/mods/root.so" then .ok ["libB.so", "libC.so"]
    else if p = "/r/libs/libB.so" then .ok ["libC.so"]
    else if p = "/r/libs/libC.so" then .ok []
    else cannotOpen

/-- A mod `root.so` declaring `[libB.so]` where `libB.so` declares `[libC.so]`, both
libraries in `libs`. -/
def fsChain : FileSystem where
  pathExists := fun p =>
    .ok (p = "/r/mods/root.so" || p = "/r/libs/libB.so" || p = "/r/libs/libC.so")
  dtNeeded := fun p =>
    if p = "/r/mods/root.so" then .ok ["libB.so"]
    else if p = "/r/libs/libB.so" then .ok ["libC.so"]
    else if p = "/r/libs/libC.so" then .ok []
    else cannotOpen

/-- The tree `getToLoad` builds for `root.so` of `fsChain`. -/
def forestChain : List Dependency :=
  [.mk ⟨"/r/libs/libB.so"⟩ [.mk ⟨"/r/libs/libC.so"⟩ []]]

/-- A mod `m.so` declaring `libmissing.so`, which is in no directory. -/
def fsMissing : FileSystem where
  pathExists := fun p => .ok (p = "/r/mods/m.so")
  dtNeeded := fun p => if p = "/r/mods/m.so" then .ok ["libmissing.so"] else cannotOpen

/-- An early mod `root.so` declaring `[libA.so, libE.so]`; `libA.so` is in `libs`,
`libE.so` in `early_mods`, both declare `libP.so`, which is in `libs` and declares
`libM.so`, which is in `mods` only. -/
def fsTwoRoutes : FileSystem where
  pathExists := fun p =>
    .ok (p = "/r/libs/libA.so" || p = "/r/early_mods/libE.so" || p = "/r/libs/libP.so"
      || p = "/r/mods/libM.so")
  dtNeeded := fun p =>
    if p = "/r/early_mods/root.so" then .ok ["libA.so", "libE.so"]
    else if p = "/r/libs/libA.so" then .ok ["libP.so"]
    else if p = "/r/early_mods/libE.so" then .ok ["libP.so"]
    else if p = "/r/libs/libP.so" then .ok ["libM.so"]
    else if p = "/r/mods/libM.so" then .ok []
    else cannotOpen

/-- The tree `getToLoad` builds for `root.so` of `fsTwoRoutes` from phase `EarlyMods`. -/
def forestTwoRoutes : List Dependency :=
  [node "/r/libs/libA.so" [leaf "/r/libs/libP.so"],
   node "/r/early_mods/libE.so" [node "/r/libs/libP.so" [leaf "/r/mods/libM.so"]]]

/-- A root holding `liby.so` in `early_mods` whose directory `libs` may not be searched:
the test of the candidate in `libs` throws. The early mod `root.so` declares `liby.so`. -/
def fsLibsUnreadable : FileSystem where
  pathExists := fun p =>
    if p = "/r/libs/liby.so" then .error "filesystem error: status: Permission denied"
    else .ok (p = "/r/early_mods/liby.so" || p = "/r/early_mods/root.so")
  dtNeeded := fun p =>
    if p = "/r/early_mods/root.so" then .ok ["liby.so"]
    else if p = "/r/early_mods/liby.so" then .ok []
    else cannotOpen

/-- A root holding `libx.so` both in `libs` and in `mods`. -/
def fsLibsAndMods : FileSystem where
  pathExists := fun p => .ok (p = "/r/libs/libx.so" || p = "/r/mods/libx.so")
  dtNeeded := fun _ => cannotOpen

/-- A root holding `libz.so` in `mods` only. -/
def fsModsOnly : FileSystem where
  pathExists := fun p => .ok (p = "/r/mods/libz.so")
  dtNeeded := fun _ => cannotOpen

/-- The order `sortDependencies` sorts by: `a` may stand before `b` when the path of
`b` is not greater than the path of `a`. -/
def pathGe (a b : Dependency) : Prop := b.path.data ≤ a.path.data

instance : DecidableRel pathGe :=
  fun a b => inferInstanceAs (Decidable (b.path.data ≤ a.path.data))

instance : IsTotal Dependency pathGe := ⟨fun a b => le_total b.path.data a.path.data⟩

instance : IsTrans Dependency pathGe :=
  ⟨fun _ _ _ hab hbc => le_trans hbc hab⟩

/-- The object the resolver finds for one declared name, with the phase it reports;
nothing for the empty name, for a name it does not find and for a name at which it
throws. -/
def resolvedName (fs : FileSystem) (root : String) (phase : LoadPhase) (name : String) :
    Option (SharedObject × LoadPhase) :=
  if name = "" then none
  else
    match findSharedObject fs root phase name with
    | .ok (some res) => some res
    | .ok none => none
    | .error _ => none

/-- The objects the resolver finds for the declared names, in declaration order, with
the phase it reports. -/
def resolvedNames (fs : FileSystem) (root : String) (phase : LoadPhase)
    (names : List String) : List (SharedObject × LoadPhase) :=
  names.filterMap (resolvedName fs root phase)

/-- The resolver throws at none of the declared names the builder hands to it. -/
def ResolverReturns (fs : FileSystem) (root : String) (phase : LoadPhase)
    (names : List String) : Prop :=
  ∀ name ∈ names, name ≠ "" → ∃ res, findSharedObject fs root phase name = .ok res

/-- A child of the tree stands for a resolved name: it carries the resolved object and
the tree `build` returns for that object and the reported phase. -/
def ChildOf (build : SharedObject → LoadPhase → Except LoadError (List Dependency))
    (res : SharedObject × LoadPhase) (child : Dependency) : Prop :=
  child.object = res.1 ∧ build res.1 res.2 = .ok child.dependencies

/-- Every name the object at `p` declares is free of the separator `/`. -/
def DeclaresPlainNames (fs : FileSystem) (p : String) : Prop :=
  ∀ names, fs.dtNeeded p = .ok names → ∀ name ∈ names, PlainName name

/-- A library `libA.so` in `libs` that declares the absolute name `/r/mods/libM.so` and
the relative name `../mods/libM.so`, two names of one file of the directory `mods`. -/
def fsLibsEscape : FileSystem where
  pathExists := fun p =>
    .ok (p = "/r/libs/libA.so" || p = "/r/mods/libM.so" || p = "/r/libs/../mods/libM.so")
  dtNeeded := fun p =>
    if p = "/r/libs/libA.so" then .ok ["/r/mods/libM.so", "../mods/libM.so"]
    else if p = "/r/mods/libM.so" then .ok []
    else if p = "/r/libs/../mods/libM.so" then .ok []
    else cannotOpen

/-- The file system `fsLibsEscape` with the directory `mods` emptied. -/
def fsLibsEscapeEmptied : FileSystem where
  pathExists := fun p => .ok (p = "/r/libs/libA.so")
  dtNeeded := fun p =>
    if p = "/r/libs/libA.so" then .ok ["/r/mods/libM.so", "../mods/libM.so"]
    else cannotOpen

/-- Two libraries in `libs` that declare each other. -/
def fsCycle : FileSystem where
  pathExists := fun p => .ok (p = "/r/libs/libA.so" || p = "/r/libs/libB.so")
  dtNeeded := fun p =>
    if p = "/r/libs/libA.so" then .ok ["libB.so"]
    else if p = "/r/libs/libB.so" then .ok ["libA.so"]
    else cannotOpen

mutual
/-- The tree `d'` differs from `d` only by the order of the children of its nodes. -/
def Dependency.Reordered : Dependency → Dependency → Prop
  | .mk o ds, d' =>
    o = d'.object ∧ ∃ ms, Dependency.ReorderedList ds ms ∧ ms.Perm d'.dependencies
/-- The second list holds, position by position, a reordering of the tree of the first. -/
def Dependency.ReorderedList : List Dependency → List Dependency → Prop
  | [], ms => ms = []
  | d :: ds, ms =>
    ∃ m ms', ms = m :: ms' ∧ Dependency.Reordered d m ∧ Dependency.ReorderedList ds ms'
end

/-- The forest `g` differs from `f` only by the order of the roots and the order of the
children of the nodes. -/
def ForestReordered (f g : List Dependency) : Prop :=
  ∃ ms, Dependency.ReorderedList f ms ∧ ms.Perm g

/-- No two roots and no two children of one node have the same path. -/
def DistinctSiblings (f : List Dependency) : Prop :=
  (f.map Dependency.path).Nodup ∧ ∀ n ∈ Dependency.nodesList f, n.childPaths.Nodup

instance (f : List Dependency) : Decidable (DistinctSiblings f) := by
  unfold DistinctSiblings; infer_instance

/-- Two roots with the path `x` and different children. -/
def forestTwins : List Dependency := [node "x" [leaf "a"], node "x" [leaf "b"]]

/-- The forest `forestTwins` with its roots swapped. -/
def forestTwinsSwapped : List Dependency := [node "x" [leaf "b"], node "x" [leaf "a"]]

/-- The forest `forestDiamond` with the children of its root swapped. -/
def forestDiamondSwapped : List Dependency :=
  [node "r" [leaf "c", node "b" [leaf "c"]]]

/-! ## The binary dependency extractor

The walk of lines 111-134 over the bytes of the mapped file. The C++ code indexes the
mapping without any check; here every read is checked against the length of the file
and a read outside it ends the walk with `outOfBounds`, which stands for the undefined
behaviour of the code. `FileSystem.dtNeeded` stands for the result of this walk. -/

/-- What ends the walk over an image where the C++ code has undefined behaviour. -/
inductive ExtractError where
  | outOfBounds
  | divisionByZero
deriving DecidableEq

/-- Value of `SHT_DYNAMIC` in `elf.h`. -/
def SHT_DYNAMIC : Nat := 6

/-- Value of `DT_NEEDED` in `elf.h`. -/
def DT_NEEDED : Nat := 1

/-- Value of `sizeof(Elf64_Ehdr)`. -/
def sizeofEhdr : Nat := 64

/-- Value of `sizeof(Elf64_Shdr)`. -/
def sizeofShdr : Nat := 64

/-- Value of `sizeof(Elf64_Dyn)`. -/
def sizeofDyn : Nat := 16

/-- The number a little-endian sequence of bytes stands for. -/
def leValue : List Nat → Nat
  | [] => 0
  | b :: bs => b % 256 + 256 * leValue bs

/-- The `width` bytes at `offset` as a little-endian number, without any check: bytes
outside the file count as absent. -/
def rawAt (f : List Nat) (offset : Int) (width : Nat) : Nat :=
  leValue ((f.drop offset.toNat).take width)

/-- Whether the `width` bytes at `offset` lie inside the file. -/
def InBounds (f : List Nat) (offset : Int) (width : Nat) : Prop :=
  0 ≤ offset ∧ offset + (width : Int) ≤ (f.length : Int)

instance (f : List Nat) (offset : Int) (width : Nat) : Decidable (InBounds f offset width) := by
  unfold InBounds; infer_instance

/-- A read of a field of `width` bytes at `offset` through a typed reference into the
mapping. -/
def readLE (f : List Nat) (offset : Int) (width : Nat) : Except ExtractError Nat :=
  if InBounds f offset width then .ok (rawAt f offset width) else .error .outOfBounds

/-- The conversion of a 64-bit unsigned value to `ptrdiff_t`. -/
def toPtrdiff (x : Nat) : Int :=
  if x % 2 ^ 64 < 2 ^ 63 then ((x % 2 ^ 64 : Nat) : Int) else ((x % 2 ^ 64 : Nat) : Int) - 2 ^ 64

/-- The bytes of a NUL-terminated string at the head of `bytes`; running off the end of
the file before a NUL is a read outside the file. -/
def scanCString : List Nat → Except ExtractError (List Nat)
  | [] => .error .outOfBounds
  | b :: bs =>
    if b % 256 = 0 then .ok []
    else
      match scanCString bs with
      | .error e => .error e
      | .ok rest => .ok (b % 256 :: rest)

/-- The overload `std::string_view readAtOffset(f, offset)` (lines 35-37): the
NUL-terminated string that starts at `offset`. -/
def readCString (f : List Nat) (offset : Int) : Except ExtractError String :=
  if InBounds f offset 1 then
    match scanCString (f.drop offset.toNat) with
    | .error e => .error e
    | .ok bytes => .ok (String.mk (bytes.map Char.ofNat))
  else .error .outOfBounds

/-- The three fields of `Elf64_Ehdr` the loader uses. -/
structure ElfHeader where
  e_shoff : Nat
  e_shentsize : Nat
  e_shnum : Nat
deriving DecidableEq

/-- Line 113: `auto elf = readAtOffset<Elf64_Ehdr>(f, 0)` copies the whole header;
`e_shoff` is at byte 40, `e_shentsize` at byte 58 and `e_shnum` at byte 60. -/
def readHeader (f : List Nat) : Except ExtractError ElfHeader :=
  if InBounds f 0 sizeofEhdr then
    .ok { e_shoff := rawAt f 40 8, e_shentsize := rawAt f 58 2, e_shnum := rawAt f 60 2 }
  else .error .outOfBounds

/-- Line 130: the name a `DT_NEEDED` entry at `entry` refers to. `hdr` is the offset of
the header of the dynamic section and `shoff` the offset of the section header table:
`sh_link` is at byte 40 of a section header, `sh_offset` at byte 24, `d_val` at byte 8
of an entry, and the sum of the two 64-bit values wraps. -/
def readNeededName (f : List Nat) (shoff hdr entry : Int) : Except ExtractError String :=
  match readLE f (hdr + 40) 4 with
  | .error e => .error e
  | .ok link =>
    match readLE f (shoff + (sizeofShdr : Int) * (link : Int) + 24) 8 with
    | .error e => .error e
    | .ok strOffset =>
      match readLE f (entry + 8) 8 with
      | .error e => .error e
      | .ok val => readCString f (toPtrdiff ((strOffset + val) % 2 ^ 64))

/-- The loop of lines 125-134 over the entries with the given indices of the dynamic
section at `dynoff`; `d_tag` is at byte 0 of an entry. Empty names are kept here and
skipped by `getToLoadNames`. -/
def walkDynamic (f : List Nat) (shoff hdr dynoff : Int) :
    List Nat → Except ExtractError (List String)
  | [] => .ok []
  | j :: js =>
    match readLE f (dynoff + (sizeofDyn : Int) * (j : Int)) 8 with
    | .error e => .error e
    | .ok tag =>
      if tag ≠ DT_NEEDED then walkDynamic f shoff hdr dynoff js
      else
        match readNeededName f shoff hdr (dynoff + (sizeofDyn : Int) * (j : Int)) with
        | .error e => .error e
        | .ok name =>
          match walkDynamic f shoff hdr dynoff js with
          | .error e => .error e
          | .ok names => .ok (name :: names)

/-- Lines 120-123 for the section header at `hdr`: nothing unless `sh_type` (byte 4) is
`SHT_DYNAMIC`; else the walk of `sh_size / sh_entsize` entries at `sh_offset` (bytes
32, 56 and 24). -/
def walkSection (f : List Nat) (shoff hdr : Int) : Except ExtractError (List String) :=
  match readLE f (hdr + 4) 4 with
  | .error e => .error e
  | .ok type =>
    if type ≠ SHT_DYNAMIC then .ok []
    else
      match readLE f (hdr + 24) 8 with
      | .error e => .error e
      | .ok offset =>
        match readLE f (hdr + 32) 8 with
        | .error e => .error e
        | .ok size =>
          match readLE f (hdr + 56) 8 with
          | .error e => .error e
          | .ok entsize =>
            if entsize = 0 then .error .divisionByZero
            else walkDynamic f shoff hdr (toPtrdiff offset) (List.range (size / entsize))

/-- The loop of lines 118-144 over the section headers with the given indices. -/
def walkSections (f : List Nat) (shoff : Int) : List Nat → Except ExtractError (List String)
  | [] => .ok []
  | k :: ks =>
    match walkSection f shoff (shoff + (sizeofShdr : Int) * (k : Int)) with
    | .error e => .error e
    | .ok names =>
      match walkSections f shoff ks with
      | .error e => .error e
      | .ok rest => .ok (names ++ rest)

/-- The number of elements of the span `readManyAtOffset<T>(f, offset, amount, size)`
(lines 39-44): `end = begin + amount * size` on pointers to `T`. -/
def readManyCount (amount size : Nat) : Nat := amount * size

/-- The extractor step of `getToLoad` (lines 111-134): the strings of the `DT_NEEDED`
entries, in the order of the walk. Line 114 passes `e_shentsize` as `amount` and
`e_shnum` as `size`. -/
def extractNeeded (f : List Nat) : Except ExtractError (List String) :=
  match readHeader f with
  | .error e => .error e
  | .ok elf =>
    walkSections f (toPtrdiff elf.e_shoff)
      (List.range (readManyCount elf.e_shentsize elf.e_shnum))

/-- The names handed to the resolver: line 132 skips the empty ones. -/
def extractNames (f : List Nat) : Except ExtractError (List String) :=
  match extractNeeded f with
  | .error e => .error e
  | .ok names => .ok (names.filter (fun name => decide (name ≠ "")))

/-- The result of a walk that has handed on the names `t.1`: these names when it
reached its end, or the point `t.2` it came to where the C++ code has undefined
behaviour. -/
def ofTrace (t : List String × Option ExtractError) : Except ExtractError (List String) :=
  match t.2 with
  | none => .ok t.1
  | some e => .error e

/-- The loop of lines 125-134 with the names it has read when it ends: each name is
handed on (line 136) before the next entry is read, so a read outside the file at a
later entry leaves the names of the entries before it. -/
def walkDynamicTrace (f : List Nat) (shoff hdr dynoff : Int) :
    List Nat → List String × Option ExtractError
  | [] => ([], none)
  | j :: js =>
    match readLE f (dynoff + (sizeofDyn : Int) * (j : Int)) 8 with
    | .error e => ([], some e)
    | .ok tag =>
      if tag ≠ DT_NEEDED then walkDynamicTrace f shoff hdr dynoff js
      else
        match readNeededName f shoff hdr (dynoff + (sizeofDyn : Int) * (j : Int)) with
        | .error e => ([], some e)
        | .ok name =>
          (name :: (walkDynamicTrace f shoff hdr dynoff js).1,
            (walkDynamicTrace f shoff hdr dynoff js).2)

/-- Lines 120-123 for the section header at `hdr`, with the names read when the walk of
the section ends. -/
def walkSectionTrace (f : List Nat) (shoff hdr : Int) : List String × Option ExtractError :=
  match readLE f (hdr + 4) 4 with
  | .error e => ([], some e)
  | .ok type =>
    if type ≠ SHT_DYNAMIC then ([], none)
    else
      match readLE f (hdr + 24) 8 with
      | .error e => ([], some e)
      | .ok offset =>
        match readLE f (hdr + 32) 8 with
        | .error e => ([], some e)
        | .ok size =>
          match readLE f (hdr + 56) 8 with
          | .error e => ([], some e)
          | .ok entsize =>
            if entsize = 0 then ([], some .divisionByZero)
            else
              walkDynamicTrace f shoff hdr (toPtrdiff offset) (List.range (size / entsize))

/-- The loop of lines 118-144 over the section headers with the given indices, with the
names read when it ends. -/
def walkSectionsTrace (f : List Nat) (shoff : Int) :
    List Nat → List String × Option ExtractError
  | [] => ([], none)
  | k :: ks =>
    match (walkSectionTrace f shoff (shoff + (sizeofShdr : Int) * (k : Int))).2 with
    | some e => ((walkSectionTrace f shoff (shoff + (sizeofShdr : Int) * (k : Int))).1, some e)
    | none =>
      ((walkSectionTrace f shoff (shoff + (sizeofShdr : Int) * (k : Int))).1
          ++ (walkSectionsTrace f shoff ks).1,
        (walkSectionsTrace f shoff ks).2)

/-- The extractor step of `getToLoad` (lines 111-134) with the names it has read when it
ends: `extractNeeded` gives the same names when the walk reaches its end. -/
def extractTrace (f : List Nat) : List String × Option ExtractError :=
  match readHeader f with
  | .error e => ([], some e)
  | .ok elf =>
    walkSectionsTrace f (toPtrdiff elf.e_shoff)
      (List.range (readManyCount elf.e_shentsize elf.e_shnum))

/-! ## Specification-side reading of an image -/

/-- Offset of the section header with index `k`. -/
def headerOffset (f : List Nat) (k : Nat) : Int :=
  toPtrdiff (rawAt f 40 8) + (sizeofShdr : Int) * (k : Int)

/-- Field `sh_type` of the section header with index `k`. -/
def shType (f : List Nat) (k : Nat) : Nat := rawAt f (headerOffset f k + 4) 4

/-- Field `sh_offset` of the section header with index `k`. -/
def shOffset (f : List Nat) (k : Nat) : Nat := rawAt f (headerOffset f k + 24) 8

/-- Field `sh_size` of the section header with index `k`. -/
def shSize (f : List Nat) (k : Nat) : Nat := rawAt f (headerOffset f k + 32) 8

/-- Field `sh_link` of the section header with index `k`. -/
def shLink (f : List Nat) (k : Nat) : Nat := rawAt f (headerOffset f k + 40) 4

/-- Field `sh_entsize` of the section header with index `k`. -/
def shEntsize (f : List Nat) (k : Nat) : Nat := rawAt f (headerOffset f k + 56) 8

/-- Offset of the entry with index `j` of the section with index `k`. -/
def entryOffset (f : List Nat) (k j : Nat) : Int :=
  toPtrdiff (shOffset f k) + (sizeofDyn : Int) * (j : Int)

/-- Field `d_tag` of that entry. -/
def dTag (f : List Nat) (k j : Nat) : Nat := rawAt f (entryOffset f k j) 8

/-- Field `d_val` of that entry. -/
def dVal (f : List Nat) (k j : Nat) : Nat := rawAt f (entryOffset f k j + 8) 8

/-- Offset of the name that entry refers to: the offset of the string table section
named by `sh_link` plus `d_val`. -/
def nameOffset (f : List Nat) (k j : Nat) : Int :=
  toPtrdiff ((shOffset f (shLink f k) + dVal f k j) % 2 ^ 64)

/-- The name the entry with index `j` of the section with index `k` refers to starts
inside the file and ends with a NUL inside the file. -/
def NameInside (f : List Nat) (k j : Nat) : Prop :=
  InBounds f (nameOffset f k j) 1
    ∧ 0 ∈ (f.drop (nameOffset f k j).toNat).map (fun b => b % 256)

instance (f : List Nat) (k j : Nat) : Decidable (NameInside f k j) := by
  unfold NameInside; infer_instance

/-- The dynamic section with index `k` has entries of 16 bytes that lie inside the
file, names a section of the table as its string table, and every name a `DT_NEEDED`
entry of it refers to lies inside the file. -/
def DynamicInside (f : List Nat) (k : Nat) : Prop :=
  shEntsize f k = sizeofDyn
    ∧ InBounds f (toPtrdiff (shOffset f k)) (shSize f k)
    ∧ shLink f k < rawAt f 60 2
    ∧ ∀ j < shSize f k / sizeofDyn, dTag f k j = DT_NEEDED → NameInside f k j

instance (f : List Nat) (k : Nat) : Decidable (DynamicInside f k) := by
  unfold DynamicInside; infer_instance

/-- A well-formed 64-bit ELF image: the header, the `e_shnum` section headers of 64
bytes at `e_shoff`, the entries of every dynamic section and every NUL-terminated name
a `DT_NEEDED` entry refers to lie inside the file. -/
def WellFormed (f : List Nat) : Prop :=
  InBounds f 0 sizeofEhdr ∧ rawAt f 58 2 = sizeofShdr
    ∧ InBounds f (toPtrdiff (rawAt f 40 8)) (sizeofShdr * rawAt f 60 2)
    ∧ ∀ k < rawAt f 60 2, shType f k = SHT_DYNAMIC → DynamicInside f k

instance (f : List Nat) : Decidable (WellFormed f) := by
  unfold WellFormed; infer_instance

/-- An image whose section header table holds a dynamic section with a `DT_NEEDED`
entry that refers to a name outside the file. -/
def BadNeeded (f : List Nat) : Prop :=
  rawAt f 58 2 ≠ 0 ∧ ∃ k < rawAt f 60 2, shType f k = SHT_DYNAMIC
    ∧ ∃ j < shSize f k / shEntsize f k, dTag f k j = DT_NEEDED
      ∧ ¬ InBounds f (nameOffset f k j) 1

instance (f : List Nat) : Decidable (BadNeeded f) := by
  unfold BadNeeded; infer_instance

/-- The extractor as the spec words it: the walk over exactly the `e_shnum` section
headers of the table. -/
def extractExpected (f : List Nat) : Except ExtractError (List String) :=
  match readHeader f with
  | .error e => .error e
  | .ok elf => walkSections f (toPtrdiff elf.e_shoff) (List.range elf.e_shnum)

/-! ## Images used in examples -/

/-- The `width` bytes of the little-endian encoding of `x`. -/
def leBytes (width x : Nat) : List Nat :=
  (List.range width).map (fun i => x / 256 ^ i % 256)

/-- An `Elf64_Ehdr` with the given `e_shoff`, `e_shentsize` and `e_shnum`, zero elsewhere. -/
def ehdrBytes (shoff shentsize shnum : Nat) : List Nat :=
  List.replicate 40 0 ++ leBytes 8 shoff ++ List.replicate 10 0 ++ leBytes 2 shentsize
    ++ leBytes 2 shnum ++ List.replicate 2 0

/-- An `Elf64_Shdr` with the given `sh_type`, `sh_offset`, `sh_size`, `sh_link` and
`sh_entsize`, zero elsewhere. -/
def shdrBytes (type offset size link entsize : Nat) : List Nat :=
  List.replicate 4 0 ++ leBytes 4 type ++ List.replicate 16 0 ++ leBytes 8 offset
    ++ leBytes 8 size ++ leBytes 4 link ++ List.replicate 12 0 ++ leBytes 8 entsize

/-- An `Elf64_Dyn` with the given `d_tag` and `d_val`. -/
def dynBytes (tag val : Nat) : List Nat := leBytes 8 tag ++ leBytes 8 val

/-- The bytes of a string followed by a NUL. -/
def cstrBytes (s : String) : List Nat := s.data.map Char.toNat ++ [0]

/-- The smallest image with a section header table: the header and one section header
of type `SHT_NULL` right behind it, 128 bytes. -/
def imageMinimal : List Nat := ehdrBytes 64 64 1 ++ shdrBytes 0 0 0 0 0

/-- An image with a dynamic section (entries at byte 64, string table `libB.so` at byte
96, two section headers at byte 112) that declares `libB.so`, 240 bytes. -/
def imageNeedsB : List Nat :=
  ehdrBytes 112 64 2 ++ dynBytes 1 1 ++ dynBytes 0 0
    ++ [0] ++ cstrBytes "libB.so" ++ List.replicate 7 0
    ++ shdrBytes 6 64 32 1 16 ++ shdrBytes 3 96 9 0 0

/-- An image whose `DT_NEEDED` entry has `d_val = 4096`, far behind the end of its 225
bytes: entries at byte 64, section headers at byte 96, string table at byte 224. -/
def imageBadName : List Nat :=
  ehdrBytes 96 64 2 ++ dynBytes 1 4096 ++ dynBytes 0 0
    ++ shdrBytes 6 64 32 1 16 ++ shdrBytes 3 224 1 0 0 ++ [0]

/-- The image `imageNeedsB` with a second `DT_NEEDED` entry, whose `d_val = 4096` is far
behind the end of the 240 bytes. -/
def imageGoodThenBad : List Nat :=
  ehdrBytes 112 64 2 ++ dynBytes 1 1 ++ dynBytes 1 4096
    ++ [0] ++ cstrBytes "libB.so" ++ List.replicate 7 0
    ++ shdrBytes 6 64 32 1 16 ++ shdrBytes 3 96 9 0 0

/-- An image of 4160 bytes with one section header of type `SHT_NULL` at byte 64 and,
behind the table, data that reads as a section header of type `SHT_DYNAMIC` (byte
128) with one `DT_NEEDED` entry (byte 200) whose name `evil.so` is at byte 264. -/
def imageTrailingData : List Nat :=
  ehdrBytes 64 64 1 ++ shdrBytes 0 0 0 0 0 ++ shdrBytes 6 200 16 0 16
    ++ (List.replicate 8 0 ++ dynBytes 1 264 ++ List.replicate 40 0)
    ++ (List.replicate 8 0 ++ cstrBytes "evil.so" ++ List.replicate 48 0)
    ++ List.replicate 3840 0

/-- The bytes in front of the first NUL of `bytes`. -/
def cstringAt : List Nat → List Nat
  | [] => []
  | b :: bs => if b % 256 = 0 then [] else b % 256 :: cstringAt bs

/-- The NUL-terminated name that starts at `offset`. -/
def nameAt (f : List Nat) (offset : Int) : String :=
  String.mk ((cstringAt (f.drop offset.toNat)).map Char.ofNat)

/-- The names the `DT_NEEDED` entries with the given indices of the section with index
`k` refer to, in order. -/
def entryNames (f : List Nat) (k : Nat) : List Nat → List String
  | [] => []
  | j :: js =>
    if dTag f k j = DT_NEEDED then nameAt f (nameOffset f k j) :: entryNames f k js
    else entryNames f k js

/-- The names the section with index `k` declares: none unless it is a dynamic section. -/
def sectionNames (f : List Nat) (k : Nat) : List String :=
  if shType f k = SHT_DYNAMIC then entryNames f k (List.range (shSize f k / shEntsize f k))
  else []

/-- The names the sections with the given indices declare, in order. -/
def sectionsNames (f : List Nat) : List Nat → List String
  | [] => []
  | k :: ks => sectionNames f k ++ sectionsNames f ks

/-- The names a well-formed image declares: those of the `DT_NEEDED` entries of the
dynamic sections among its `e_shnum` section headers, in the order of the file. -/
def declaredNames (f : List Nat) : List String :=
  sectionsNames f (List.range (rawAt f 60 2))

/-! ## The resolver -/

theorem pushPhaseDirectories_eq (phase : LoadPhase) :
    pushPhaseDirectories phase = searchDirectories phase := by
  cases phase <;> decide

/-- The separator the operator `/` puts behind `root`. -/
theorem pathJoin_dir_data (root : String) {dir : String} (hdir : dir ∈ phaseDirectories) :
    (pathJoin root dir).data
      = root.data ++ (if root.data = [] ∨ root.data.getLast? = some '/' then [] else ['/'])
          ++ dir.data := by
  have h : dir = "libs" ∨ dir = "early_mods" ∨ dir = "mods" := by
    simpa [phaseDirectories] using hdir
  have hrel : pathJoin root dir
      = if root.data = [] ∨ root.data.getLast? = some '/' then root ++ dir
        else root ++ "/" ++ dir := by
    rcases h with rfl | rfl | rfl <;> rfl
  rw [hrel]
  split <;> simp [String.data_append]

theorem candidate_plain (root : String) {dir name : String} (hdir : dir ∈ phaseDirectories)
    (hname : PlainName name) : candidate root dir name = pathJoin root dir ++ "/" ++ name := by
  have hdata := pathJoin_dir_data root hdir
  have hlast : (pathJoin root dir).data ≠ []
      ∧ (pathJoin root dir).data.getLast? ≠ some '/' := by
    have h : dir = "libs" ∨ dir = "early_mods" ∨ dir = "mods" := by
      simpa [phaseDirectories] using hdir
    rw [hdata]
    rcases h with rfl | rfl | rfl <;> simp [List.getLast?_append]
  unfold candidate
  generalize pathJoin root dir = x at hlast
  unfold pathJoin
  split
  · rename_i cs hcs
    exact absurd (hcs ▸ List.mem_cons_self _ _ : '/' ∈ name.data) hname
  · rw [if_neg (not_or.2 hlast)]

theorem append_sep_inj {α : Type} {a : α} :
    ∀ {l₁ l₂ r₁ r₂ : List α}, a ∉ r₁ → a ∉ r₂ →
      l₁ ++ a :: r₁ = l₂ ++ a :: r₂ → l₁ = l₂ ∧ r₁ = r₂
  | [], [], _, _, _, _, h => ⟨rfl, (List.cons.inj h).2⟩
  | [], b :: l₂, r₁, _, h₁, _, h => by
    have := (List.cons.inj h).2
    exact absurd (this ▸ List.mem_append_right _ (List.mem_cons_self _ _)) h₁
  | b :: l₁, [], _, r₂, _, h₂, h => by
    have := (List.cons.inj h).2
    exact absurd (this ▸ List.mem_append_right _ (List.mem_cons_self _ _)) h₂
  | b :: l₁, c :: l₂, _, _, h₁, h₂, h => by
    obtain ⟨hbc, ht⟩ := List.cons.inj h
    obtain ⟨hl, hr⟩ := append_sep_inj h₁ h₂ ht
    exact ⟨by rw [hbc, hl], hr⟩

/-- The candidates of plain names are files of one directory only. -/
theorem candidate_inj (root : String) {dir dir' name name' : String}
    (hdir : dir ∈ phaseDirectories) (hdir' : dir' ∈ phaseDirectories)
    (hname : PlainName name) (hname' : PlainName name')
    (h : candidate root dir' name' = candidate root dir name) : dir' = dir ∧ name' = name := by
  rw [candidate_plain root hdir hname, candidate_plain root hdir' hname'] at h
  have hd := congrArg String.data h
  rw [String.data_append, String.data_append, String.data_append, String.data_append] at hd
  have hsep : ("/" : String).data = ['/'] := rfl
  rw [hsep, List.append_assoc, List.append_assoc, List.singleton_append,
    List.singleton_append] at hd
  obtain ⟨hx, hn⟩ := append_sep_inj hname' hname hd
  rw [pathJoin_dir_data root hdir, pathJoin_dir_data root hdir'] at hx
  exact ⟨String.ext (List.append_cancel_left hx), String.ext hn⟩

theorem findSharedObjectLoop_path (fs : FileSystem) (root name : String) (paths : List String) :
    ∀ (check : String) (opened : LoadPhase),
      (findSharedObjectLoop fs root name paths check opened).map
          (Option.map (fun r => r.1.path))
        = match fs.pathExists check with
          | .error what => .error (.filesystemError what)
          | .ok true => .ok (some check)
          | .ok false => firstExistingIn fs root name paths := by
  induction paths with
  | nil =>
    intro check opened
    rw [findSharedObjectLoop]
    cases fs.pathExists check with
    | error what => rfl
    | ok b => cases b <;> rfl
  | cons dir rest ih =>
    intro check opened
    rw [findSharedObjectLoop]
    cases fs.pathExists check with
    | error what => rfl
    | ok b =>
      cases b
      · simp only []
        rw [ih]
        rfl
      · rfl

theorem findSharedObject_path (fs : FileSystem) (root name : String) (phase : LoadPhase) :
    (findSharedObject fs root phase name).map (Option.map (fun r => r.1.path))
      = firstExisting fs root phase name := by
  unfold findSharedObject firstExisting
  rw [pushPhaseDirectories_eq]
  cases phase <;>
    (simp only [searchDirectories]
     rw [findSharedObjectLoop_path]
     rfl)

theorem findSharedObjectLoop_congr (fs fs' : FileSystem) (root name : String)
    (paths : List String) :
    ∀ (check : String) (opened : LoadPhase),
      fs'.pathExists check = fs.pathExists check →
      (∀ dir ∈ paths, fs'.pathExists (candidate root dir name)
        = fs.pathExists (candidate root dir name)) →
      findSharedObjectLoop fs' root name paths check opened
        = findSharedObjectLoop fs root name paths check opened := by
  induction paths with
  | nil =>
    intro check opened hc _
    rw [findSharedObjectLoop, findSharedObjectLoop, hc]
  | cons dir rest ih =>
    intro check opened hc hp
    rw [findSharedObjectLoop, findSharedObjectLoop, hc]
    cases fs.pathExists check with
    | error what => rfl
    | ok b =>
      cases b
      · exact ih _ _ (hp dir (List.mem_cons_self _ _))
          (fun d hd => hp d (List.mem_cons_of_mem _ hd))
      · rfl

theorem findSharedObject_congr (fs fs' : FileSystem) (root name : String) (phase : LoadPhase)
    (h : ∀ dir ∈ searchDirectories phase, fs'.pathExists (candidate root dir name)
      = fs.pathExists (candidate root dir name)) :
    findSharedObject fs' root phase name = findSharedObject fs root phase name := by
  unfold findSharedObject
  rw [pushPhaseDirectories_eq]
  cases hs : searchDirectories phase with
  | nil => rfl
  | cons dir paths =>
    rw [hs] at h
    exact findSharedObjectLoop_congr fs fs' root name paths _ _
      (h dir (List.mem_cons_self _ _)) (fun d hd => h d (List.mem_cons_of_mem _ hd))

theorem searchDirectories_subset (phase : LoadPhase) :
    ∀ dir ∈ searchDirectories phase, dir ∈ phaseDirectories := by
  cases phase <;> simp [searchDirectories, phaseDirectories]

theorem findSharedObject_libs_hit (fs : FileSystem) (root name : String) (phase : LoadPhase)
    (h : fs.pathExists (candidate root "libs" name) = .ok true) :
    findSharedObject fs root phase name = .ok (some (⟨candidate root "libs" name⟩, phase)) := by
  unfold findSharedObject
  rw [pushPhaseDirectories_eq]
  cases phase <;>
    (simp only [searchDirectories]
     rw [findSharedObjectLoop]
     have h' : fs.pathExists (pathJoin (pathJoin root "libs") name) = .ok true := h
     rw [h']
     rfl)

theorem findSharedObject_libs_miss (fs : FileSystem) (root name : String)
    (h : fs.pathExists (candidate root "libs" name) = .ok false) :
    findSharedObject fs root .Libs name = .ok none := by
  unfold findSharedObject
  rw [pushPhaseDirectories_eq]
  simp only [searchDirectories]
  rw [findSharedObjectLoop]
  have h' : fs.pathExists (pathJoin (pathJoin root "libs") name) = .ok false := h
  rw [h']

/-- Claim C3, refuted as stated: from `Libs` the absolute name `/r/mods/libz.so`, a file
that exists in `mods` only, is found, because an absolute name replaces the
directory; and a name that exists in `early_mods` gives no result from `EarlyMods` when
the test of the candidate in `libs` throws. -/
theorem findSharedObject_consults_outside_libs :
    fsModsOnly.pathExists "/r/mods/libz.so" = .ok true
      ∧ findSharedObject fsModsOnly "/r" .Libs "/r/mods/libz.so"
          = .ok (some (⟨"/r/mods/libz.so"⟩, .Libs))
      ∧ fsLibsUnreadable.pathExists (candidate "/r" "early_mods" "liby.so") = .ok true
      ∧ findSharedObject fsLibsUnreadable "/r" .EarlyMods "liby.so"
          = .error (.filesystemError "filesystem error: status: Permission denied") := by
  decide

/-- Claim C3, amended: for every root directory, every name without a `/` and every
requesting phase, `findSharedObject` tests the candidates `root/<dir>/name` of the
directories from `libs` down to the directory of the requesting phase, in the order
`libs`, `early_mods`, `mods`: it returns the first candidate whose test succeeds,
not-found when every test fails, and the exception of a test that throws before. A
candidate is a file of its directory and of no other, and the result is the same for
every file system that agrees on the candidates of the searched directories, so the
more specific directories are never consulted; a name in `libs` resolves to the copy
in `libs`, and from `Libs` a name that is not in `libs` is not found. -/
theorem findSharedObject_plain_name (fs : FileSystem) (root name : String)
    (phase : LoadPhase) (hname : PlainName name) :
    (findSharedObject fs root phase name).map (Option.map (fun r => r.1.path))
        = firstExisting fs root phase name
      ∧ (∀ dir ∈ phaseDirectories,
          candidate root dir name = pathJoin root dir ++ "/" ++ name
            ∧ ∀ dir' ∈ phaseDirectories, ∀ name', PlainName name' →
                candidate root dir' name' = candidate root dir name →
                dir' = dir ∧ name' = name)
      ∧ (∀ fs' : FileSystem,
          (∀ dir ∈ searchDirectories phase, fs'.pathExists (candidate root dir name)
            = fs.pathExists (candidate root dir name)) →
          findSharedObject fs' root phase name = findSharedObject fs root phase name)
      ∧ ((∀ dir ∈ searchDirectories phase,
            ∃ b, fs.pathExists (candidate root dir name) = .ok b) →
          ((∃ r, findSharedObject fs root phase name = .ok (some r))
            ↔ ∃ dir ∈ searchDirectories phase,
                fs.pathExists (candidate root dir name) = .ok true))
      ∧ (fs.pathExists (candidate root "libs" name) = .ok true →
          findSharedObject fs root phase name
            = .ok (some (⟨candidate root "libs" name⟩, phase)))
      ∧ (fs.pathExists (candidate root "libs" name) = .ok false →
          findSharedObject fs root .Libs name = .ok none) := by
  refine ⟨findSharedObject_path fs root name phase, ?_, ?_, ?_,
    findSharedObject_libs_hit fs root name phase, findSharedObject_libs_miss fs root name⟩
  · intro dir hdir
    exact ⟨candidate_plain root hdir hname, fun dir' hdir' name' hname' h =>
      candidate_inj root hdir hdir' hname hname' h⟩
  · intro fs' h
    exact findSharedObject_congr fs fs' root name phase h
  · intro hall
    have hpath := findSharedObject_path fs root name phase
    unfold firstExisting at hpath
    generalize findSharedObject fs root phase name = res at hpath
    generalize searchDirectories phase = dirs at hall hpath
    induction dirs generalizing res with
    | nil =>
      rw [firstExistingIn] at hpath
      constructor
      · rintro ⟨r, rfl⟩; cases hpath
      · rintro ⟨dir, hdir, -⟩; cases hdir
    | cons d ds ih =>
      rw [firstExistingIn] at hpath
      obtain ⟨b, hb⟩ := hall d (List.mem_cons_self _ _)
      rw [hb] at hpath
      cases b
      · simp only [] at hpath
        have := ih res (fun x hx => hall x (List.mem_cons_of_mem _ hx)) hpath
        refine this.trans ?_
        constructor
        · rintro ⟨dir, hdir, h⟩; exact ⟨dir, List.mem_cons_of_mem _ hdir, h⟩
        · rintro ⟨dir, hdir, h⟩
          rcases List.mem_cons.1 hdir with rfl | hdir
          · rw [hb] at h; cases h
          · exact ⟨dir, hdir, h⟩
      · simp only [] at hpath
        constructor
        · intro _; exact ⟨d, List.mem_cons_self _ _, hb⟩
        · intro _
          cases res with
          | error e => cases hpath
          | ok o =>
            cases o with
            | none => cases hpath
            | some r => exact ⟨r, rfl⟩

theorem findSharedObject_plain_name_witness :
    PlainName "libx.so"
      ∧ (findSharedObject fsLibsAndMods "/r" .Mods "libx.so").map
          (Option.map (fun r => r.1.path)) = .ok (some "/r/libs/libx.so")
      ∧ findSharedObject fsModsOnly "/r" .Libs "libz.so" = .ok none :=
  ⟨by decide,
    (findSharedObject_plain_name fsLibsAndMods "/r" "libx.so" .Mods (by decide)).1.trans
      (by decide),
    (findSharedObject_plain_name fsModsOnly "/r" "libz.so" .Mods (by decide)).2.2.2.2.2
      (by decide)⟩

/-! ## Trees -/

theorem Dependency.nodes_eq (d : Dependency) :
    d.nodes = d :: Dependency.nodesList d.dependencies := by
  cases d; simp [Dependency.nodes, Dependency.dependencies]

theorem Dependency.self_mem_nodes (d : Dependency) : d ∈ d.nodes := by
  rw [Dependency.nodes_eq]; exact List.mem_cons_self _ _

theorem Dependency.mem_nodesList {n : Dependency} {l : List Dependency} :
    n ∈ Dependency.nodesList l ↔ ∃ d ∈ l, n ∈ d.nodes := by
  induction l with
  | nil => simp [Dependency.nodesList]
  | cons d ds ih => simp [Dependency.nodesList, ih]

theorem Dependency.size_le_sizeList {c : Dependency} {l : List Dependency} (h : c ∈ l) :
    c.size ≤ Dependency.sizeList l := by
  induction l with
  | nil => cases h
  | cons d ds ih =>
    simp only [Dependency.sizeList]
    rcases List.mem_cons.1 h with rfl | h
    · omega
    · have := ih h; omega

theorem Dependency.size_lt_of_mem {c d : Dependency} (h : c ∈ d.dependencies) :
    c.size < d.size := by
  cases d with
  | mk o ds =>
    have := Dependency.size_le_sizeList (show c ∈ ds from h)
    simp only [Dependency.size]; omega

/-- Induction over a tree: a property holds of a node once it holds of its children. -/
theorem Dependency.induct {P : Dependency → Prop}
    (step : ∀ d : Dependency, (∀ c ∈ d.dependencies, P c) → P d) : ∀ d, P d := by
  have key : ∀ n : Nat, ∀ d : Dependency, d.size = n → P d := by
    intro n
    induction n using Nat.strong_induction_on with
    | _ n ih =>
      intro d hd
      apply step
      intro c hc
      exact ih c.size (hd ▸ Dependency.size_lt_of_mem hc) c rfl
  intro d
  exact key d.size d rfl

theorem Dependency.mem_nodes_iff {n d : Dependency} :
    n ∈ d.nodes ↔ n = d ∨ ∃ c ∈ d.dependencies, n ∈ c.nodes := by
  rw [Dependency.nodes_eq, List.mem_cons, Dependency.mem_nodesList]

theorem Dependency.nodes_trans {n d : Dependency} (hn : n ∈ d.nodes) :
    ∀ m ∈ n.nodes, m ∈ d.nodes := by
  induction d using Dependency.induct with
  | step d ih =>
    intro m hm
    rcases Dependency.mem_nodes_iff.1 hn with rfl | ⟨c, hc, hnc⟩
    · exact hm
    · exact Dependency.mem_nodes_iff.2 (Or.inr ⟨c, hc, ih c hc hnc m hm⟩)

theorem Dependency.child_mem_nodes {c d : Dependency} (hc : c ∈ d.dependencies) :
    c ∈ d.nodes :=
  Dependency.mem_nodes_iff.2 (Or.inr ⟨c, hc, c.self_mem_nodes⟩)

theorem Dependency.mem_descendants {m n : Dependency} :
    m ∈ n.descendants ↔ ∃ c ∈ n.dependencies, m ∈ c.nodes := by
  unfold Dependency.descendants; exact Dependency.mem_nodesList

theorem nodesList_closed {f : List Dependency} {n c : Dependency}
    (hn : n ∈ Dependency.nodesList f) (hc : c ∈ n.dependencies) :
    c ∈ Dependency.nodesList f := by
  obtain ⟨d, hd, hnd⟩ := Dependency.mem_nodesList.1 hn
  exact Dependency.mem_nodesList.2
    ⟨d, hd, Dependency.nodes_trans hnd c (Dependency.child_mem_nodes hc)⟩

theorem mem_sortDependencies {d : Dependency} {l : List Dependency} :
    d ∈ sortDependencies l ↔ d ∈ l :=
  (List.perm_insertionSort _ l).mem_iff

theorem mem_nodesList_sortDependencies {n : Dependency} {l : List Dependency} :
    n ∈ Dependency.nodesList (sortDependencies l) ↔ n ∈ Dependency.nodesList l := by
  simp only [Dependency.mem_nodesList, mem_sortDependencies]

/-! ## The flattening pass on arbitrary forests -/

theorem topologicalSortLoop_step (l : List Dependency)
    (hl : ∀ d ∈ l, ∀ st : SortState, st.Sound →
      SortState.Step (d.nodes.map Dependency.path) st (topologicalSortRecurse d st).2) :
    ∀ st : SortState, st.Sound →
      SortState.Step ((Dependency.nodesList l).map Dependency.path) st
        (topologicalSortLoop l st).2 := by
  induction l with
  | nil =>
    intro st hst
    rw [topologicalSortLoop]
    exact ⟨⟨[], by simp, by simp⟩, fun _ h => h, hst⟩
  | cons d ds ih =>
    intro st hst
    rw [topologicalSortLoop]
    obtain ⟨⟨new₁, hstack₁, hnew₁⟩, hvis₁, hsound₁⟩ := hl d (List.mem_cons_self _ _) st hst
    obtain ⟨⟨new₂, hstack₂, hnew₂⟩, hvis₂, hsound₂⟩ :=
      ih (fun c hc => hl c (List.mem_cons_of_mem _ hc)) _ hsound₁
    refine ⟨⟨new₁ ++ new₂, ?_, ?_⟩, fun p hp => hvis₂ p (hvis₁ p hp), hsound₂⟩
    · simp only [hstack₂, hstack₁, List.append_assoc]
    · intro x hx
      simp only [Dependency.nodesList, List.map_append, List.mem_append]
      rcases List.mem_append.1 hx with h | h
      · exact ⟨(hnew₁ x h).1, Or.inl (hnew₁ x h).2⟩
      · exact ⟨fun hv => (hnew₂ x h).1 (hvis₁ _ hv), Or.inr (hnew₂ x h).2⟩

theorem topologicalSortRecurse_visited {main : Dependency} {st : SortState}
    (hv : main.path ∈ st.visited) : topologicalSortRecurse main st = (main, st) := by
  rw [topologicalSortRecurse, if_pos hv]

theorem topologicalSortRecurse_fresh {main : Dependency} {st : SortState}
    (hv : main.path ∉ st.visited) :
    (topologicalSortRecurse main st).2.stack =
        (topologicalSortLoop (sortDependencies main.dependencies)
          { st with visited := main.path :: st.visited }).2.stack ++
          [Dependency.mk main.object
            (topologicalSortLoop (sortDependencies main.dependencies)
              { st with visited := main.path :: st.visited }).1]
      ∧ (topologicalSortRecurse main st).2.visited =
        (topologicalSortLoop (sortDependencies main.dependencies)
          { st with visited := main.path :: st.visited }).2.visited := by
  rw [topologicalSortRecurse, if_neg hv]
  exact ⟨rfl, rfl⟩

theorem SortState.emitted_snoc (st st' : SortState) (o : SharedObject) (l : List Dependency)
    (h : st'.stack = st.stack ++ [Dependency.mk o l]) :
    st'.emitted = st.emitted ++ [o.path] := by
  simp [SortState.emitted, h, Dependency.path, Dependency.object]

theorem topologicalSortRecurse_step (d : Dependency) :
    ∀ st : SortState, st.Sound →
      SortState.Step (d.nodes.map Dependency.path) st (topologicalSortRecurse d st).2 := by
  induction d using Dependency.induct with
  | step main ih =>
    intro st hst
    by_cases hv : main.path ∈ st.visited
    · rw [topologicalSortRecurse_visited hv]
      exact ⟨⟨[], by simp, by simp⟩, fun _ h => h, hst⟩
    · obtain ⟨hstk, hvisEq⟩ := topologicalSortRecurse_fresh hv
      have hst₁ : SortState.Sound { st with visited := main.path :: st.visited } :=
        ⟨fun p hp => List.mem_cons_of_mem _ (hst.1 p hp), hst.2⟩
      obtain ⟨⟨new, hstack, hnew⟩, hvis, hsound⟩ :=
        topologicalSortLoop_step (sortDependencies main.dependencies)
          (fun c hc => ih c (mem_sortDependencies.1 hc)) _ hst₁
      have hem := SortState.emitted_snoc _ _ _ _ hstk
      have hfresh : main.path ∉ (topologicalSortLoop (sortDependencies main.dependencies)
          { st with visited := main.path :: st.visited }).2.emitted := by
        intro hmem
        simp only [SortState.emitted, hstack, List.map_append, List.mem_append,
          List.mem_map] at hmem
        rcases hmem with ⟨x, hx, hxp⟩ | ⟨x, hx, hxp⟩
        · exact hv (hst.1 _ (List.mem_map.2 ⟨x, hx, hxp⟩))
        · exact (hnew x hx).1 (hxp ▸ List.mem_cons_self _ _)
      generalize topologicalSortLoop (sortDependencies main.dependencies)
        { st with visited := main.path :: st.visited } = r at hstk hvisEq hstack hvis hsound hem hfresh
      refine ⟨⟨new ++ [Dependency.mk main.object r.1], ?_, ?_⟩, ?_, ?_, ?_⟩
      · rw [hstk, hstack, List.append_assoc]
      · intro x hx
        rcases List.mem_append.1 hx with h | h
        · refine ⟨fun hx' => (hnew x h).1 (List.mem_cons_of_mem _ hx'), ?_⟩
          obtain ⟨n, hn, hnx⟩ := List.mem_map.1 (hnew x h).2
          rw [Dependency.nodes_eq]
          exact List.mem_map.2
            ⟨n, List.mem_cons_of_mem _ (mem_nodesList_sortDependencies.1 hn), hnx⟩
        · rw [List.mem_singleton.1 h]
          exact ⟨hv, List.mem_map.2 ⟨main, main.self_mem_nodes, rfl⟩⟩
      · intro p hp
        rw [hvisEq]
        exact hvis p (List.mem_cons_of_mem _ hp)
      · intro p hp
        rw [hem] at hp
        rw [hvisEq]
        rcases List.mem_append.1 hp with h | h
        · exact hsound.1 p h
        · rw [List.mem_singleton.1 h]; exact hvis _ (List.mem_cons_self _ _)
      · show (topologicalSortRecurse main st).2.emitted.Nodup
        rw [hem]
        exact List.Nodup.append hsound.2 (List.nodup_singleton _)
          (List.disjoint_singleton.2 hfresh)

theorem topologicalSort_step (f : List Dependency) :
    (sortedPaths f).Nodup ∧ ∀ p ∈ sortedPaths f, p ∈ forestPaths f := by
  have hst : SortState.Sound { stack := [], visited := [] } :=
    ⟨by simp [SortState.emitted], by simp [SortState.emitted]⟩
  obtain ⟨⟨new, hstack, hnew⟩, -, hsound⟩ :=
    topologicalSortLoop_step (sortDependencies f)
      (fun d _ => topologicalSortRecurse_step d) _ hst
  refine ⟨hsound.2, ?_⟩
  intro p hp
  obtain ⟨x, hx, rfl⟩ := List.mem_map.1 hp
  have hx' : x ∈ new := by
    have : x ∈ (topologicalSortLoop (sortDependencies f) { stack := [], visited := [] }).2.stack := hx
    rw [hstack] at this; simpa using this
  obtain ⟨n, hn, hnx⟩ := List.mem_map.1 (hnew x hx').2
  exact List.mem_map.2 ⟨n, mem_nodesList_sortDependencies.1 hn, hnx⟩

/-! ## The flattening pass on acyclic forests -/

theorem ChildrenFirst.snoc {F : Dependency → Prop} {E : List String} (hE : ChildrenFirst F E)
    {n : Dependency} (hn : F n) (hfresh : n.path ∉ E)
    (hch : ∀ c ∈ n.dependencies, c.path ∈ E) : ChildrenFirst F (E ++ [n.path]) := by
  intro p hp
  rcases List.mem_append.1 hp with h | h
  · obtain ⟨m, hm, hmp, hmc⟩ := hE p h
    refine ⟨m, hm, hmp, fun c hc => ⟨List.mem_append_left _ (hmc c hc).1, ?_⟩⟩
    rw [List.indexOf_append_of_mem (hmc c hc).1, List.indexOf_append_of_mem h]
    exact (hmc c hc).2
  · rw [List.mem_singleton.1 h]
    refine ⟨n, hn, rfl, fun c hc => ⟨List.mem_append_left _ (hch c hc), ?_⟩⟩
    rw [List.indexOf_append_of_mem (hch c hc), List.indexOf_append_of_not_mem hfresh]
    exact Nat.lt_of_lt_of_le (List.indexOf_lt_length.2 (hch c hc)) (Nat.le_add_right _ _)

theorem AcyclicUnder.child {anc : List String} {d c : Dependency} (h : AcyclicUnder anc d)
    (hc : c ∈ d.dependencies) : AcyclicUnder (d.path :: anc) c := by
  have hsub : ∀ n ∈ c.nodes, n ∈ d.nodes :=
    Dependency.nodes_trans (Dependency.child_mem_nodes hc)
  refine ⟨fun n hn hmem => ?_, fun n hn => h.2 n (hsub n hn)⟩
  rcases List.mem_cons.1 hmem with heq | hmem
  · exact h.2 d d.self_mem_nodes n (Dependency.mem_descendants.2 ⟨c, hc, hn⟩) heq
  · exact h.1 n (hsub n hn) hmem

theorem topologicalSortLoop_emits (F : Dependency → Prop) (anc : List String)
    (l : List Dependency)
    (hl : ∀ d ∈ l, ∀ st : SortState, st.Ordered F anc →
      SortState.Emits F anc d.path st (topologicalSortRecurse d st).2) :
    ∀ st : SortState, st.Ordered F anc →
      (topologicalSortLoop l st).2.Ordered F anc
        ∧ (∀ q ∈ st.emitted, q ∈ (topologicalSortLoop l st).2.emitted)
        ∧ ∀ d ∈ l, d.path ∈ (topologicalSortLoop l st).2.emitted := by
  induction l with
  | nil =>
    intro st hst
    rw [topologicalSortLoop]
    exact ⟨hst, fun _ h => h, fun _ h => absurd h (List.not_mem_nil _)⟩
  | cons d ds ih =>
    intro st hst
    rw [topologicalSortLoop]
    obtain ⟨hord₁, hmono₁, hd⟩ := hl d (List.mem_cons_self _ _) st hst
    obtain ⟨hord₂, hmono₂, hds⟩ :=
      ih (fun c hc => hl c (List.mem_cons_of_mem _ hc)) _ hord₁
    refine ⟨hord₂, fun q hq => hmono₂ q (hmono₁ q hq), ?_⟩
    intro c hc
    rcases List.mem_cons.1 hc with rfl | hc
    · exact hmono₂ _ hd
    · exact hds c hc

theorem topologicalSortRecurse_emits (F : Dependency → Prop)
    (hF : ∀ n, F n → ∀ c ∈ n.dependencies, F c) (d : Dependency) :
    ∀ anc : List String, AcyclicUnder anc d → F d → ∀ st : SortState, st.Ordered F anc →
      SortState.Emits F anc d.path st (topologicalSortRecurse d st).2 := by
  induction d using Dependency.induct with
  | step main ih =>
    intro anc hac hmain st hst
    obtain ⟨hvis, hanc, hgood⟩ := hst
    have hnotanc : main.path ∉ anc := hac.1 main main.self_mem_nodes
    by_cases hv : main.path ∈ st.visited
    · rw [topologicalSortRecurse_visited hv]
      exact ⟨⟨hvis, hanc, hgood⟩, fun _ h => h, ((hvis _).1 hv).resolve_left hnotanc⟩
    · obtain ⟨hstk, hvisEq⟩ := topologicalSortRecurse_fresh hv
      have hnotem : main.path ∉ st.emitted := fun h => hv ((hvis _).2 (Or.inr h))
      have hst₁ : SortState.Ordered F (main.path :: anc)
          { st with visited := main.path :: st.visited } := by
        refine ⟨fun p => ?_, fun p hp => ?_, hgood⟩
        · show p ∈ main.path :: st.visited ↔ p ∈ main.path :: anc ∨ p ∈ st.emitted
          simp only [List.mem_cons, hvis p, or_assoc]
        · rcases List.mem_cons.1 hp with rfl | hp
          · exact hnotem
          · exact hanc p hp
      obtain ⟨⟨hvis₂, hanc₂, hgood₂⟩, hmono, hchildren⟩ :=
        topologicalSortLoop_emits F (main.path :: anc) (sortDependencies main.dependencies)
          (fun c hc => ih c (mem_sortDependencies.1 hc) (main.path :: anc)
            (hac.child (mem_sortDependencies.1 hc)) (hF main hmain c (mem_sortDependencies.1 hc)))
          _ hst₁
      have hem := SortState.emitted_snoc _ _ _ _ hstk
      generalize topologicalSortLoop (sortDependencies main.dependencies)
        { st with visited := main.path :: st.visited } = r at hstk hvisEq hvis₂ hanc₂ hgood₂ hmono hchildren hem
      have hem' : (topologicalSortRecurse main st).2.emitted = r.2.emitted ++ [main.path] := hem
      have hfresh : main.path ∉ r.2.emitted := hanc₂ _ (List.mem_cons_self _ _)
      refine ⟨⟨fun p => ?_, fun p hp => ?_, ?_⟩, fun q hq => ?_, ?_⟩
      · rw [hvisEq, hem', hvis₂ p]
        simp only [List.mem_cons, List.mem_append, List.mem_singleton]
        tauto
      · rw [hem']
        intro hmem
        rcases List.mem_append.1 hmem with h | h
        · exact hanc₂ p (List.mem_cons_of_mem _ hp) h
        · exact hnotanc (List.mem_singleton.1 h ▸ hp)
      · rw [hem']
        exact hgood₂.snoc hmain hfresh
          (fun c hc => hchildren c (mem_sortDependencies.2 hc))
      · rw [hem']; exact List.mem_append_left _ (hmono q hq)
      · rw [hem']; exact List.mem_append_right _ (List.mem_singleton_self _)

theorem topologicalSort_childrenFirst (f : List Dependency) (hac : AcyclicForest f) :
    ChildrenFirst (fun n => n ∈ Dependency.nodesList f) (sortedPaths f)
      ∧ ∀ d ∈ f, d.path ∈ sortedPaths f := by
  have hst : SortState.Ordered (fun n => n ∈ Dependency.nodesList f) []
      { stack := [], visited := [] } :=
    ⟨fun p => by simp [SortState.emitted], fun p hp => absurd hp (List.not_mem_nil _),
      fun p hp => absurd hp (by simp [SortState.emitted])⟩
  obtain ⟨⟨-, -, hgood⟩, -, hroots⟩ :=
    topologicalSortLoop_emits (fun n => n ∈ Dependency.nodesList f) [] (sortDependencies f)
      (fun d hd => topologicalSortRecurse_emits _ (fun n hn c hc => nodesList_closed hn hc) d []
        ⟨fun n _ => List.not_mem_nil _, fun n hn => hac n (Dependency.mem_nodesList.2
          ⟨d, mem_sortDependencies.1 hd, hn⟩)⟩
        (Dependency.mem_nodesList.2 ⟨d, mem_sortDependencies.1 hd, d.self_mem_nodes⟩))
      _ hst
  exact ⟨hgood, fun d hd => hroots d (mem_sortDependencies.2 hd)⟩

theorem ChildrenFirst.child_mem {f : List Dependency} {E : List String}
    (hE : ChildrenFirst (fun n => n ∈ Dependency.nodesList f) E) (hcons : ConsistentForest f)
    {n c : Dependency} (hn : n ∈ Dependency.nodesList f) (hp : n.path ∈ E)
    (hc : c ∈ n.dependencies) : c.path ∈ E ∧ E.indexOf c.path < E.indexOf n.path := by
  obtain ⟨m, hm, hmp, hmc⟩ := hE n.path hp
  have hcp : c.path ∈ m.childPaths :=
    hcons n hn m hm hmp.symm c.path (List.mem_map.2 ⟨c, hc, rfl⟩)
  obtain ⟨c', hc', hcc'⟩ := List.mem_map.1 hcp
  rw [← hcc']
  exact hmc c' hc'

theorem ChildrenFirst.subtree_mem {f : List Dependency} {E : List String}
    (hE : ChildrenFirst (fun n => n ∈ Dependency.nodesList f) E) (hcons : ConsistentForest f)
    (d : Dependency) :
    d ∈ Dependency.nodesList f → d.path ∈ E → ∀ n ∈ d.nodes, n.path ∈ E := by
  induction d using Dependency.induct with
  | step d ih =>
    intro hd hp n hn
    rcases Dependency.mem_nodes_iff.1 hn with rfl | ⟨c, hc, hnc⟩
    · exact hp
    · exact ih c hc (nodesList_closed hd hc) (hE.child_mem hcons hd hp hc).1 n hnc

theorem topologicalSort_covers (f : List Dependency) (hac : AcyclicForest f)
    (hcons : ConsistentForest f) : ∀ n ∈ Dependency.nodesList f, n.path ∈ sortedPaths f := by
  obtain ⟨hgood, hroots⟩ := topologicalSort_childrenFirst f hac
  intro n hn
  obtain ⟨d, hd, hnd⟩ := Dependency.mem_nodesList.1 hn
  exact hgood.subtree_mem hcons d (Dependency.mem_nodesList.2 ⟨d, hd, d.self_mem_nodes⟩)
    (hroots d hd) n hnd

theorem sortedPaths_forestLostPath : sortedPaths forestLostPath = ["x", "b", "a"] := by
  simp +decide [sortedPaths, forestLostPath, topologicalSort, topologicalSortRecurse,
    topologicalSortLoop, sortDependencies, node, leaf, Dependency.path, Dependency.object,
    Dependency.dependencies]

theorem sortedPaths_forestLateChild : sortedPaths forestLateChild = ["b", "z", "c", "a"] := by
  simp +decide [sortedPaths, forestLateChild, topologicalSort, topologicalSortRecurse,
    topologicalSortLoop, sortDependencies, node, leaf, Dependency.path, Dependency.object,
    Dependency.dependencies]

theorem consistentForest_iff (f : List Dependency) :
    ConsistentForest f ↔
      ∀ n ∈ Dependency.nodesList f, ∀ m ∈ Dependency.nodesList f,
        n.path = m.path → ∀ p, p ∈ n.childPaths ↔ p ∈ m.childPaths :=
  ⟨fun h n hn m hm hnm p => ⟨h n hn m hm hnm p, h m hm n hn hnm.symm p⟩,
    fun h n hn m hm hnm p hp => (h n hn m hm hnm p).1 hp⟩

/-- Claim C1, refuted as stated: the forest `forestLostPath` is acyclic and contains the
path `y`, which the output of `topologicalSort` does not contain. -/
theorem topologicalSort_acyclic_loses_path :
    AcyclicForest forestLostPath ∧ "y" ∈ forestPaths forestLostPath
      ∧ (sortedPaths forestLostPath).count "y" = 0 := by
  refine ⟨by decide, by decide, ?_⟩
  rw [sortedPaths_forestLostPath]; decide

/-- Claim C1, amended: for an acyclic forest in which nodes with the same path have the
same set of child paths, the output of `topologicalSort` contains every path of the
forest exactly once. -/
theorem topologicalSort_each_path_once (f : List Dependency) (hac : AcyclicForest f)
    (hcons : ConsistentForest f) (p : String) (hp : p ∈ forestPaths f) :
    (sortedPaths f).count p = 1 := by
  obtain ⟨n, hn, rfl⟩ := List.mem_map.1 hp
  exact List.count_eq_one_of_mem (topologicalSort_step f).1
    (topologicalSort_covers f hac hcons n hn)

theorem topologicalSort_each_path_once_witness :
    AcyclicForest forestDiamond ∧ ConsistentForest forestDiamond
      ∧ "c" ∈ forestPaths forestDiamond
      ∧ (sortedPaths forestDiamond).count "c" = 1 :=
  ⟨by decide, by decide, by decide,
    topologicalSort_each_path_once forestDiamond (by decide) (by decide) "c" (by decide)⟩

/-- Claim C2, refuted as stated: in the acyclic forest `forestLateChild` the node `b` under
`c` has the child `a`, and `a` is output after `b`. -/
theorem topologicalSort_acyclic_child_after_parent :
    AcyclicForest forestLateChild
      ∧ ∃ n ∈ Dependency.nodesList forestLateChild, ∃ c ∈ n.dependencies,
          c.path ∈ sortedPaths forestLateChild ∧ n.path ∈ sortedPaths forestLateChild
            ∧ (sortedPaths forestLateChild).indexOf n.path
              < (sortedPaths forestLateChild).indexOf c.path := by
  refine ⟨by decide, node "b" [leaf "a"], ?_, leaf "a", ?_, ?_⟩
  · simp [forestLateChild, Dependency.nodesList, Dependency.nodes, node, leaf]
  · simp [node, Dependency.dependencies]
  · rw [sortedPaths_forestLateChild]; decide

/-- Claim C2, amended: for an acyclic forest in which nodes with the same path have the
same set of child paths, and for every node of it and every child of that node, both
paths occur in the output of `topologicalSort` and the child's index is strictly
smaller than the parent's. -/
theorem topologicalSort_child_before_parent (f : List Dependency) (hac : AcyclicForest f)
    (hcons : ConsistentForest f) (n c : Dependency) (hn : n ∈ Dependency.nodesList f)
    (hc : c ∈ n.dependencies) :
    c.path ∈ sortedPaths f ∧ n.path ∈ sortedPaths f
      ∧ (sortedPaths f).indexOf c.path < (sortedPaths f).indexOf n.path := by
  have hp := topologicalSort_covers f hac hcons n hn
  obtain ⟨hmem, hlt⟩ := (topologicalSort_childrenFirst f hac).1.child_mem hcons hn hp hc
  exact ⟨hmem, hp, hlt⟩

theorem topologicalSort_child_before_parent_witness :
    AcyclicForest forestDiamond ∧ ConsistentForest forestDiamond
      ∧ node "b" [leaf "c"] ∈ Dependency.nodesList forestDiamond
      ∧ leaf "c" ∈ (node "b" [leaf "c"]).dependencies
      ∧ "c" ∈ sortedPaths forestDiamond ∧ "b" ∈ sortedPaths forestDiamond
      ∧ (sortedPaths forestDiamond).indexOf "c" < (sortedPaths forestDiamond).indexOf "b" :=
  ⟨by decide, by decide,
    by simp [forestDiamond, Dependency.nodesList, Dependency.nodes, node, leaf],
    by simp [node, Dependency.dependencies],
    topologicalSort_child_before_parent forestDiamond (by decide) (by decide)
      (node "b" [leaf "c"]) (leaf "c")
      (by simp [forestDiamond, Dependency.nodesList, Dependency.nodes, node, leaf])
      (by simp [node, Dependency.dependencies])⟩

/-! ## The tree builder never meets the object it started from -/

theorem findSharedObject_phase_le {fs : FileSystem} {root name : String} {q r : LoadPhase}
    {obj : SharedObject} (h : findSharedObject fs root q name = .ok (some (obj, r))) :
    r.toInt ≤ q.toInt := by
  cases q <;>
    simp only [findSharedObject, pushPhaseDirectories_eq, searchDirectories,
      findSharedObjectLoop] at h <;>
    (repeat' split at h) <;> simp_all <;> (obtain ⟨-, rfl⟩ := h; decide)

theorem findSharedObject_mono {fs : FileSystem} {root name : String} {q q' r : LoadPhase}
    {obj : SharedObject} (h : findSharedObject fs root q name = .ok (some (obj, r)))
    (hq : q'.toInt ≤ q.toInt) :
    ∃ r', findSharedObject fs root q' name = .ok (some (obj, r')) ∧ r'.toInt ≤ r.toInt := by
  cases q <;> cases q' <;> first
    | (exfalso; revert hq; decide)
    | (simp only [findSharedObject, pushPhaseDirectories_eq, searchDirectories,
        findSharedObjectLoop] at h ⊢
       (repeat' split at h) <;> simp_all <;> (obtain ⟨-, rfl⟩ := h; decide))

theorem forestPaths_nil : forestPaths [] = [] := rfl

theorem forestPaths_cons (obj : SharedObject) (sub deps : List Dependency) :
    forestPaths (Dependency.mk obj sub :: deps)
      = obj.path :: (forestPaths sub ++ forestPaths deps) := by
  simp [forestPaths, Dependency.nodesList, Dependency.nodes, Dependency.path,
    Dependency.object]

/-- Inversion of one round of the loop over the declared names. -/
theorem getToLoadNames_cons_ok
    {recurse : SharedObject → LoadPhase → Except LoadError (List Dependency)}
    {fs : FileSystem} {root : String} {q : LoadPhase} {name : String} {rest : List String}
    {t : List Dependency}
    (h : getToLoadNames recurse fs root q (name :: rest) = .ok t) :
    ((name = "" ∨ findSharedObject fs root q name = .ok none)
        ∧ getToLoadNames recurse fs root q rest = .ok t)
      ∨ ∃ obj r sub deps, name ≠ "" ∧ findSharedObject fs root q name = .ok (some (obj, r))
          ∧ recurse obj r = .ok sub ∧ getToLoadNames recurse fs root q rest = .ok deps
          ∧ t = Dependency.mk obj sub :: deps := by
  rw [getToLoadNames] at h
  split at h
  · exact Or.inl ⟨Or.inl ‹_›, h⟩
  · rename_i hne
    split at h
    · cases h
    · exact Or.inl ⟨Or.inr ‹_›, h⟩
    · rename_i obj r hfind
      split at h
      · cases h
      · rename_i sub hsub
        split at h
        · cases h
        · rename_i deps hdeps
          exact Or.inr ⟨obj, r, sub, deps, hne, hfind, hsub, hdeps, (Except.ok.inj h).symm⟩

theorem getToLoad_succ_ok {fs : FileSystem} {root : String} {n : Nat} {x : SharedObject}
    {q : LoadPhase} {t : List Dependency} (h : getToLoad fs root (n + 1) x q = .ok t) :
    ∃ names, fs.dtNeeded x.path = .ok names
      ∧ getToLoadNames (getToLoad fs root n) fs root q names = .ok t := by
  rw [getToLoad] at h
  split at h
  · cases h
  · exact ⟨_, ‹_›, h⟩

theorem getToLoad_zero {fs : FileSystem} {root : String} {x : SharedObject} {q : LoadPhase} :
    getToLoad fs root 0 x q = .error .outOfFuel := rfl

/-- A path of the tree built for `x` is the path of an object on which the builder
returned with less fuel and a phase of at most the rank of the phase of `x`. -/
theorem getToLoad_subcall {fs : FileSystem} {root : String} {y : String} (n : Nat) :
    ∀ (x : SharedObject) (q : LoadPhase) (t : List Dependency),
      getToLoad fs root n x q = .ok t → y ∈ forestPaths t →
      ∃ m, m < n ∧ ∃ q₂ : LoadPhase, q₂.toInt ≤ q.toInt ∧
        ∃ t₂, getToLoad fs root m ⟨y⟩ q₂ = .ok t₂ := by
  induction n with
  | zero => intro x q t h; cases h
  | succ n ih =>
    intro x q t h hy
    obtain ⟨names, -, hnames⟩ := getToLoad_succ_ok h
    clear h
    induction names generalizing t with
    | nil =>
      rw [getToLoadNames] at hnames
      cases hnames
      cases hy
    | cons name rest ihn =>
      rcases getToLoadNames_cons_ok hnames with ⟨-, hrest⟩ |
        ⟨obj, r, sub, deps, -, hfind, hsub, hdeps, rfl⟩
      · exact ihn t hy hrest
      · rw [forestPaths_cons] at hy
        have hr := findSharedObject_phase_le hfind
        rcases List.mem_cons.1 hy with rfl | hy
        · exact ⟨n, Nat.lt_succ_self n, r, hr, sub, hsub⟩
        · rcases List.mem_append.1 hy with hy | hy
          · obtain ⟨m, hm, q₂, hq₂, t₂, ht₂⟩ := ih obj r sub hsub hy
            exact ⟨m, Nat.lt_succ_of_lt hm, q₂, le_trans hq₂ hr, t₂, ht₂⟩
          · exact ihn deps hy hdeps

/-- Building the tree of the same object from a phase of smaller rank, with any fuel
that suffices, reaches every path reached before. -/
theorem getToLoad_mono {fs : FileSystem} {root : String} {y : String} (n : Nat) :
    ∀ (m : Nat) (x : SharedObject) (q q' : LoadPhase) (t t' : List Dependency),
      getToLoad fs root n x q = .ok t → getToLoad fs root m x q' = .ok t' →
      q'.toInt ≤ q.toInt → y ∈ forestPaths t → y ∈ forestPaths t' := by
  induction n with
  | zero => intro m x q q' t t' h; cases h
  | succ n ih =>
    intro m x q q' t t' h h' hq hy
    cases m with
    | zero => cases h'
    | succ m =>
      obtain ⟨names, hnames, ht⟩ := getToLoad_succ_ok h
      obtain ⟨names', hnames', ht'⟩ := getToLoad_succ_ok h'
      rw [hnames] at hnames'
      cases hnames'
      clear h h' hnames
      induction names generalizing t t' with
      | nil =>
        rw [getToLoadNames] at ht
        cases ht
        cases hy
      | cons name rest ihn =>
        rcases getToLoadNames_cons_ok ht with ⟨-, hrest⟩ |
          ⟨obj, r, sub, deps, hne, hfind, hsub, hdeps, rfl⟩
        · rcases getToLoadNames_cons_ok ht' with ⟨-, hrest'⟩ |
            ⟨obj', r', sub', deps', -, -, -, hdeps', rfl⟩
          · exact ihn t t' hy hrest hrest'
          · rw [forestPaths_cons]
            exact List.mem_cons_of_mem _ (List.mem_append_right _ (ihn t deps' hy hrest hdeps'))
        · obtain ⟨r₀, hfind₀, hr₀⟩ := findSharedObject_mono hfind hq
          rcases getToLoadNames_cons_ok ht' with ⟨hskip, -⟩ |
            ⟨obj', r', sub', deps', -, hfind', hsub', hdeps', rfl⟩
          · rcases hskip with h | h
            · exact absurd h hne
            · rw [hfind₀] at h; cases h
          · rw [hfind₀] at hfind'
            cases hfind'
            rw [forestPaths_cons] at hy ⊢
            rcases List.mem_cons.1 hy with rfl | hy
            · exact List.mem_cons_self _ _
            · refine List.mem_cons_of_mem _ ?_
              rcases List.mem_append.1 hy with hy | hy
              · exact List.mem_append_left _ (ih m obj r r₀ sub sub' hsub hsub' hr₀ hy)
              · exact List.mem_append_right _ (ihn deps deps' hy hdeps hdeps')

/-- When the tree builder returns, the object it was called on is not in its tree. -/
theorem getToLoad_not_self {fs : FileSystem} {root : String} (n : Nat) :
    ∀ (x : SharedObject) (q : LoadPhase) (t : List Dependency),
      getToLoad fs root n x q = .ok t → x.path ∉ forestPaths t := by
  induction n using Nat.strong_induction_on with
  | _ n ih =>
    intro x q t h hx
    obtain ⟨m, hm, q₂, hq₂, t₂, ht₂⟩ := getToLoad_subcall n x q t h hx
    exact ih m hm x q₂ t₂ ht₂ (getToLoad_mono n m x q q₂ t t₂ h ht₂ hq₂ hx)

/-! ## The orchestrator -/

theorem mem_openAndRecord_skipLoad {p x : String} {st : LoadState} :
    x ∈ (openAndRecord p st).skipLoad ↔ x = p ∨ x ∈ st.skipLoad := by
  unfold openAndRecord
  by_cases h : p ∈ st.skipLoad
  · simp only [if_pos h]
    constructor
    · exact Or.inr
    · rintro (rfl | hx)
      · exact h
      · exact hx
  · simp only [if_neg h, List.mem_cons]

theorem loadSorted_spec (l : List Dependency) :
    ∀ st : LoadState, (l.map Dependency.path).Nodup →
      (loadSorted l st).opened
          = st.opened ++ (l.map Dependency.path).filter (fun p => decide (p ∉ st.skipLoad))
        ∧ ∀ x, x ∈ (loadSorted l st).skipLoad ↔ x ∈ st.skipLoad ∨ x ∈ l.map Dependency.path := by
  induction l with
  | nil => intro st _; simp [loadSorted]
  | cons d ds ih =>
    intro st hnd
    rw [List.map_cons, List.nodup_cons] at hnd
    obtain ⟨hd, hds⟩ := hnd
    rw [loadSorted]
    by_cases hmem : d.path ∈ st.skipLoad
    · rw [if_pos hmem]
      obtain ⟨hop, hsk⟩ := ih st hds
      refine ⟨?_, fun x => ?_⟩
      · rw [hop, List.map_cons, List.filter_cons_of_neg (by simpa using hmem)]
      · rw [hsk x, List.map_cons, List.mem_cons]
        constructor
        · rintro (h | h)
          · exact Or.inl h
          · exact Or.inr (Or.inr h)
        · rintro (h | rfl | h)
          · exact Or.inl h
          · exact Or.inl hmem
          · exact Or.inr h
    · rw [if_neg hmem]
      obtain ⟨hop, hsk⟩ := ih (openAndRecord d.path st) hds
      refine ⟨?_, fun x => ?_⟩
      · rw [hop, List.map_cons, List.filter_cons_of_pos (by simpa using hmem)]
        have hfilter : (ds.map Dependency.path).filter
              (fun p => decide (p ∉ (openAndRecord d.path st).skipLoad))
            = (ds.map Dependency.path).filter (fun p => decide (p ∉ st.skipLoad)) := by
          apply List.filter_congr
          intro p hp
          have hne : p ≠ d.path := fun h => hd (h ▸ hp)
          simp [mem_openAndRecord_skipLoad, hne]
        rw [hfilter]
        simp [openAndRecord]
      · rw [hsk x, mem_openAndRecord_skipLoad, List.map_cons, List.mem_cons]
        tauto

/-- The list of paths a call of the loop opens, cut out of the trace. -/
theorem loadModsLoop_spec (fs : FileSystem) (fuel : Nat) (root : String) (phase : LoadPhase)
    (failed : List SharedObject) (mods : List SharedObject) :
    ∀ st : LoadState, ∃ new,
      (loadModsLoop fs fuel root phase failed mods st).1.opened = st.opened ++ new
        ∧ new.Nodup
        ∧ (∀ x ∈ new, x ∉ st.skipLoad)
        ∧ ∀ x, x ∈ (loadModsLoop fs fuel root phase failed mods st).1.skipLoad
            ↔ x ∈ st.skipLoad ∨ x ∈ new := by
  induction mods with
  | nil => intro st; exact ⟨[], by simp [loadModsLoop]⟩
  | cons mod rest ih =>
    intro st
    rw [loadModsLoop]
    by_cases hmem : mod.path ∈ st.skipLoad
    · rw [if_pos hmem]; exact ih st
    · rw [if_neg hmem]
      split
      · exact ⟨[], by simp⟩
      · rename_i deps hdeps
        obtain ⟨hnd, hsub⟩ := topologicalSort_step deps
        obtain ⟨hop, hsk⟩ := loadSorted_spec (topologicalSort deps) st hnd
        obtain ⟨new, hnew, hnewnd, hfresh, hskip⟩ :=
          ih (openAndRecord mod.path (loadSorted (topologicalSort deps) st))
        have hself : mod.path ∉ sortedPaths deps :=
          fun h => getToLoad_not_self fuel mod phase deps hdeps (hsub _ h)
        have hsk₂ : ∀ x, x ∈ (openAndRecord mod.path
            (loadSorted (topologicalSort deps) st)).skipLoad
              ↔ x = mod.path ∨ x ∈ st.skipLoad ∨ x ∈ sortedPaths deps := by
          intro x; rw [mem_openAndRecord_skipLoad, hsk x]; rfl
        refine ⟨(sortedPaths deps).filter (fun p => decide (p ∉ st.skipLoad))
          ++ [mod.path] ++ new, ?_, ?_, ?_, ?_⟩
        · rw [hnew]
          simp only [openAndRecord, hop, sortedPaths, List.append_assoc]
        · rw [List.nodup_append]
          refine ⟨?_, hnewnd, ?_⟩
          · rw [List.nodup_append]
            refine ⟨hnd.filter _, List.nodup_singleton _, ?_⟩
            rw [List.disjoint_singleton]
            exact fun h => hself (List.mem_of_mem_filter h)
          · intro x hx hx'
            apply hfresh x hx'
            rw [hsk₂]
            rcases List.mem_append.1 hx with h | h
            · exact Or.inr (Or.inr (List.mem_of_mem_filter h))
            · exact Or.inl (List.mem_singleton.1 h)
        · intro x hx
          rcases List.mem_append.1 hx with h | h
          · rcases List.mem_append.1 h with h | h
            · simpa using (List.mem_filter.1 h).2
            · rw [List.mem_singleton.1 h]; exact hmem
          · exact fun hx' => hfresh x h ((hsk₂ x).2 (Or.inr (Or.inl hx')))
        · intro x
          rw [hskip x, hsk₂ x]
          simp only [List.mem_append, List.mem_filter, List.mem_singleton,
            decide_eq_true_eq]
          by_cases hx : x ∈ st.skipLoad <;> simp [hx]; tauto

theorem loadModsLoop_cons_ok {fs : FileSystem} {fuel : Nat} {root : String} {phase : LoadPhase}
    (failed : List SharedObject) {mod : SharedObject} (rest : List SharedObject)
    (st : LoadState) {deps : List Dependency} (hnot : mod.path ∉ st.skipLoad)
    (hdeps : getToLoad fs root fuel mod phase = .ok deps) :
    loadModsLoop fs fuel root phase failed (mod :: rest) st
        = loadModsLoop fs fuel root phase failed rest
            (openAndRecord mod.path (loadSorted (topologicalSort deps) st))
      ∧ (openAndRecord mod.path (loadSorted (topologicalSort deps) st)).opened
        = st.opened ++ (sortedPaths deps).filter (fun p => decide (p ∉ st.skipLoad))
            ++ [mod.path] := by
  refine ⟨?_, ?_⟩
  · rw [loadModsLoop, if_neg hnot, hdeps]
  · have hop := (loadSorted_spec (topologicalSort deps) st (topologicalSort_step deps).1).1
    simp only [openAndRecord, hop, sortedPaths]

theorem loadModsLoop_skip_present (fs : FileSystem) (fuel : Nat) (root : String)
    (phase : LoadPhase) (failed : List SharedObject) (skip : List String)
    (mods : List SharedObject) :
    ∀ st : LoadState, (∀ p ∈ skip, p ∈ st.skipLoad) →
      loadModsLoop fs fuel root phase failed mods st
        = loadModsLoop fs fuel root phase failed
            (mods.filter (fun m => decide (m.path ∉ skip))) st := by
  induction mods with
  | nil => intro st _; rfl
  | cons mod rest ih =>
    intro st hst
    by_cases hmem : mod.path ∈ skip
    · rw [List.filter_cons_of_neg (by simpa using hmem), loadModsLoop,
        if_pos (hst _ hmem)]
      exact ih st hst
    · rw [List.filter_cons_of_pos (by simpa using hmem), loadModsLoop, loadModsLoop]
      by_cases hmem' : mod.path ∈ st.skipLoad
      · rw [if_pos hmem', if_pos hmem']; exact ih st hst
      · rw [if_neg hmem', if_neg hmem']
        split
        · rfl
        · rename_i deps hdeps
          apply ih
          intro p hp
          rw [mem_openAndRecord_skipLoad]
          refine Or.inr (((loadSorted_spec (topologicalSort deps) st
            (topologicalSort_step deps).1).2 p).2 (Or.inl (hst p hp)))

theorem sortedPaths_diamond :
    sortedPaths [Dependency.mk ⟨"/r/libs/libB.so"⟩ [Dependency.mk ⟨"/r/libs/libC.so"⟩ []],
        Dependency.mk ⟨"/r/libs/libC.so"⟩ []]
      = ["/r/libs/libC.so", "/r/libs/libB.so"] := by
  simp +decide [sortedPaths, topologicalSort, topologicalSortRecurse,
    topologicalSortLoop, sortDependencies, Dependency.path, Dependency.object,
    Dependency.dependencies]

theorem sortedPaths_nil : sortedPaths [] = [] := by
  simp [sortedPaths, topologicalSort, topologicalSortLoop, sortDependencies]

theorem getToLoad_fsDiamond :
    getToLoad fsDiamond "/r" 3 ⟨"/r/mods/root.so"⟩ .Mods
      = .ok [Dependency.mk ⟨"/r/libs/libB.so"⟩ [Dependency.mk ⟨"/r/libs/libC.so"⟩ []],
          Dependency.mk ⟨"/r/libs/libC.so"⟩ []] := by
  rfl

theorem loadMods_fsDiamond :
    (loadMods fsDiamond 3 [⟨"/r/mods/root.so"⟩] "/r" [] .Mods).1.opened
      = ["/r/libs/libC.so", "/r/libs/libB.so", "/r/mods/root.so"] := by
  obtain ⟨hloop, hop⟩ := loadModsLoop_cons_ok [] []
    { opened := [], skipLoad := [] } (by simp) getToLoad_fsDiamond
  rw [loadMods, hloop, loadModsLoop, hop, sortedPaths_diamond]
  rfl

/-- Claim C7: two successive calls of `loadMods`, the second one started with the
`skipLoad` set the first one left, never open the same path twice: the trace of the
first call followed by the trace of the second has no duplicates. -/
theorem loadMods_twice_opens_each_path_once (fs : FileSystem) (root : String)
    (fuel₁ fuel₂ : Nat) (mods₁ mods₂ : List SharedObject) (skipLoad : List String)
    (phase₁ phase₂ : LoadPhase) :
    ((loadMods fs fuel₁ mods₁ root skipLoad phase₁).1.opened ++
      (loadMods fs fuel₂ mods₂ root
        (loadMods fs fuel₁ mods₁ root skipLoad phase₁).1.skipLoad phase₂).1.opened).Nodup := by
  obtain ⟨new₁, hop₁, hnd₁, -, hsk₁⟩ :=
    loadModsLoop_spec fs fuel₁ root phase₁ [] mods₁ { opened := [], skipLoad := skipLoad }
  obtain ⟨new₂, hop₂, hnd₂, hfresh₂, -⟩ :=
    loadModsLoop_spec fs fuel₂ root phase₂ [] mods₂
      { opened := [], skipLoad := (loadMods fs fuel₁ mods₁ root skipLoad phase₁).1.skipLoad }
  simp only [loadMods] at hop₁ hsk₁ hop₂ hfresh₂ ⊢
  rw [hop₁, hop₂]
  simp only [List.nil_append]
  rw [List.nodup_append]
  exact ⟨hnd₁, hnd₂, fun x hx₁ hx₂ => hfresh₂ x hx₂ ((hsk₁ x).2 (Or.inr hx₁))⟩

/-- Claim C9: a call of `loadMods` opens no path that was in `skipLoad` at entry,
`skipLoad` at exit holds exactly the paths it held at entry and the paths the call
opened, and the top-level objects that were in `skipLoad` at entry can be removed
from the batch without changing anything: their dependency trees are not built. -/
theorem loadMods_frame (fs : FileSystem) (fuel : Nat) (mods : List SharedObject)
    (root : String) (skipLoad : List String) (phase : LoadPhase) :
    List.Disjoint (loadMods fs fuel mods root skipLoad phase).1.opened skipLoad
      ∧ (∀ p, p ∈ (loadMods fs fuel mods root skipLoad phase).1.skipLoad
          ↔ p ∈ skipLoad ∨ p ∈ (loadMods fs fuel mods root skipLoad phase).1.opened)
      ∧ loadMods fs fuel mods root skipLoad phase
          = loadMods fs fuel (mods.filter (fun m => decide (m.path ∉ skipLoad))) root
              skipLoad phase := by
  obtain ⟨new, hop, -, hfresh, hsk⟩ :=
    loadModsLoop_spec fs fuel root phase [] mods { opened := [], skipLoad := skipLoad }
  simp only [List.nil_append] at hop
  refine ⟨?_, ?_, ?_⟩
  · intro x hx
    rw [loadMods, hop] at hx
    exact hfresh x hx
  · intro p
    rw [loadMods, hop]
    exact hsk p
  · exact loadModsLoop_skip_present fs fuel root phase [] skipLoad mods _ (fun _ h => h)

theorem loadModsLoop_returns (fs : FileSystem) (fuel : Nat) (root : String) (phase : LoadPhase)
    (failed : List SharedObject) (mods : List SharedObject) :
    ∀ st : LoadState,
      (loadModsLoop fs fuel root phase failed mods st).2 = .ok failed
        ∨ ∃ e, (loadModsLoop fs fuel root phase failed mods st).2 = .error e := by
  induction mods with
  | nil => intro st; exact Or.inl rfl
  | cons mod rest ih =>
    intro st
    rw [loadModsLoop]
    split
    · exact ih st
    · split
      · exact Or.inr ⟨_, rfl⟩
      · exact ih _

theorem getToLoad_fsMissing :
    getToLoad fsMissing "/r" 2 ⟨"/r/mods/m.so"⟩ .Mods = .ok [] := by
  rfl

theorem sortedPaths_forestTwoRoutes :
    sortedPaths forestTwoRoutes
      = ["/r/libs/libP.so", "/r/libs/libA.so", "/r/early_mods/libE.so"] := by
  simp +decide [sortedPaths, forestTwoRoutes, topologicalSort, topologicalSortRecurse,
    topologicalSortLoop, sortDependencies, node, leaf, Dependency.path, Dependency.object,
    Dependency.dependencies]

/-- The tree builder can produce a forest in which one path has two different lists of
children: `libP.so` is reached once with the phase `EarlyMods` and once with the phase
`Mods`. The flattening then drops `libM.so`, and `loadMods` never opens it. -/
theorem loadMods_drops_dependency_reached_twice :
    getToLoad fsTwoRoutes "/r" 4 ⟨"/r/early_mods/root.so"⟩ .EarlyMods = .ok forestTwoRoutes
      ∧ AcyclicForest forestTwoRoutes ∧ ¬ ConsistentForest forestTwoRoutes
      ∧ "/r/mods/libM.so" ∈ forestPaths forestTwoRoutes
      ∧ (loadMods fsTwoRoutes 4 [⟨"/r/early_mods/root.so"⟩] "/r" [] .EarlyMods).1.opened
          = ["/r/libs/libP.so", "/r/libs/libA.so", "/r/early_mods/libE.so",
              "/r/early_mods/root.so"] := by
  have hdeps : getToLoad fsTwoRoutes "/r" 4 ⟨"/r/early_mods/root.so"⟩ .EarlyMods
      = .ok forestTwoRoutes := rfl
  refine ⟨hdeps, by decide, by decide, by decide, ?_⟩
  obtain ⟨hloop, hop⟩ := loadModsLoop_cons_ok [] []
    { opened := [], skipLoad := [] } (by simp) hdeps
  rw [loadMods, hloop, loadModsLoop, hop, sortedPaths_forestTwoRoutes]
  rfl

/-! ## Where the code departs from the specification -/

/-- Claim C4, evaluated where the code departs from it: asked from phase `Mods` for a
name that exists in `libs`, `findSharedObject` returns the path under `libs` together
with the phase `Mods`. -/
theorem findSharedObject_libs_hit_reports_mods :
    findSharedObject fsLibsOnly "/r" .Mods "libx.so"
      = .ok (some (⟨candidate "/r" (getLoadPhaseDirectories .Libs) "libx.so"⟩, .Mods)) := by
  decide

/-- Claim C5, evaluated where the code departs from it: asked from phase `EarlyMods`
for a name that exists in `early_mods` only, `findSharedObject` reports the phase
`Mods`, whose rank is smaller than the rank of the requesting phase. -/
theorem findSharedObject_reports_more_specific_phase :
    findSharedObject fsEarlyOnly "/r" .EarlyMods "liby.so"
        = .ok (some (⟨"/r/early_mods/liby.so"⟩, .Mods))
      ∧ LoadPhase.Mods.toInt < LoadPhase.EarlyMods.toInt := by
  decide

/-- Claim C6, evaluated where the code departs from it: in the tree built for a mod,
the dependency `libB.so` found in `libs` has the child `libC.so` found in `mods`,
although a request from phase `Libs` does not find `libC.so`. -/
theorem getToLoad_libs_dependency_pulls_from_mods :
    getToLoad fsLayered "/r" 3 ⟨"/r/mods/root.so"⟩ .Mods
        = .ok [Dependency.mk ⟨"/r/libs/libB.so"⟩ [Dependency.mk ⟨"/r/mods/libC.so"⟩ []]]
      ∧ findSharedObject fsLayered "/r" .Libs "libC.so" = .ok none := by
  exact ⟨rfl, rfl⟩

/-- Claim C10, evaluated where the code departs from it: `loadMods` returns the empty
list or throws, whatever the batch; for the mod `m.so`, whose declared dependency
`libmissing.so` the resolver does not find, it returns the empty list. -/
theorem loadMods_returns_no_failed_mods :
    (∀ (fs : FileSystem) (fuel : Nat) (mods : List SharedObject) (root : String)
        (skipLoad : List String) (phase : LoadPhase),
        (loadMods fs fuel mods root skipLoad phase).2 = .ok []
          ∨ ∃ e, (loadMods fs fuel mods root skipLoad phase).2 = .error e)
      ∧ fsMissing.dtNeeded "/r/mods/m.so" = .ok ["libmissing.so"]
      ∧ findSharedObject fsMissing "/r" .Mods "libmissing.so" = .ok none
      ∧ (loadMods fsMissing 2 [⟨"/r/mods/m.so"⟩] "/r" [] .Mods).2 = .ok [] := by
  refine ⟨fun fs fuel mods root skipLoad phase =>
    loadModsLoop_returns fs fuel root phase [] mods _, rfl, rfl, ?_⟩
  rw [loadMods, (loadModsLoop_cons_ok [] []
    { opened := [], skipLoad := [] } (by simp) getToLoad_fsMissing).1, loadModsLoop]

/-! ## Forests in which a path determines the child paths -/

theorem Dependency.size_lt_of_mem_descendants {m n : Dependency} (h : m ∈ n.descendants) :
    m.size < n.size := by
  induction n using Dependency.induct generalizing m with
  | step n ih =>
    obtain ⟨c, hc, hmc⟩ := Dependency.mem_descendants.1 h
    have hcn := Dependency.size_lt_of_mem hc
    rcases Dependency.mem_nodes_iff.1 hmc with rfl | ⟨c', hc', hmc'⟩
    · exact hcn
    · exact Nat.lt_trans (ih c hc (Dependency.mem_descendants.2 ⟨c', hc', hmc'⟩)) hcn

theorem descendants_subset_nodesList {f : List Dependency} {n m : Dependency}
    (hn : n ∈ Dependency.nodesList f) (hm : m ∈ n.descendants) :
    m ∈ Dependency.nodesList f := by
  obtain ⟨d, hd, hnd⟩ := Dependency.mem_nodesList.1 hn
  obtain ⟨c, hc, hmc⟩ := Dependency.mem_descendants.1 hm
  exact Dependency.mem_nodesList.2
    ⟨d, hd, Dependency.nodes_trans hnd m (Dependency.mem_nodes_iff.2 (Or.inr ⟨c, hc, hmc⟩))⟩

/-- In a consistent forest two nodes with the same path have descendants with the
same paths. -/
theorem ConsistentForest.mirror {f : List Dependency} (hcons : ConsistentForest f)
    (a : Dependency) :
    ∀ b, a ∈ Dependency.nodesList f → b ∈ Dependency.nodesList f → a.path = b.path →
      ∀ x ∈ a.descendants, ∃ y ∈ b.descendants, y.path = x.path := by
  induction a using Dependency.induct with
  | step a ih =>
    intro b ha hb hab x hx
    obtain ⟨c, hc, hxc⟩ := Dependency.mem_descendants.1 hx
    have hcp : c.path ∈ b.childPaths :=
      hcons a ha b hb hab c.path (List.mem_map.2 ⟨c, hc, rfl⟩)
    obtain ⟨c', hc', hcc'⟩ := List.mem_map.1 hcp
    rcases Dependency.mem_nodes_iff.1 hxc with rfl | ⟨e, he, hxe⟩
    · exact ⟨c', Dependency.mem_descendants.2 ⟨c', hc', c'.self_mem_nodes⟩, hcc'⟩
    · obtain ⟨y, hy, hyx⟩ := ih c hc c' (nodesList_closed ha hc) (nodesList_closed hb hc')
        hcc'.symm x (Dependency.mem_descendants.2 ⟨e, he, hxe⟩)
      obtain ⟨e', he', hye'⟩ := Dependency.mem_descendants.1 hy
      exact ⟨y, Dependency.mem_descendants.2
        ⟨c', hc', Dependency.mem_nodes_iff.2 (Or.inr ⟨e', he', hye'⟩)⟩, hyx⟩

/-- A consistent forest is acyclic: a node with the path of an ancestor would have a
descendant with that path again, and so on without end. -/
theorem ConsistentForest.acyclic {f : List Dependency} (hcons : ConsistentForest f) :
    AcyclicForest f := by
  have key : ∀ k : Nat, ∀ n : Dependency, n.size = k → n ∈ Dependency.nodesList f →
      ∀ m ∈ n.descendants, m.path ≠ n.path := by
    intro k
    induction k using Nat.strong_induction_on with
    | _ k ih =>
      intro n hk hn m hm hmn
      have hmf := descendants_subset_nodesList hn hm
      obtain ⟨y, hy, hyp⟩ := hcons.mirror n m hn hmf hmn.symm m hm
      exact ih m.size (hk ▸ Dependency.size_lt_of_mem_descendants hm) m rfl hmf y hy hyp
  intro n hn
  exact key n.size n rfl hn

/-- Claim C19: for a forest in which any two nodes with the same path have the same set
of child paths, the output of `topologicalSort` contains every path of the forest
exactly once, and the path of every child of a node occurs in it before the path of
the node. -/
theorem topologicalSort_consistent (f : List Dependency) (hcons : ConsistentForest f) :
    (∀ p ∈ forestPaths f, (sortedPaths f).count p = 1)
      ∧ ∀ n ∈ Dependency.nodesList f, ∀ c ∈ n.dependencies,
          c.path ∈ sortedPaths f ∧ n.path ∈ sortedPaths f
            ∧ (sortedPaths f).indexOf c.path < (sortedPaths f).indexOf n.path := by
  have hac := hcons.acyclic
  have hcov := topologicalSort_covers f hac hcons
  refine ⟨?_, ?_⟩
  · intro p hp
    obtain ⟨n, hn, rfl⟩ := List.mem_map.1 hp
    exact List.count_eq_one_of_mem (topologicalSort_step f).1 (hcov n hn)
  · intro n hn c hc
    obtain ⟨hmem, hlt⟩ :=
      (topologicalSort_childrenFirst f hac).1.child_mem hcons hn (hcov n hn) hc
    exact ⟨hmem, hcov n hn, hlt⟩

theorem topologicalSort_consistent_witness :
    ConsistentForest forestDiamond
      ∧ (∀ p ∈ forestPaths forestDiamond, (sortedPaths forestDiamond).count p = 1)
      ∧ ∀ n ∈ Dependency.nodesList forestDiamond, ∀ c ∈ n.dependencies,
          c.path ∈ sortedPaths forestDiamond ∧ n.path ∈ sortedPaths forestDiamond
            ∧ (sortedPaths forestDiamond).indexOf c.path
              < (sortedPaths forestDiamond).indexOf n.path :=
  ⟨by decide, topologicalSort_consistent forestDiamond (by decide)⟩

/-- Claim C20: for every forest, whatever paths repeat in it, no two entries of the
output of `topologicalSort` have the same path, and the path of every entry is the
path of a node of the forest. -/
theorem topologicalSort_distinct_paths_of_input (f : List Dependency) :
    (sortedPaths f).Nodup ∧ List.Subset (sortedPaths f) (forestPaths f) := by
  exact ⟨(topologicalSort_step f).1, fun p hp => (topologicalSort_step f).2 p hp⟩

/-! ## The object after its dependencies -/

theorem indexOf_filter_lt {α : Type} [DecidableEq α] (p : α → Bool) (a b : α)
    (ha : p a = true) (hb : p b = true) :
    ∀ l : List α, l.indexOf a < l.indexOf b →
      (l.filter p).indexOf a < (l.filter p).indexOf b := by
  intro l
  induction l with
  | nil => intro h; simp at h
  | cons x xs ih =>
    intro h
    by_cases hxa : x = a
    · subst hxa
      have hne : x ≠ b := by
        intro hxb
        subst hxb
        exact Nat.lt_irrefl _ h
      rw [List.filter_cons_of_pos ha, List.indexOf_cons_self,
        List.indexOf_cons_ne _ hne]
      exact Nat.succ_pos _
    · by_cases hxb : x = b
      · subst hxb
        rw [List.indexOf_cons_self] at h
        exact absurd h (Nat.not_lt_zero _)
      · rw [List.indexOf_cons_ne _ hxa, List.indexOf_cons_ne _ hxb] at h
        have h' := ih (Nat.lt_of_succ_lt_succ h)
        by_cases hpx : p x = true
        · rw [List.filter_cons_of_pos hpx, List.indexOf_cons_ne _ hxa,
            List.indexOf_cons_ne _ hxb]
          exact Nat.succ_lt_succ h'
        · rw [List.filter_cons_of_neg hpx]
          exact h'

theorem getToLoad_fsChain :
    getToLoad fsChain "/r" 3 ⟨"/r/mods/root.so"⟩ .Mods = .ok forestChain := by
  rfl

theorem sortedPaths_forestChain :
    sortedPaths forestChain = ["/r/libs/libC.so", "/r/libs/libB.so"] := by
  simp +decide [sortedPaths, forestChain, topologicalSort, topologicalSortRecurse,
    topologicalSortLoop, sortDependencies, Dependency.path, Dependency.object,
    Dependency.dependencies]

theorem loadMods_fsChain :
    (loadMods fsChain 3 [⟨"/r/mods/root.so"⟩] "/r" [] .Mods).1.opened
      = ["/r/libs/libC.so", "/r/libs/libB.so", "/r/mods/root.so"] := by
  obtain ⟨hloop, hop⟩ := loadModsLoop_cons_ok [] []
    { opened := [], skipLoad := [] } (by simp) getToLoad_fsChain
  rw [loadMods, hloop, loadModsLoop, hop, sortedPaths_forestChain]
  rfl

/-- Claim C8, refuted as stated: the top-level object `absent.so`, whose file cannot be
opened, is not in `skipLoad` when its turn comes and is not opened, `loadMods` throws;
and `root.so` of `fsTwoRoutes` is opened although `libM.so`, a node of its dependency
tree, is never opened. -/
theorem loadMods_object_without_its_dependencies :
    ((loadMods fsChain 3 [⟨"/r/mods/absent.so"⟩] "/r" [] .Mods).1.opened = []
        ∧ (loadMods fsChain 3 [⟨"/r/mods/absent.so"⟩] "/r" [] .Mods).2
            = .error (.runtimeError "Unable to open file descriptor"))
      ∧ getToLoad fsTwoRoutes "/r" 4 ⟨"/r/early_mods/root.so"⟩ .EarlyMods
          = .ok forestTwoRoutes
      ∧ "/r/mods/libM.so" ∈ forestPaths forestTwoRoutes
      ∧ (loadMods fsTwoRoutes 4 [⟨"/r/early_mods/root.so"⟩] "/r" [] .EarlyMods).1.opened
          = ["/r/libs/libP.so", "/r/libs/libA.so", "/r/early_mods/libE.so",
              "/r/early_mods/root.so"]
      ∧ "/r/mods/libM.so" ∉ ["/r/libs/libP.so", "/r/libs/libA.so", "/r/early_mods/libE.so",
              "/r/early_mods/root.so"] :=
  ⟨⟨rfl, rfl⟩, loadMods_drops_dependency_reached_twice.1,
    loadMods_drops_dependency_reached_twice.2.2.2.1,
    loadMods_drops_dependency_reached_twice.2.2.2.2, by decide⟩

/-- Claim C8, amended: for every top-level object that is not in `skipLoad` when its
turn comes and whose dependency tree `getToLoad` builds, `loadMods` opens, in this
order, the entries of the flattened order of the tree that are not in `skipLoad` and
then the object itself, which is no path of the tree, and goes on with the rest of the
batch. When the nodes of the tree with equal paths have children with the same paths,
every path of the tree is in `skipLoad` already or among these opens, and the path of
every child that is opened comes before the path of its node: the object is opened
after all of its dependencies. For a root declaring `[B, C]` where `B` declares `[C]`
the opens are `C`, `B`, root, and so they are for a root declaring `[B]` where `B`
declares `[C]`. -/
theorem loadMods_opens_dependencies_then_object :
    (∀ (fs : FileSystem) (fuel : Nat) (root : String) (phase : LoadPhase)
        (failed : List SharedObject) (mod : SharedObject) (rest : List SharedObject)
        (st : LoadState) (deps : List Dependency),
        mod.path ∉ st.skipLoad → getToLoad fs root fuel mod phase = .ok deps →
        (∃ later,
          (loadModsLoop fs fuel root phase failed (mod :: rest) st).1.opened
            = st.opened ++ (sortedPaths deps).filter (fun p => decide (p ∉ st.skipLoad))
                ++ [mod.path] ++ later
          ∧ (loadModsLoop fs fuel root phase failed rest
              (openAndRecord mod.path (loadSorted (topologicalSort deps) st))).1.opened
            = st.opened ++ (sortedPaths deps).filter (fun p => decide (p ∉ st.skipLoad))
                ++ [mod.path] ++ later)
        ∧ mod.path ∉ forestPaths deps
        ∧ (ConsistentForest deps →
            (∀ p ∈ forestPaths deps,
              p ∈ st.skipLoad
                ∨ p ∈ (sortedPaths deps).filter (fun p => decide (p ∉ st.skipLoad)))
            ∧ ∀ n ∈ Dependency.nodesList deps, ∀ c ∈ n.dependencies,
                n.path ∉ st.skipLoad → c.path ∉ st.skipLoad →
                ((sortedPaths deps).filter (fun p => decide (p ∉ st.skipLoad))).indexOf c.path
                  < ((sortedPaths deps).filter
                      (fun p => decide (p ∉ st.skipLoad))).indexOf n.path))
      ∧ (loadMods fsDiamond 3 [⟨"/r/mods/root.so"⟩] "/r" [] .Mods).1.opened
        = ["/r/libs/libC.so", "/r/libs/libB.so", "/r/mods/root.so"]
      ∧ (loadMods fsChain 3 [⟨"/r/mods/root.so"⟩] "/r" [] .Mods).1.opened
        = ["/r/libs/libC.so", "/r/libs/libB.so", "/r/mods/root.so"] := by
  refine ⟨?_, loadMods_fsDiamond, loadMods_fsChain⟩
  intro fs fuel root phase failed mod rest st deps hnot hdeps
  obtain ⟨hloop, hop⟩ := loadModsLoop_cons_ok failed rest st hnot hdeps
  obtain ⟨later, hlater, -⟩ := loadModsLoop_spec fs fuel root phase failed rest
    (openAndRecord mod.path (loadSorted (topologicalSort deps) st))
  refine ⟨⟨later, by rw [hloop, hlater, hop], by rw [hlater, hop]⟩,
    getToLoad_not_self fuel mod phase deps hdeps, ?_⟩
  intro hcons
  have hac := hcons.acyclic
  have hcov := topologicalSort_covers deps hac hcons
  refine ⟨?_, ?_⟩
  · intro p hp
    obtain ⟨n, hn, rfl⟩ := List.mem_map.1 hp
    by_cases hsk : n.path ∈ st.skipLoad
    · exact Or.inl hsk
    · exact Or.inr (List.mem_filter.2 ⟨hcov n hn, by simpa using hsk⟩)
  · intro n hn c hc hnsk hcsk
    obtain ⟨-, hlt⟩ :=
      (topologicalSort_childrenFirst deps hac).1.child_mem hcons hn (hcov n hn) hc
    exact indexOf_filter_lt _ _ _ (by simpa using hcsk) (by simpa using hnsk) _ hlt

theorem loadMods_opens_dependencies_then_object_witness :
    "/r/mods/root.so" ∉ ([] : List String)
      ∧ getToLoad fsChain "/r" 3 ⟨"/r/mods/root.so"⟩ .Mods = .ok forestChain
      ∧ ConsistentForest forestChain
      ∧ ∀ p ∈ forestPaths forestChain,
          p ∈ ([] : List String)
            ∨ p ∈ (sortedPaths forestChain).filter
                (fun p => decide (p ∉ ([] : List String))) :=
  ⟨by decide, rfl, by decide,
    ((loadMods_opens_dependencies_then_object.1 fsChain 3 "/r" .Mods [] ⟨"/r/mods/root.so"⟩ []
      { opened := [], skipLoad := [] } forestChain (by decide) rfl).2.2 (by decide)).1⟩

/-! ## The order of the flattening pass -/

theorem sortDependencies_eq (l : List Dependency) :
    sortDependencies l = l.insertionSort pathGe := rfl

theorem sortDependencies_sorted (l : List Dependency) :
    (sortDependencies l).Pairwise pathGe :=
  List.sorted_insertionSort pathGe l

theorem Dependency.eq_mk_of_leaf {d : Dependency} (h : d.dependencies = []) :
    d = Dependency.mk d.object [] := by
  cases d with
  | mk o ds =>
    simp only [Dependency.dependencies] at h
    simp [Dependency.object, h]

theorem topologicalSortRecurse_leaf {d : Dependency} {st : SortState}
    (hleaf : d.dependencies = []) (hv : d.path ∉ st.visited) :
    (topologicalSortRecurse d st).2
      = { stack := st.stack ++ [d], visited := d.path :: st.visited } := by
  rw [topologicalSortRecurse, if_neg hv, hleaf]
  simp only [sortDependencies, List.insertionSort, topologicalSortLoop]
  rw [← Dependency.eq_mk_of_leaf hleaf]

theorem topologicalSortLoop_leaves (l : List Dependency) :
    ∀ st : SortState, (∀ d ∈ l, d.dependencies = []) → (l.map Dependency.path).Nodup →
      (∀ d ∈ l, d.path ∉ st.visited) →
      (topologicalSortLoop l st).2.stack = st.stack ++ l := by
  induction l with
  | nil => intro st _ _ _; rw [topologicalSortLoop]; simp
  | cons d ds ih =>
    intro st hleaf hnd hv
    rw [List.map_cons, List.nodup_cons] at hnd
    rw [topologicalSortLoop]
    simp only []
    rw [topologicalSortRecurse_leaf (hleaf d (List.mem_cons_self _ _))
      (hv d (List.mem_cons_self _ _))]
    rw [ih _ (fun c hc => hleaf c (List.mem_cons_of_mem _ hc)) hnd.2]
    · simp
    · intro c hc hmem
      rcases List.mem_cons.1 hmem with h | h
      · exact hnd.1 (h ▸ List.mem_map.2 ⟨c, hc, rfl⟩)
      · exact hv c (List.mem_cons_of_mem _ hc) h

theorem topologicalSort_of_leaves {l : List Dependency}
    (hleaf : ∀ d ∈ l, d.dependencies = []) (hnd : (l.map Dependency.path).Nodup) :
    topologicalSort l = sortDependencies l := by
  have hperm := List.perm_insertionSort pathGe l
  have := topologicalSortLoop_leaves (sortDependencies l) { stack := [], visited := [] }
    (fun d hd => hleaf d (mem_sortDependencies.1 hd))
    ((hperm.map Dependency.path).nodup_iff.2 hnd)
    (fun d _ => List.not_mem_nil _)
  simpa [topologicalSort] using this

theorem strictly_descending_of_sorted {l : List Dependency} (hs : l.Pairwise pathGe)
    (hnd : (l.map Dependency.path).Nodup) :
    (l.map Dependency.path).Pairwise (fun p q => q.data < p.data) := by
  rw [List.pairwise_map]
  have hne : l.Pairwise (fun a b => a.path ≠ b.path) := List.pairwise_map.1 hnd
  refine (hs.and hne).imp ?_
  rintro a b ⟨hge, hne⟩
  refine lt_of_le_of_ne hge ?_
  intro h
  exact hne (String.ext h.symm)

theorem Dependency.sortedList_eq_map (l : List Dependency) :
    Dependency.sortedList l = l.map Dependency.sorted := by
  induction l with
  | nil => rfl
  | cons d ds ih => rw [Dependency.sortedList, ih, List.map_cons]

theorem Dependency.sorted_path (d : Dependency) : d.sorted.path = d.path := by
  cases d; rfl

theorem Dependency.sorted_dependencies (d : Dependency) :
    d.sorted.dependencies = sortDependencies (d.dependencies.map Dependency.sorted) := by
  cases d with
  | mk o ds =>
    rw [← Dependency.sortedList_eq_map]
    rfl

theorem Dependency.postOrder_eq (d : Dependency) :
    d.postOrder = Dependency.postOrderList d.dependencies ++ [d.path] := by
  cases d; rfl

theorem Dependency.postOrderList_append (l₁ l₂ : List Dependency) :
    Dependency.postOrderList (l₁ ++ l₂)
      = Dependency.postOrderList l₁ ++ Dependency.postOrderList l₂ := by
  induction l₁ with
  | nil => rfl
  | cons d ds ih =>
    rw [List.cons_append, Dependency.postOrderList, Dependency.postOrderList, ih,
      List.append_assoc]

theorem Dependency.path_mem_postOrderList {d : Dependency} {l : List Dependency}
    (h : d ∈ l) : d.path ∈ Dependency.postOrderList l := by
  obtain ⟨l₁, l₂, rfl⟩ := List.append_of_mem h
  rw [Dependency.postOrderList_append, Dependency.postOrderList, Dependency.postOrder_eq]
  simp

theorem sortDependencies_map_sorted (l : List Dependency) :
    (sortDependencies l).map Dependency.sorted
      = sortDependencies (l.map Dependency.sorted) := by
  unfold sortDependencies
  apply List.map_insertionSort
  intro a _ b _
  rw [Dependency.sorted_path, Dependency.sorted_path]

theorem nodesList_perm {l l' : List Dependency} (h : l.Perm l') :
    (Dependency.nodesList l).Perm (Dependency.nodesList l') := by
  induction h with
  | nil => exact List.Perm.refl _
  | cons x _ ih =>
    simp only [Dependency.nodesList]
    exact ih.append_left _
  | swap x y l =>
    simp only [Dependency.nodesList]
    rw [← List.append_assoc, ← List.append_assoc]
    exact List.perm_append_comm.append_right _
  | trans _ _ ih₁ ih₂ => exact ih₁.trans ih₂

/-- On a list of trees none of whose paths is visited or repeated, the loop appends
the post-order of the trees with sorted children, tree after tree. -/
theorem topologicalSortLoop_postOrder (l : List Dependency)
    (hl : ∀ d ∈ l, ∀ st : SortState, (d.nodes.map Dependency.path).Nodup →
      (∀ p ∈ d.nodes.map Dependency.path, p ∉ st.visited) →
      (topologicalSortRecurse d st).2.emitted = st.emitted ++ d.sorted.postOrder
        ∧ ∀ p ∈ (topologicalSortRecurse d st).2.visited,
            p ∈ st.visited ∨ p ∈ d.nodes.map Dependency.path) :
    ∀ st : SortState, ((Dependency.nodesList l).map Dependency.path).Nodup →
      (∀ p ∈ (Dependency.nodesList l).map Dependency.path, p ∉ st.visited) →
      (topologicalSortLoop l st).2.emitted
          = st.emitted ++ Dependency.postOrderList (l.map Dependency.sorted)
        ∧ ∀ p ∈ (topologicalSortLoop l st).2.visited,
            p ∈ st.visited ∨ p ∈ (Dependency.nodesList l).map Dependency.path := by
  induction l with
  | nil =>
    intro st _ _
    rw [topologicalSortLoop]
    exact ⟨by simp [Dependency.postOrderList], fun p hp => Or.inl hp⟩
  | cons d ds ih =>
    intro st hnd hv
    simp only [Dependency.nodesList, List.map_append] at hnd hv
    rw [List.nodup_append] at hnd
    obtain ⟨hnd₁, hnd₂, hdisj⟩ := hnd
    rw [topologicalSortLoop]
    obtain ⟨hem₁, hvis₁⟩ := hl d (List.mem_cons_self _ _) st hnd₁
      (fun p hp => hv p (List.mem_append_left _ hp))
    obtain ⟨hem₂, hvis₂⟩ := ih (fun c hc => hl c (List.mem_cons_of_mem _ hc))
      (topologicalSortRecurse d st).2 hnd₂ (by
        intro p hp hmem
        rcases hvis₁ p hmem with h | h
        · exact hv p (List.mem_append_right _ hp) h
        · exact hdisj h hp)
    refine ⟨?_, ?_⟩
    · simp only []
      rw [hem₂, hem₁, List.map_cons, Dependency.postOrderList, List.append_assoc]
    · intro p hp
      simp only [Dependency.nodesList, List.map_append, List.mem_append]
      rcases hvis₂ p hp with h | h
      · rcases hvis₁ p h with h' | h'
        · exact Or.inl h'
        · exact Or.inr (Or.inl h')
      · exact Or.inr (Or.inr h)

/-- On a tree none of whose paths is visited or repeated, the pass appends the
post-order of the tree with sorted children. -/
theorem topologicalSortRecurse_postOrder (d : Dependency) :
    ∀ st : SortState, (d.nodes.map Dependency.path).Nodup →
      (∀ p ∈ d.nodes.map Dependency.path, p ∉ st.visited) →
      (topologicalSortRecurse d st).2.emitted = st.emitted ++ d.sorted.postOrder
        ∧ ∀ p ∈ (topologicalSortRecurse d st).2.visited,
            p ∈ st.visited ∨ p ∈ d.nodes.map Dependency.path := by
  induction d using Dependency.induct with
  | step main ih =>
    intro st hnd hv
    have hfresh : main.path ∉ st.visited :=
      hv _ (List.mem_map.2 ⟨main, main.self_mem_nodes, rfl⟩)
    obtain ⟨hstk, hvisEq⟩ := topologicalSortRecurse_fresh hfresh
    have hem := SortState.emitted_snoc _ _ _ _ hstk
    rw [Dependency.nodes_eq, List.map_cons, List.nodup_cons] at hnd
    have hperm : ((Dependency.nodesList (sortDependencies main.dependencies)).map
        Dependency.path).Perm ((Dependency.nodesList main.dependencies).map Dependency.path) :=
      (nodesList_perm (List.perm_insertionSort _ main.dependencies)).map _
    obtain ⟨hemL, hvisL⟩ := topologicalSortLoop_postOrder (sortDependencies main.dependencies)
      (fun c hc => ih c (mem_sortDependencies.1 hc))
      { st with visited := main.path :: st.visited } (hperm.nodup_iff.2 hnd.2) (by
        intro p hp hmem
        have hp' := hperm.mem_iff.1 hp
        rcases List.mem_cons.1 hmem with h | h
        · exact hnd.1 (h ▸ hp')
        · refine hv p ?_ h
          rw [Dependency.nodes_eq, List.map_cons]
          exact List.mem_cons_of_mem _ hp')
    refine ⟨?_, ?_⟩
    · rw [hem, hemL, Dependency.postOrder_eq, Dependency.sorted_dependencies,
        Dependency.sorted_path, sortDependencies_map_sorted, List.append_assoc]
      rfl
    · intro p hp
      rw [hvisEq] at hp
      rw [Dependency.nodes_eq, List.map_cons]
      rcases hvisL p hp with h | h
      · rcases List.mem_cons.1 h with h' | h'
        · exact Or.inr (h' ▸ List.mem_cons_self _ _)
        · exact Or.inl h'
      · exact Or.inr (List.mem_cons_of_mem _ (hperm.mem_iff.1 h))

/-- On a forest with pairwise distinct paths the output is the post-order of the forest
with the roots and the children of every node in descending order of path. -/
theorem sortedPaths_eq_postOrder {f : List Dependency} (hnd : (forestPaths f).Nodup) :
    sortedPaths f
      = Dependency.postOrderList (sortDependencies (Dependency.sortedList f)) := by
  have hperm : ((Dependency.nodesList (sortDependencies f)).map Dependency.path).Perm
      (forestPaths f) := (nodesList_perm (List.perm_insertionSort _ f)).map _
  obtain ⟨hem, -⟩ := topologicalSortLoop_postOrder (sortDependencies f)
    (fun d _ => topologicalSortRecurse_postOrder d) { stack := [], visited := [] }
    (hperm.nodup_iff.2 hnd) (fun _ _ => List.not_mem_nil _)
  rw [Dependency.sortedList_eq_map, ← sortDependencies_map_sorted]
  simpa [sortedPaths, topologicalSort, SortState.emitted] using hem

/-- The path `p` stands in `E` before the path `q`. -/
theorem indexOf_lt_of_split {E A B : List String} {p q : String} (hnd : E.Nodup)
    (hE : E = A ++ p :: B) (hq : q ∈ B) : E.indexOf p < E.indexOf q := by
  subst hE
  have hpA : p ∉ A := fun h => (List.nodup_append.1 hnd).2.2 h (List.mem_cons_self _ _)
  have hqA : q ∉ A := fun h =>
    (List.nodup_append.1 hnd).2.2 h (List.mem_cons_of_mem _ hq)
  have hqp : p ≠ q := by
    rintro rfl
    exact (List.nodup_cons.1 (List.nodup_append.1 hnd).2.1).1 hq
  rw [List.indexOf_append_of_not_mem hpA, List.indexOf_append_of_not_mem hqA,
    List.indexOf_cons_self, List.indexOf_cons_ne _ hqp]
  omega

/-- In a list in descending order, of two elements with different paths the one with
the greater path stands first. -/
theorem split_of_sorted {S : List Dependency} (hS : S.Pairwise pathGe) {a b : Dependency}
    (ha : a ∈ S) (hb : b ∈ S) (hlt : b.path.data < a.path.data) :
    ∃ l₁ l₂, S = l₁ ++ a :: l₂ ∧ b ∈ l₂ := by
  obtain ⟨l₁, l₂, rfl⟩ := List.append_of_mem ha
  refine ⟨l₁, l₂, rfl, ?_⟩
  rcases List.mem_append.1 hb with h | h
  · have hge : pathGe b a :=
      (List.pairwise_append.1 hS).2.2 b h a (List.mem_cons_self _ _)
    exact absurd hlt (not_lt_of_le hge)
  · rcases List.mem_cons.1 h with h | h
    · rw [h] at hlt; exact absurd hlt (lt_irrefl _)
    · exact h

theorem postOrderList_split {S l₁ l₂ : List Dependency} {a b : Dependency}
    (hS : S = l₁ ++ a :: l₂) (hb : b ∈ l₂) :
    ∃ A B, Dependency.postOrderList S = A ++ a.path :: B ∧ b.path ∈ B := by
  subst hS
  refine ⟨Dependency.postOrderList l₁ ++ Dependency.postOrderList a.dependencies,
    Dependency.postOrderList l₂, ?_, Dependency.path_mem_postOrderList hb⟩
  rw [Dependency.postOrderList_append, Dependency.postOrderList, Dependency.postOrder_eq]
  simp

theorem postOrder_embeds {n d : Dependency} (hn : n ∈ d.nodes) :
    ∃ U V, d.postOrder = U ++ n.postOrder ++ V := by
  induction d using Dependency.induct with
  | step d ih =>
    rcases Dependency.mem_nodes_iff.1 hn with rfl | ⟨c, hc, hnc⟩
    · exact ⟨[], [], by simp⟩
    · obtain ⟨U, V, hUV⟩ := ih c hc hnc
      obtain ⟨l₁, l₂, hl⟩ := List.append_of_mem hc
      refine ⟨Dependency.postOrderList l₁ ++ U,
        V ++ Dependency.postOrderList l₂ ++ [d.path], ?_⟩
      rw [Dependency.postOrder_eq, hl, Dependency.postOrderList_append,
        Dependency.postOrderList, hUV]
      simp

theorem postOrderList_embeds {n : Dependency} {l : List Dependency}
    (hn : n ∈ Dependency.nodesList l) :
    ∃ U V, Dependency.postOrderList l = U ++ n.postOrder ++ V := by
  obtain ⟨d, hd, hnd⟩ := Dependency.mem_nodesList.1 hn
  obtain ⟨U, V, hUV⟩ := postOrder_embeds hnd
  obtain ⟨l₁, l₂, rfl⟩ := List.append_of_mem hd
  refine ⟨Dependency.postOrderList l₁ ++ U, V ++ Dependency.postOrderList l₂, ?_⟩
  rw [Dependency.postOrderList_append, Dependency.postOrderList, hUV]
  simp

theorem sorted_mem_nodes {n d : Dependency} (hn : n ∈ d.nodes) :
    n.sorted ∈ d.sorted.nodes := by
  induction d using Dependency.induct with
  | step d ih =>
    rcases Dependency.mem_nodes_iff.1 hn with rfl | ⟨c, hc, hnc⟩
    · exact Dependency.self_mem_nodes _
    · refine Dependency.mem_nodes_iff.2 (Or.inr ⟨c.sorted, ?_, ih c hc hnc⟩)
      rw [Dependency.sorted_dependencies]
      exact mem_sortDependencies.2 (List.mem_map_of_mem _ hc)

/-- Claim C18: `topologicalSort` processes the root list and the children of every node
in descending order of path. On a forest with pairwise distinct paths its output is the
post-order of the forest with the roots and the children of every node sorted, where
sorting a list permutes it into descending order; so of two roots, and of two children
of one node, the one with the greater path stands first in the output. For a list of
leaves with pairwise distinct paths the output consists of exactly those nodes, its
paths are in strictly descending order, and every reordering of the input gives the
same output. -/
theorem topologicalSort_descending_order :
    (∀ f : List Dependency, (forestPaths f).Nodup →
        sortedPaths f
            = Dependency.postOrderList (sortDependencies (Dependency.sortedList f))
          ∧ (∀ a ∈ f, ∀ b ∈ f, b.path.data < a.path.data →
              (sortedPaths f).indexOf a.path < (sortedPaths f).indexOf b.path)
          ∧ ∀ n ∈ Dependency.nodesList f, ∀ a ∈ n.dependencies, ∀ b ∈ n.dependencies,
              b.path.data < a.path.data →
              (sortedPaths f).indexOf a.path < (sortedPaths f).indexOf b.path)
      ∧ (∀ m : List Dependency, (sortDependencies m).Perm m
          ∧ (sortDependencies m).Pairwise (fun a b => b.path.data ≤ a.path.data))
      ∧ ∀ l : List Dependency, (∀ d ∈ l, d.dependencies = []) →
          (l.map Dependency.path).Nodup →
          (topologicalSort l).Perm l
            ∧ (sortedPaths l).Pairwise (fun p q => q.data < p.data)
            ∧ ∀ l' : List Dependency, l'.Perm l → topologicalSort l' = topologicalSort l := by
  refine ⟨?_, fun m => ⟨List.perm_insertionSort _ m, sortDependencies_sorted m⟩, ?_⟩
  · intro f hnd
    have hE := sortedPaths_eq_postOrder hnd
    have hEnd : (sortedPaths f).Nodup := (topologicalSort_step f).1
    refine ⟨hE, ?_, ?_⟩
    · intro a ha b hb hlt
      have hmem : ∀ x ∈ f, x.sorted ∈ sortDependencies (Dependency.sortedList f) :=
        fun x hx => mem_sortDependencies.2
          (by rw [Dependency.sortedList_eq_map]; exact List.mem_map_of_mem _ hx)
      obtain ⟨l₁, l₂, hS, hb'⟩ := split_of_sorted (sortDependencies_sorted _)
        (hmem a ha) (hmem b hb)
        (by rw [Dependency.sorted_path, Dependency.sorted_path]; exact hlt)
      obtain ⟨A, B, hAB, hB⟩ := postOrderList_split hS hb'
      rw [Dependency.sorted_path] at hAB hB
      exact indexOf_lt_of_split hEnd (hE.trans hAB) hB
    · intro n hn a ha b hb hlt
      have hn' : n.sorted ∈ Dependency.nodesList
          (sortDependencies (Dependency.sortedList f)) := by
        rw [mem_nodesList_sortDependencies, Dependency.sortedList_eq_map]
        obtain ⟨d, hd, hnd'⟩ := Dependency.mem_nodesList.1 hn
        exact Dependency.mem_nodesList.2
          ⟨d.sorted, List.mem_map_of_mem _ hd, sorted_mem_nodes hnd'⟩
      have hmem : ∀ x ∈ n.dependencies, x.sorted ∈ n.sorted.dependencies := by
        intro x hx
        rw [Dependency.sorted_dependencies]
        exact mem_sortDependencies.2 (List.mem_map_of_mem _ hx)
      have hsorted : n.sorted.dependencies.Pairwise pathGe := by
        rw [Dependency.sorted_dependencies]
        exact sortDependencies_sorted _
      obtain ⟨l₁, l₂, hS, hb'⟩ := split_of_sorted hsorted (hmem a ha) (hmem b hb)
        (by rw [Dependency.sorted_path, Dependency.sorted_path]; exact hlt)
      obtain ⟨A, B, hAB, hB⟩ := postOrderList_split hS hb'
      rw [Dependency.sorted_path] at hAB hB
      obtain ⟨U, V, hUV⟩ := postOrderList_embeds hn'
      rw [Dependency.postOrder_eq, hAB] at hUV
      refine indexOf_lt_of_split hEnd (A := U ++ A)
        (B := B ++ [n.sorted.path] ++ V) (hE.trans (hUV.trans ?_))
        (List.mem_append_left _ (List.mem_append_left _ hB))
      simp
  · intro l hleaf hnd
    have hsorted : ∀ m : List Dependency, m.Perm l →
        topologicalSort m = sortDependencies m := fun m hm =>
      topologicalSort_of_leaves (fun d hd => hleaf d (hm.mem_iff.1 hd))
        ((hm.map Dependency.path).nodup_iff.2 hnd)
    refine ⟨?_, ?_, ?_⟩
    · rw [hsorted l (List.Perm.refl l)]
      exact List.perm_insertionSort pathGe l
    · rw [sortedPaths, hsorted l (List.Perm.refl l)]
      exact strictly_descending_of_sorted (sortDependencies_sorted l)
        (((List.perm_insertionSort pathGe l).map Dependency.path).nodup_iff.2 hnd)
    · intro l' hl'
      rw [hsorted l' hl', hsorted l (List.Perm.refl l)]
      have hp : (sortDependencies l').Perm (sortDependencies l) :=
        ((List.perm_insertionSort pathGe l').trans hl').trans
          (List.perm_insertionSort pathGe l).symm
      refine List.Perm.eq_of_sorted ?_ (sortDependencies_sorted l')
        (sortDependencies_sorted l) hp
      intro a b ha hb hab hba
      have hpath : a.path = b.path := String.ext (le_antisymm hba hab)
      have ha' : a ∈ l := hl'.mem_iff.1 (mem_sortDependencies.1 ha)
      have hb' : b ∈ l := mem_sortDependencies.1 hb
      exact List.inj_on_of_nodup_map hnd ha' hb' hpath

theorem topologicalSort_descending_order_witness :
    (forestPaths [node "r" [leaf "a", node "c" [leaf "d", leaf "e"], leaf "b"]]).Nodup
      ∧ sortedPaths [node "r" [leaf "a", node "c" [leaf "d", leaf "e"], leaf "b"]]
          = ["e", "d", "c", "b", "a", "r"]
      ∧ (∀ d ∈ [leaf "a", leaf "c", leaf "b"], d.dependencies = [])
      ∧ (([leaf "a", leaf "c", leaf "b"] : List Dependency).map Dependency.path).Nodup
      ∧ (topologicalSort [leaf "a", leaf "c", leaf "b"]).Perm [leaf "a", leaf "c", leaf "b"]
      ∧ (sortedPaths [leaf "a", leaf "c", leaf "b"]).Pairwise (fun p q => q.data < p.data)
      ∧ ∀ l' : List Dependency, l'.Perm [leaf "a", leaf "c", leaf "b"] →
          topologicalSort l' = topologicalSort [leaf "a", leaf "c", leaf "b"] :=
  ⟨by decide,
    ((topologicalSort_descending_order.1
      [node "r" [leaf "a", node "c" [leaf "d", leaf "e"], leaf "b"]] (by decide)).1).trans
      (by decide),
    by simp [leaf, Dependency.dependencies], by decide,
    topologicalSort_descending_order.2.2 [leaf "a", leaf "c", leaf "b"]
      (by simp [leaf, Dependency.dependencies]) (by decide)⟩

/-! ## The shape of the tree the builder returns -/

theorem resolvedNames_nil (fs : FileSystem) (root : String) (phase : LoadPhase) :
    resolvedNames fs root phase [] = [] := rfl

theorem resolvedNames_cons_skip {fs : FileSystem} {root : String} {phase : LoadPhase}
    {name : String} (rest : List String)
    (h : name = "" ∨ findSharedObject fs root phase name = .ok none) :
    resolvedNames fs root phase (name :: rest) = resolvedNames fs root phase rest := by
  unfold resolvedNames
  apply List.filterMap_cons_none
  unfold resolvedName
  by_cases hn : name = ""
  · rw [if_pos hn]
  · rw [if_neg hn]
    rcases h with h | h
    · exact absurd h hn
    · rw [h]

theorem resolvedNames_cons_found {fs : FileSystem} {root : String} {phase : LoadPhase}
    {name : String} (rest : List String) {res : SharedObject × LoadPhase}
    (hn : name ≠ "") (h : findSharedObject fs root phase name = .ok (some res)) :
    resolvedNames fs root phase (name :: rest) = res :: resolvedNames fs root phase rest := by
  unfold resolvedNames
  apply List.filterMap_cons_some
  unfold resolvedName
  rw [if_neg hn, h]

theorem resolverReturns_cons {fs : FileSystem} {root : String} {phase : LoadPhase}
    {name : String} {rest : List String} :
    ResolverReturns fs root phase (name :: rest)
      ↔ (name ≠ "" → ∃ res, findSharedObject fs root phase name = .ok res)
        ∧ ResolverReturns fs root phase rest := by
  unfold ResolverReturns
  simp only [List.forall_mem_cons]

theorem getToLoadNames_ok_iff
    (recurse : SharedObject → LoadPhase → Except LoadError (List Dependency))
    (fs : FileSystem) (root : String) (phase : LoadPhase) (names : List String) :
    ∀ t : List Dependency,
      getToLoadNames recurse fs root phase names = .ok t
        ↔ ResolverReturns fs root phase names
          ∧ List.Forall₂ (ChildOf recurse) (resolvedNames fs root phase names) t := by
  induction names with
  | nil =>
    intro t
    rw [getToLoadNames, resolvedNames_nil, List.forall₂_nil_left_iff]
    exact ⟨fun h => ⟨fun _ h' => (by cases h'), (Except.ok.inj h).symm⟩,
      fun h => by rw [h.2]⟩
  | cons name rest ih =>
    intro t
    rw [getToLoadNames, resolverReturns_cons]
    by_cases hn : name = ""
    · rw [if_pos hn, resolvedNames_cons_skip rest (Or.inl hn), ih t]
      exact ⟨fun h => ⟨⟨fun h' => absurd hn h', h.1⟩, h.2⟩, fun h => ⟨h.1.2, h.2⟩⟩
    · rw [if_neg hn]
      cases hfind : findSharedObject fs root phase name with
      | error e =>
        simp only []
        constructor
        · intro h; cases h
        · rintro ⟨⟨h, -⟩, -⟩
          obtain ⟨res, hres⟩ := h hn
          cases hres
      | ok found =>
        cases found with
        | none =>
          rw [resolvedNames_cons_skip rest (Or.inr hfind)]
          simp only []
          rw [ih t]
          exact ⟨fun h => ⟨⟨fun _ => ⟨_, rfl⟩, h.1⟩, h.2⟩,
            fun h => ⟨h.1.2, h.2⟩⟩
        | some res =>
          obtain ⟨obj, r⟩ := res
          rw [resolvedNames_cons_found rest hn hfind, List.forall₂_cons_left_iff]
          simp only []
          constructor
          · intro h
            split at h
            · cases h
            · rename_i sub hsub
              split at h
              · cases h
              · rename_i deps hdeps
                obtain ⟨hret, hall⟩ := (ih deps).1 hdeps
                refine ⟨⟨fun _ => ⟨_, rfl⟩, hret⟩, Dependency.mk obj sub, deps,
                  ⟨rfl, hsub⟩, hall, ?_⟩
                exact (Except.ok.inj h).symm
          · rintro ⟨⟨-, hret⟩, c, cs, ⟨hobj, hsub⟩, hcs, rfl⟩
            have hsub' : recurse obj r = .ok c.dependencies := hsub
            rw [hsub']
            simp only []
            rw [(ih cs).2 ⟨hret, hcs⟩]
            cases c with
            | mk o ds =>
              simp only [Dependency.object] at hobj
              simp [Dependency.dependencies, hobj]

theorem getToLoadNames_mem_of_found
    {recurse : SharedObject → LoadPhase → Except LoadError (List Dependency)}
    {fs : FileSystem} {root : String} {phase : LoadPhase} {name : String}
    {obj : SharedObject} {r : LoadPhase} (hn : name ≠ "")
    (hfind : findSharedObject fs root phase name = .ok (some (obj, r))) (names : List String) :
    ∀ t : List Dependency, getToLoadNames recurse fs root phase names = .ok t →
      name ∈ names → ∃ sub, recurse obj r = .ok sub ∧ Dependency.mk obj sub ∈ t := by
  induction names with
  | nil => intro t _ h; cases h
  | cons head rest ih =>
    intro t ht hmem
    rcases getToLoadNames_cons_ok ht with ⟨hskip, hrest⟩ |
      ⟨obj', r', sub, deps, -, hfind', hsub, hdeps, rfl⟩
    · rcases List.mem_cons.1 hmem with rfl | hmem
      · rcases hskip with h | h
        · exact absurd h hn
        · rw [hfind] at h; cases h
      · exact ih t hrest hmem
    · rcases List.mem_cons.1 hmem with rfl | hmem
      · rw [hfind] at hfind'
        cases hfind'
        exact ⟨sub, hsub, List.mem_cons_self _ _⟩
      · obtain ⟨sub', hsub', hmem'⟩ := ih deps hdeps hmem
        exact ⟨sub', hsub', List.mem_cons_of_mem _ hmem'⟩

theorem mem_forestPaths_of_mem {d : Dependency} {t : List Dependency} (h : d ∈ t) :
    d.path ∈ forestPaths t :=
  List.mem_map.2 ⟨d, Dependency.mem_nodesList.2 ⟨d, h, d.self_mem_nodes⟩, rfl⟩

theorem mem_forestPaths_of_mem_child {obj : SharedObject} {sub t : List Dependency}
    {p : String} (h : Dependency.mk obj sub ∈ t) (hp : p ∈ forestPaths sub) :
    p ∈ forestPaths t := by
  obtain ⟨n, hn, rfl⟩ := List.mem_map.1 hp
  obtain ⟨c, hc, hnc⟩ := Dependency.mem_nodesList.1 hn
  refine List.mem_map.2 ⟨n, Dependency.mem_nodesList.2 ⟨_, h, ?_⟩, rfl⟩
  exact Dependency.mem_nodes_iff.2 (Or.inr ⟨c, hc, hnc⟩)

theorem getToLoad_fsCycle (fuel : Nat) :
    ∀ q : LoadPhase,
      getToLoad fsCycle "/r" fuel ⟨"/r/libs/libA.so"⟩ q = .error .outOfFuel
        ∧ getToLoad fsCycle "/r" fuel ⟨"/r/libs/libB.so"⟩ q = .error .outOfFuel := by
  induction fuel with
  | zero => intro q; exact ⟨rfl, rfl⟩
  | succ n ih =>
    intro q
    have hB : findSharedObject fsCycle "/r" q "libB.so"
        = .ok (some (⟨"/r/libs/libB.so"⟩, q)) := by
      cases q <;> decide
    have hA : findSharedObject fsCycle "/r" q "libA.so"
        = .ok (some (⟨"/r/libs/libA.so"⟩, q)) := by
      cases q <;> decide
    have hdA : fsCycle.dtNeeded "/r/libs/libA.so" = .ok ["libB.so"] := rfl
    have hdB : fsCycle.dtNeeded "/r/libs/libB.so" = .ok ["libA.so"] := rfl
    refine ⟨?_, ?_⟩
    · rw [getToLoad, hdA]
      simp only [getToLoadNames]
      rw [if_neg (by decide), hB]
      simp only [(ih q).2]
    · rw [getToLoad, hdB]
      simp only [getToLoadNames]
      rw [if_neg (by decide), hA]
      simp only [(ih q).1]

/-- Claim C11, refuted as stated: `libA.so` declares `libB.so`, `libB.so` declares
`libA.so`, both resolve, and whatever the bound on the depth of the recursion the
builder reaches it: no cycle is detected. -/
theorem getToLoad_mutual_cycle_is_unbounded :
    fsCycle.dtNeeded "/r/libs/libA.so" = .ok ["libB.so"]
      ∧ fsCycle.dtNeeded "/r/libs/libB.so" = .ok ["libA.so"]
      ∧ findSharedObject fsCycle "/r" .Mods "libB.so"
          = .ok (some (⟨"/r/libs/libB.so"⟩, .Mods))
      ∧ findSharedObject fsCycle "/r" .Mods "libA.so"
          = .ok (some (⟨"/r/libs/libA.so"⟩, .Mods))
      ∧ ∀ fuel, getToLoad fsCycle "/r" fuel ⟨"/r/libs/libA.so"⟩ .Mods = .error .outOfFuel :=
  ⟨rfl, rfl, by decide, by decide, fun fuel => (getToLoad_fsCycle fuel .Mods).1⟩

/-- Claim C11, amended: when `a` declares a name that resolves to `b` and `b` declares a
name that resolves back to `a`, `getToLoad` on `a` returns no tree, whatever the bound
on the depth of the recursion: it ends only by an exception of a file that cannot be
read or of a name whose status cannot be determined, or not at all. -/
theorem getToLoad_mutual_cycle_never_returns (fs : FileSystem) (root : String)
    (a b : SharedObject) (p q r : LoadPhase) (namesA namesB : List String)
    (nameA nameB : String)
    (hA : fs.dtNeeded a.path = .ok namesA) (hB : fs.dtNeeded b.path = .ok namesB)
    (hnb : nameB ∈ namesA) (hna : nameA ∈ namesB) (hneA : nameA ≠ "") (hneB : nameB ≠ "")
    (hrb : findSharedObject fs root p nameB = .ok (some (b, q)))
    (hra : findSharedObject fs root q nameA = .ok (some (a, r)))
    (fuel : Nat) (t : List Dependency) :
    getToLoad fs root fuel a p ≠ .ok t := by
  intro h
  apply getToLoad_not_self fuel a p t h
  cases fuel with
  | zero => cases h
  | succ n =>
    obtain ⟨names, hnames, ht⟩ := getToLoad_succ_ok h
    rw [hA] at hnames
    cases hnames
    obtain ⟨sub, hsub, hmem⟩ := getToLoadNames_mem_of_found hneB hrb namesA t ht hnb
    cases n with
    | zero => cases hsub
    | succ m =>
      obtain ⟨names', hnames', hsub'⟩ := getToLoad_succ_ok hsub
      rw [hB] at hnames'
      cases hnames'
      obtain ⟨sub₂, -, hmem₂⟩ := getToLoadNames_mem_of_found hneA hra namesB sub hsub' hna
      exact mem_forestPaths_of_mem_child hmem (mem_forestPaths_of_mem hmem₂)

theorem getToLoad_mutual_cycle_never_returns_witness :
    fsCycle.dtNeeded "/r/libs/libA.so" = .ok ["libB.so"]
      ∧ fsCycle.dtNeeded "/r/libs/libB.so" = .ok ["libA.so"]
      ∧ findSharedObject fsCycle "/r" .Mods "libB.so"
          = .ok (some (⟨"/r/libs/libB.so"⟩, .Mods))
      ∧ findSharedObject fsCycle "/r" .Mods "libA.so"
          = .ok (some (⟨"/r/libs/libA.so"⟩, .Mods))
      ∧ getToLoad fsCycle "/r" 7 ⟨"/r/libs/libA.so"⟩ .Mods ≠ .ok [] :=
  ⟨rfl, rfl, by decide, by decide,
    getToLoad_mutual_cycle_never_returns fsCycle "/r" ⟨"/r/libs/libA.so"⟩
      ⟨"/r/libs/libB.so"⟩ .Mods .Mods .Mods ["libB.so"] ["libA.so"] "libA.so" "libB.so"
      rfl rfl (by decide) (by decide) (by decide) (by decide) (by decide) (by decide) 7 []⟩

/-! ## Trees built from the phase `Libs` -/

theorem findSharedObject_libs (fs : FileSystem) (root name : String) :
    findSharedObject fs root .Libs name
      = match fs.pathExists (candidate root "libs" name) with
        | .error what => .error (.filesystemError what)
        | .ok true => .ok (some (⟨candidate root "libs" name⟩, .Libs))
        | .ok false => .ok none := by
  simp only [findSharedObject, pushPhaseDirectories_eq, searchDirectories, candidate]
  rw [findSharedObjectLoop]

theorem findSharedObject_libs_found {fs : FileSystem} {root name : String}
    {obj : SharedObject} {r : LoadPhase}
    (h : findSharedObject fs root .Libs name = .ok (some (obj, r))) :
    r = .Libs ∧ obj = ⟨candidate root "libs" name⟩
      ∧ fs.pathExists (candidate root "libs" name) = .ok true := by
  rw [findSharedObject_libs] at h
  cases hex : fs.pathExists (candidate root "libs" name) with
  | error what => rw [hex] at h; cases h
  | ok b =>
    rw [hex] at h
    cases b
    · cases h
    · cases h; exact ⟨rfl, rfl, rfl⟩

theorem libs_mem_phaseDirectories : "libs" ∈ phaseDirectories := by decide

theorem getToLoad_libs_nodes (fs : FileSystem) (root : String)
    (hlibs : ∀ name, PlainName name → DeclaresPlainNames fs (candidate root "libs" name))
    (fuel : Nat) :
    ∀ (x : SharedObject) (t : List Dependency), DeclaresPlainNames fs x.path →
      getToLoad fs root fuel x .Libs = .ok t →
      ∀ d ∈ Dependency.nodesList t, ∃ name, PlainName name ∧ name ≠ ""
        ∧ d.path = pathJoin root "libs" ++ "/" ++ name
        ∧ fs.pathExists d.path = .ok true := by
  induction fuel with
  | zero => intro x t _ h; cases h
  | succ n ih =>
    intro x t hx h
    obtain ⟨names, hnames, ht⟩ := getToLoad_succ_ok h
    have hplain := hx names hnames
    clear h hnames
    induction names generalizing t with
    | nil =>
      rw [getToLoadNames] at ht
      cases ht
      intro d hd
      cases hd
    | cons name rest ihn =>
      have hrest : ∀ name' ∈ rest, PlainName name' :=
        fun name' h' => hplain name' (List.mem_cons_of_mem _ h')
      have hname : PlainName name := hplain name (List.mem_cons_self _ _)
      rcases getToLoadNames_cons_ok ht with ⟨-, hrest'⟩ |
        ⟨obj, r, sub, deps, hne, hfind, hsub, hdeps, rfl⟩
      · exact ihn t hrest' hrest
      · obtain ⟨rfl, rfl, hex⟩ := findSharedObject_libs_found hfind
        intro d hd
        simp only [Dependency.nodesList, Dependency.nodes, List.mem_append,
          List.mem_cons] at hd
        rcases hd with (rfl | hd) | hd
        · refine ⟨name, hname, hne, ?_, hex⟩
          exact candidate_plain root libs_mem_phaseDirectories hname
        · exact ih _ sub (hlibs name hname) hsub d hd
        · exact ihn deps hdeps hrest d hd

theorem getToLoadNames_libs_congr
    (recurse recurse' : SharedObject → LoadPhase → Except LoadError (List Dependency))
    (fs fs' : FileSystem) (root : String)
    (hex : ∀ name, PlainName name → fs'.pathExists (candidate root "libs" name)
      = fs.pathExists (candidate root "libs" name))
    (hrec : ∀ name, PlainName name → recurse' ⟨candidate root "libs" name⟩ .Libs
      = recurse ⟨candidate root "libs" name⟩ .Libs) :
    ∀ names : List String, (∀ name ∈ names, PlainName name) →
      getToLoadNames recurse' fs' root .Libs names
        = getToLoadNames recurse fs root .Libs names := by
  intro names
  induction names with
  | nil => intro _; rfl
  | cons name rest ihn =>
    intro hplain
    have hname : PlainName name := hplain name (List.mem_cons_self _ _)
    rw [getToLoadNames, getToLoadNames,
      ihn (fun name' h' => hplain name' (List.mem_cons_of_mem _ h')),
      findSharedObject_libs, findSharedObject_libs, hex name hname]
    by_cases hn : name = ""
    · rw [if_pos hn, if_pos hn]
    · rw [if_neg hn, if_neg hn]
      cases fs.pathExists (candidate root "libs" name) with
      | error what => rfl
      | ok b =>
        cases b
        · rfl
        · simp only []
          rw [hrec name hname]

theorem getToLoad_libs_congr (fs fs' : FileSystem) (root : String)
    (hlibs : ∀ name, PlainName name → DeclaresPlainNames fs (candidate root "libs" name))
    (hex : ∀ name, PlainName name → fs'.pathExists (candidate root "libs" name)
      = fs.pathExists (candidate root "libs" name))
    (hdt : ∀ name, PlainName name → fs'.dtNeeded (candidate root "libs" name)
      = fs.dtNeeded (candidate root "libs" name)) (fuel : Nat) :
    ∀ x : SharedObject, DeclaresPlainNames fs x.path →
      fs'.dtNeeded x.path = fs.dtNeeded x.path →
      getToLoad fs' root fuel x .Libs = getToLoad fs root fuel x .Libs := by
  induction fuel with
  | zero => intro x _ _; rfl
  | succ n ih =>
    intro x hx hdx
    rw [getToLoad, getToLoad, hdx]
    cases hnames : fs.dtNeeded x.path with
    | error e => rfl
    | ok names =>
      exact getToLoadNames_libs_congr _ _ fs fs' root hex
        (fun name hname => ih _ (hlibs name hname) (hdt name hname)) names (hx names hnames)

theorem Dependency.reordered_iff (d d' : Dependency) :
    d.Reordered d' ↔ d.object = d'.object
      ∧ ∃ ms, Dependency.ReorderedList d.dependencies ms ∧ ms.Perm d'.dependencies := by
  cases d with
  | mk o ds => simp [Dependency.Reordered, Dependency.object, Dependency.dependencies]

theorem Dependency.reorderedList_iff (l ms : List Dependency) :
    Dependency.ReorderedList l ms ↔ List.Forall₂ Dependency.Reordered l ms := by
  induction l generalizing ms with
  | nil => simp [Dependency.ReorderedList]
  | cons d ds ih =>
    simp only [Dependency.ReorderedList, List.forall₂_cons_left_iff, ih]
    constructor
    · rintro ⟨m, ms', rfl, h₁, h₂⟩; exact ⟨m, ms', h₁, h₂, rfl⟩
    · rintro ⟨m, ms', h₁, h₂, rfl⟩; exact ⟨m, ms', rfl, h₁, h₂⟩

theorem Dependency.Reordered.path_eq {d d' : Dependency} (h : d.Reordered d') :
    d.path = d'.path := by
  rw [Dependency.reordered_iff] at h
  simp [Dependency.path, h.1]

theorem Dependency.Reordered.refl (d : Dependency) : d.Reordered d := by
  induction d using Dependency.induct with
  | step d ih =>
    rw [Dependency.reordered_iff]
    refine ⟨rfl, d.dependencies, ?_, List.Perm.refl _⟩
    rw [Dependency.reorderedList_iff]
    generalize d.dependencies = l at ih
    induction l with
    | nil => exact List.Forall₂.nil
    | cons c cs ihl =>
      exact List.Forall₂.cons (ih c (List.mem_cons_self _ _))
        (ihl (fun x hx => ih x (List.mem_cons_of_mem _ hx)))

theorem forall₂_reordered_map_path {l ms : List Dependency}
    (h : List.Forall₂ Dependency.Reordered l ms) :
    l.map Dependency.path = ms.map Dependency.path := by
  induction h with
  | nil => rfl
  | cons hd _ ih => simp [hd.path_eq, ih]

theorem orderedInsert_reordered {a a' : Dependency} (ha : a.Reordered a')
    {l l' : List Dependency} (h : List.Forall₂ Dependency.Reordered l l') :
    List.Forall₂ Dependency.Reordered (List.orderedInsert pathGe a l)
      (List.orderedInsert pathGe a' l') := by
  induction h with
  | nil => exact List.Forall₂.cons ha List.Forall₂.nil
  | @cons b b' t t' hb ht ih =>
    simp only [List.orderedInsert]
    have hiff : pathGe a b ↔ pathGe a' b' := by
      unfold pathGe; rw [ha.path_eq, hb.path_eq]
    by_cases hab : pathGe a b
    · rw [if_pos hab, if_pos (hiff.1 hab)]
      exact List.Forall₂.cons ha (List.Forall₂.cons hb ht)
    · rw [if_neg hab, if_neg (fun h => hab (hiff.2 h))]
      exact List.Forall₂.cons hb ih

theorem sortDependencies_reordered {l l' : List Dependency}
    (h : List.Forall₂ Dependency.Reordered l l') :
    List.Forall₂ Dependency.Reordered (sortDependencies l) (sortDependencies l') := by
  rw [sortDependencies_eq, sortDependencies_eq]
  induction h with
  | nil => exact List.Forall₂.nil
  | cons hd _ ih => exact orderedInsert_reordered hd ih

theorem sortDependencies_perm_eq {l l' : List Dependency} (hp : l.Perm l')
    (hnd : (l.map Dependency.path).Nodup) : sortDependencies l = sortDependencies l' := by
  have hperm : (sortDependencies l).Perm (sortDependencies l') :=
    ((List.perm_insertionSort pathGe l).trans hp).trans (List.perm_insertionSort pathGe l').symm
  refine List.Perm.eq_of_sorted ?_ (sortDependencies_sorted l) (sortDependencies_sorted l') hperm
  intro a b ha hb hab hba
  have hpath : a.path = b.path := String.ext (le_antisymm hba hab)
  exact List.inj_on_of_nodup_map hnd (mem_sortDependencies.1 ha)
    (hp.mem_iff.2 (mem_sortDependencies.1 hb)) hpath

/-- Sorting two lists that are reorderings of each other, the first one having
pairwise distinct paths, aligns them position by position. -/
theorem sortDependencies_align {l ms l' : List Dependency}
    (h : List.Forall₂ Dependency.Reordered l ms) (hp : ms.Perm l')
    (hnd : (l.map Dependency.path).Nodup) :
    List.Forall₂ Dependency.Reordered (sortDependencies l) (sortDependencies l') := by
  rw [← sortDependencies_perm_eq hp (forall₂_reordered_map_path h ▸ hnd)]
  exact sortDependencies_reordered h

theorem topologicalSortLoop_reordered {l l' : List Dependency}
    (h : List.Forall₂ Dependency.Reordered l l')
    (hl : ∀ c ∈ l, ∀ c', c.Reordered c' → ∀ st st' : SortState,
      st.visited = st'.visited → st.emitted = st'.emitted →
      (topologicalSortRecurse c st).2.visited = (topologicalSortRecurse c' st').2.visited
        ∧ (topologicalSortRecurse c st).2.emitted
          = (topologicalSortRecurse c' st').2.emitted) :
    ∀ st st' : SortState, st.visited = st'.visited → st.emitted = st'.emitted →
      (topologicalSortLoop l st).2.visited = (topologicalSortLoop l' st').2.visited
        ∧ (topologicalSortLoop l st).2.emitted = (topologicalSortLoop l' st').2.emitted := by
  induction h with
  | nil => intro st st' hv he; rw [topologicalSortLoop, topologicalSortLoop]; exact ⟨hv, he⟩
  | @cons c c' t t' hc _ ih =>
    intro st st' hv he
    rw [topologicalSortLoop, topologicalSortLoop]
    obtain ⟨hv₁, he₁⟩ := hl c (List.mem_cons_self _ _) c' hc st st' hv he
    exact ih (fun x hx => hl x (List.mem_cons_of_mem _ hx)) _ _ hv₁ he₁

theorem topologicalSortRecurse_reordered (d : Dependency) :
    (∀ n ∈ d.nodes, n.childPaths.Nodup) → ∀ d', d.Reordered d' →
      ∀ st st' : SortState, st.visited = st'.visited → st.emitted = st'.emitted →
      (topologicalSortRecurse d st).2.visited = (topologicalSortRecurse d' st').2.visited
        ∧ (topologicalSortRecurse d st).2.emitted
          = (topologicalSortRecurse d' st').2.emitted := by
  induction d using Dependency.induct with
  | step d ih =>
    intro hnd d' hdd' st st' hv he
    have hpath := hdd'.path_eq
    obtain ⟨hobj, ms, hms, hperm⟩ := (Dependency.reordered_iff d d').1 hdd'
    rw [Dependency.reorderedList_iff] at hms
    by_cases hvis : d.path ∈ st.visited
    · rw [topologicalSortRecurse_visited hvis,
        topologicalSortRecurse_visited (show d'.path ∈ st'.visited from hpath ▸ hv ▸ hvis)]
      exact ⟨hv, he⟩
    · have hvis' : d'.path ∉ st'.visited := fun h => hvis (by rw [hpath, hv]; exact h)
      obtain ⟨hstk, hvisEq⟩ := topologicalSortRecurse_fresh hvis
      obtain ⟨hstk', hvisEq'⟩ := topologicalSortRecurse_fresh hvis'
      have halign := sortDependencies_align hms hperm (hnd d d.self_mem_nodes)
      obtain ⟨hv₂, he₂⟩ := topologicalSortLoop_reordered halign
        (fun c hc c' hcc' => ih c (mem_sortDependencies.1 hc)
          (fun n hn => hnd n (Dependency.nodes_trans
            (Dependency.child_mem_nodes (mem_sortDependencies.1 hc)) n hn)) c' hcc')
        { st with visited := d.path :: st.visited }
        { st' with visited := d'.path :: st'.visited }
        (by show d.path :: st.visited = d'.path :: st'.visited; rw [hpath, hv])
        he
      have hem := SortState.emitted_snoc _ _ _ _ hstk
      have hem' := SortState.emitted_snoc _ _ _ _ hstk'
      refine ⟨?_, ?_⟩
      · rw [hvisEq, hvisEq', hv₂]
      · rw [hem, hem', he₂, hobj]

theorem sortedPaths_twins :
    sortedPaths forestTwins = ["a", "x"] ∧ sortedPaths forestTwinsSwapped = ["b", "x"] := by
  constructor <;>
  simp +decide [sortedPaths, forestTwins, forestTwinsSwapped, topologicalSort,
    topologicalSortRecurse, topologicalSortLoop, sortDependencies, node, leaf,
    Dependency.path, Dependency.object, Dependency.dependencies]

/-- Claim C16, refuted as stated: swapping the two roots of `forestTwins`, which have the
same path and different children, changes the output of `topologicalSort`. -/
theorem topologicalSort_depends_on_order_of_twins :
    ForestReordered forestTwins forestTwinsSwapped
      ∧ sortedPaths forestTwins ≠ sortedPaths forestTwinsSwapped := by
  refine ⟨⟨forestTwins, ?_, ?_⟩, ?_⟩
  · rw [Dependency.reorderedList_iff]
    exact List.Forall₂.cons (Dependency.Reordered.refl _)
      (List.Forall₂.cons (Dependency.Reordered.refl _) List.Forall₂.nil)
  · exact List.Perm.swap _ _ _
  · rw [sortedPaths_twins.1, sortedPaths_twins.2]; decide

/-- Claim C16, amended: for two forests that differ only by the order of the roots and
of the children of the nodes, and in which no two roots and no two children of one
node have the same path, `topologicalSort` returns the same sequence of paths. -/
theorem topologicalSort_independent_of_order (f g : List Dependency)
    (hd : DistinctSiblings f) (h : ForestReordered f g) :
    sortedPaths f = sortedPaths g := by
  obtain ⟨ms, hms, hperm⟩ := h
  rw [Dependency.reorderedList_iff] at hms
  have halign := sortDependencies_align hms hperm hd.1
  exact (topologicalSortLoop_reordered halign
    (fun c hc c' hcc' => topologicalSortRecurse_reordered c
      (fun n hn => hd.2 n (Dependency.mem_nodesList.2 ⟨c, mem_sortDependencies.1 hc, hn⟩))
      c' hcc')
    { stack := [], visited := [] } { stack := [], visited := [] } rfl rfl).2

theorem forestDiamond_reordered : ForestReordered forestDiamond forestDiamondSwapped := by
  refine ⟨forestDiamondSwapped, ?_, List.Perm.refl _⟩
  rw [Dependency.reorderedList_iff]
  refine List.Forall₂.cons ?_ List.Forall₂.nil
  rw [Dependency.reordered_iff]
  refine ⟨rfl, [node "b" [leaf "c"], leaf "c"], ?_, List.Perm.swap _ _ _⟩
  rw [Dependency.reorderedList_iff]
  exact List.Forall₂.cons (Dependency.Reordered.refl _)
    (List.Forall₂.cons (Dependency.Reordered.refl _) List.Forall₂.nil)

theorem topologicalSort_independent_of_order_witness :
    DistinctSiblings forestDiamond ∧ ForestReordered forestDiamond forestDiamondSwapped
      ∧ sortedPaths forestDiamond = sortedPaths forestDiamondSwapped :=
  ⟨by decide, forestDiamond_reordered,
    topologicalSort_independent_of_order forestDiamond forestDiamondSwapped (by decide)
      forestDiamond_reordered⟩

/-! ## The walk over exactly `e_shnum` section headers -/

theorem readLE_of_inBounds {f : List Nat} {offset : Int} {width : Nat}
    (h : InBounds f offset width) : readLE f offset width = .ok (rawAt f offset width) := by
  unfold readLE; rw [if_pos h]

theorem scanCString_of_nul (l : List Nat) (h : 0 ∈ l.map (fun b => b % 256)) :
    scanCString l = .ok (cstringAt l) := by
  induction l with
  | nil => cases h
  | cons b bs ih =>
    rw [scanCString, cstringAt]
    by_cases hb : b % 256 = 0
    · rw [if_pos hb, if_pos hb]
    · rw [if_neg hb, if_neg hb]
      have hbs : 0 ∈ bs.map (fun b => b % 256) := by
        rw [List.map_cons, List.mem_cons] at h
        rcases h with h0 | h0
        · exact absurd h0.symm hb
        · exact h0
      rw [ih hbs]

theorem readCString_of_nameInside {f : List Nat} {offset : Int} (hin : InBounds f offset 1)
    (hnul : 0 ∈ (f.drop offset.toNat).map (fun b => b % 256)) :
    readCString f offset = .ok (nameAt f offset) := by
  unfold readCString
  rw [if_pos hin, scanCString_of_nul _ hnul]
  rfl

theorem wellFormed_header_field {f : List Nat} (h : WellFormed f) {k : Nat}
    (hk : k < rawAt f 60 2) (c : Int) (width : Nat) (hc₀ : 0 ≤ c)
    (hc : c + (width : Int) ≤ 64) : InBounds f (headerOffset f k + c) width := by
  obtain ⟨-, -, htable, -⟩ := h
  unfold InBounds headerOffset sizeofShdr at *
  constructor <;> push_cast at * <;> omega

theorem wellFormed_entry_field {f : List Nat} {k : Nat} (h : DynamicInside f k) {j : Nat}
    (hj : j < shSize f k / sizeofDyn) (c : Int) (width : Nat) (hc₀ : 0 ≤ c)
    (hc : c + (width : Int) ≤ 16) : InBounds f (entryOffset f k j + c) width := by
  obtain ⟨-, hin, -, -⟩ := h
  unfold InBounds entryOffset sizeofDyn at *
  constructor <;> push_cast at * <;> omega

theorem readNeededName_of_wellFormed {f : List Nat} (h : WellFormed f) {k : Nat}
    (hk : k < rawAt f 60 2) (hdyn : DynamicInside f k) {j : Nat}
    (hj : j < shSize f k / sizeofDyn) (htag : dTag f k j = DT_NEEDED) :
    readNeededName f (toPtrdiff (rawAt f 40 8)) (headerOffset f k) (entryOffset f k j)
      = .ok (nameAt f (nameOffset f k j)) := by
  obtain ⟨hin, hnul⟩ := hdyn.2.2.2 j hj htag
  unfold readNeededName
  rw [readLE_of_inBounds (wellFormed_header_field h hk 40 4 (by omega) (by omega))]
  simp only []
  have hlink : InBounds f (toPtrdiff (rawAt f 40 8)
      + (sizeofShdr : Int) * (rawAt f (headerOffset f k + 40) 4 : Int) + 24) 8 :=
    wellFormed_header_field h hdyn.2.2.1 24 8 (by omega) (by omega)
  rw [readLE_of_inBounds hlink]
  simp only []
  rw [readLE_of_inBounds (wellFormed_entry_field hdyn hj 8 8 (by omega) (by omega))]
  simp only []
  exact readCString_of_nameInside hin hnul

theorem walkDynamic_of_wellFormed {f : List Nat} (h : WellFormed f) {k : Nat}
    (hk : k < rawAt f 60 2) (hdyn : DynamicInside f k) (js : List Nat)
    (hjs : ∀ j ∈ js, j < shSize f k / sizeofDyn) :
    walkDynamic f (toPtrdiff (rawAt f 40 8)) (headerOffset f k) (toPtrdiff (shOffset f k)) js
      = .ok (entryNames f k js) := by
  induction js with
  | nil => rfl
  | cons j js ih =>
    have hj := hjs j (List.mem_cons_self _ _)
    have ihjs := ih (fun i hi => hjs i (List.mem_cons_of_mem _ hi))
    rw [walkDynamic, entryNames]
    have htagIn : InBounds f (toPtrdiff (shOffset f k) + (sizeofDyn : Int) * (j : Int)) 8 := by
      have := wellFormed_entry_field hdyn hj 0 8 (by omega) (by omega)
      simpa [entryOffset] using this
    rw [readLE_of_inBounds htagIn]
    simp only []
    by_cases htag : dTag f k j = DT_NEEDED
    · have htag' : rawAt f (toPtrdiff (shOffset f k) + (sizeofDyn : Int) * (j : Int)) 8
          = DT_NEEDED := htag
      rw [if_neg (not_not.2 htag'), if_pos htag]
      have hname := readNeededName_of_wellFormed h hk hdyn hj htag
      unfold entryOffset at hname
      rw [hname]
      simp only []
      rw [ihjs]
    · have htag' : rawAt f (toPtrdiff (shOffset f k) + (sizeofDyn : Int) * (j : Int)) 8
          ≠ DT_NEEDED := htag
      rw [if_pos htag', if_neg htag]
      exact ihjs

theorem walkSection_of_wellFormed {f : List Nat} (h : WellFormed f) {k : Nat}
    (hk : k < rawAt f 60 2) :
    walkSection f (toPtrdiff (rawAt f 40 8)) (headerOffset f k) = .ok (sectionNames f k) := by
  unfold walkSection sectionNames
  rw [readLE_of_inBounds (wellFormed_header_field h hk 4 4 (by omega) (by omega))]
  simp only []
  by_cases htype : shType f k = SHT_DYNAMIC
  · have htype' : rawAt f (headerOffset f k + 4) 4 = SHT_DYNAMIC := htype
    have hdyn := h.2.2.2 k hk htype
    rw [if_neg (not_not.2 htype'), if_pos htype]
    rw [readLE_of_inBounds (wellFormed_header_field h hk 24 8 (by omega) (by omega))]
    simp only []
    rw [readLE_of_inBounds (wellFormed_header_field h hk 32 8 (by omega) (by omega))]
    simp only []
    rw [readLE_of_inBounds (wellFormed_header_field h hk 56 8 (by omega) (by omega))]
    simp only []
    have hent : rawAt f (headerOffset f k + 56) 8 = sizeofDyn := hdyn.1
    rw [if_neg (by rw [hent]; decide)]
    have hent' : shEntsize f k = sizeofDyn := hdyn.1
    rw [hent, hent']
    exact walkDynamic_of_wellFormed h hk hdyn _ (fun j hj => List.mem_range.1 hj)
  · have htype' : rawAt f (headerOffset f k + 4) 4 ≠ SHT_DYNAMIC := htype
    rw [if_pos htype', if_neg htype]

theorem walkSections_of_wellFormed {f : List Nat} (h : WellFormed f) (ks : List Nat)
    (hks : ∀ k ∈ ks, k < rawAt f 60 2) :
    walkSections f (toPtrdiff (rawAt f 40 8)) ks = .ok (sectionsNames f ks) := by
  induction ks with
  | nil => rfl
  | cons k ks ih =>
    rw [walkSections, sectionsNames]
    have hsec := walkSection_of_wellFormed h (hks k (List.mem_cons_self _ _))
    unfold headerOffset at hsec
    rw [hsec]
    simp only []
    rw [ih (fun i hi => hks i (List.mem_cons_of_mem _ hi))]

/-- On a well-formed image the walk over exactly `e_shnum` section headers makes no
read outside the file and yields the declared names in the order of the file. -/
theorem extractExpected_of_wellFormed (f : List Nat) (h : WellFormed f) :
    extractExpected f = .ok (declaredNames f) := by
  unfold extractExpected readHeader
  rw [if_pos h.1]
  exact walkSections_of_wellFormed h _ (fun k hk => List.mem_range.1 hk)

/-! ## The extractor -/

theorem readLE_ok {f : List Nat} {offset : Int} {width v : Nat}
    (h : readLE f offset width = .ok v) : InBounds f offset width ∧ v = rawAt f offset width := by
  unfold readLE at h
  split at h
  · exact ⟨‹_›, (Except.ok.inj h).symm⟩
  · cases h

theorem readHeader_ok {f : List Nat} {elf : ElfHeader} (h : readHeader f = .ok elf) :
    elf = { e_shoff := rawAt f 40 8, e_shentsize := rawAt f 58 2, e_shnum := rawAt f 60 2 } := by
  unfold readHeader at h
  split at h
  · exact (Except.ok.inj h).symm
  · cases h

theorem readCString_ok {f : List Nat} {offset : Int} {name : String}
    (h : readCString f offset = .ok name) : InBounds f offset 1 := by
  unfold readCString at h
  split at h
  · assumption
  · cases h

theorem readNeededName_ok {f : List Nat} {shoff hdr entry : Int} {name : String}
    (h : readNeededName f shoff hdr entry = .ok name) :
    InBounds f (toPtrdiff ((rawAt f (shoff + (sizeofShdr : Int) * (rawAt f (hdr + 40) 4 : Int) + 24) 8
      + rawAt f (entry + 8) 8) % 2 ^ 64)) 1 := by
  unfold readNeededName at h
  split at h
  · cases h
  · rename_i link hlink
    obtain ⟨-, rfl⟩ := readLE_ok hlink
    split at h
    · cases h
    · rename_i strOffset hstr
      obtain ⟨-, rfl⟩ := readLE_ok hstr
      split at h
      · cases h
      · rename_i val hval
        obtain ⟨-, rfl⟩ := readLE_ok hval
        exact readCString_ok h

theorem walkDynamic_ok_mem {f : List Nat} {shoff hdr dynoff : Int} (js : List Nat) :
    ∀ names, walkDynamic f shoff hdr dynoff js = .ok names →
      ∀ j ∈ js, rawAt f (dynoff + (sizeofDyn : Int) * (j : Int)) 8 = DT_NEEDED →
        ∃ name, readNeededName f shoff hdr (dynoff + (sizeofDyn : Int) * (j : Int)) = .ok name := by
  induction js with
  | nil => intro names _ j hj; cases hj
  | cons i is ih =>
    intro names h j hj htag
    rw [walkDynamic] at h
    split at h
    · cases h
    · rename_i tag htagi
      obtain ⟨-, rfl⟩ := readLE_ok htagi
      split at h
      · rename_i hne
        rcases List.mem_cons.1 hj with rfl | hj
        · exact absurd htag hne
        · exact ih names h j hj htag
      · split at h
        · cases h
        · rename_i name hname
          split at h
          · cases h
          · rename_i rest hrest
            rcases List.mem_cons.1 hj with rfl | hj
            · exact ⟨name, hname⟩
            · exact ih rest hrest j hj htag

theorem walkSection_ok_dynamic {f : List Nat} {shoff hdr : Int} {names : List String}
    (h : walkSection f shoff hdr = .ok names) (htype : rawAt f (hdr + 4) 4 = SHT_DYNAMIC) :
    rawAt f (hdr + 56) 8 ≠ 0
      ∧ walkDynamic f shoff hdr (toPtrdiff (rawAt f (hdr + 24) 8))
          (List.range (rawAt f (hdr + 32) 8 / rawAt f (hdr + 56) 8)) = .ok names := by
  unfold walkSection at h
  split at h
  · cases h
  · rename_i type htypei
    obtain ⟨-, rfl⟩ := readLE_ok htypei
    rw [if_neg (not_not.2 htype)] at h
    split at h
    · cases h
    · rename_i offset hoff
      obtain ⟨-, rfl⟩ := readLE_ok hoff
      split at h
      · cases h
      · rename_i size hsize
        obtain ⟨-, rfl⟩ := readLE_ok hsize
        split at h
        · cases h
        · rename_i entsize hent
          obtain ⟨-, rfl⟩ := readLE_ok hent
          split at h
          · cases h
          · exact ⟨‹_›, h⟩

theorem walkSections_ok_mem {f : List Nat} {shoff : Int} (ks : List Nat) :
    ∀ names, walkSections f shoff ks = .ok names →
      ∀ k ∈ ks, ∃ ns, walkSection f shoff (shoff + (sizeofShdr : Int) * (k : Int)) = .ok ns := by
  induction ks with
  | nil => intro names _ k hk; cases hk
  | cons i is ih =>
    intro names h k hk
    rw [walkSections] at h
    split at h
    · cases h
    · rename_i ns hns
      split at h
      · cases h
      · rename_i rest hrest
        rcases List.mem_cons.1 hk with rfl | hk
        · exact ⟨ns, hns⟩
        · exact ih rest hrest k hk

theorem extractNeeded_ok_not_badNeeded {f : List Nat} {names : List String}
    (h : extractNeeded f = .ok names) : ¬ BadNeeded f := by
  rintro ⟨hent, k, hk, htype, j, hj, htag, hout⟩
  unfold extractNeeded at h
  split at h
  · cases h
  · rename_i elf helf
    rw [readHeader_ok helf] at h
    simp only [readManyCount] at h
    have hkmem : k ∈ List.range (rawAt f 58 2 * rawAt f 60 2) := by
      rw [List.mem_range]
      calc k < rawAt f 60 2 := hk
        _ = 1 * rawAt f 60 2 := (Nat.one_mul _).symm
        _ ≤ rawAt f 58 2 * rawAt f 60 2 :=
          Nat.mul_le_mul_right _ (Nat.pos_of_ne_zero hent)
    obtain ⟨ns, hns⟩ := walkSections_ok_mem _ names h k hkmem
    obtain ⟨-, hdyn⟩ := walkSection_ok_dynamic hns htype
    obtain ⟨name, hname⟩ := walkDynamic_ok_mem _ ns hdyn j (List.mem_range.2 hj) htag
    exact hout (readNeededName_ok hname)

theorem walkDynamic_eq_trace (f : List Nat) (shoff hdr dynoff : Int) (js : List Nat) :
    walkDynamic f shoff hdr dynoff js = ofTrace (walkDynamicTrace f shoff hdr dynoff js) := by
  induction js with
  | nil => rfl
  | cons j js ih =>
    rw [walkDynamic, walkDynamicTrace]
    cases readLE f (dynoff + (sizeofDyn : Int) * (j : Int)) 8 with
    | error e => rfl
    | ok tag =>
      simp only []
      split
      · exact ih
      · cases readNeededName f shoff hdr (dynoff + (sizeofDyn : Int) * (j : Int)) with
        | error e => rfl
        | ok name =>
          simp only []
          rw [ih]
          unfold ofTrace
          cases (walkDynamicTrace f shoff hdr dynoff js).2 <;> rfl

theorem walkSection_eq_trace (f : List Nat) (shoff hdr : Int) :
    walkSection f shoff hdr = ofTrace (walkSectionTrace f shoff hdr) := by
  unfold walkSection walkSectionTrace
  cases readLE f (hdr + 4) 4 with
  | error e => rfl
  | ok type =>
    simp only []
    split
    · rfl
    · cases readLE f (hdr + 24) 8 with
      | error e => rfl
      | ok offset =>
        cases readLE f (hdr + 32) 8 with
        | error e => rfl
        | ok size =>
          cases readLE f (hdr + 56) 8 with
          | error e => rfl
          | ok entsize =>
            simp only []
            split
            · rfl
            · exact walkDynamic_eq_trace f shoff hdr _ _

theorem walkSections_eq_trace (f : List Nat) (shoff : Int) (ks : List Nat) :
    walkSections f shoff ks = ofTrace (walkSectionsTrace f shoff ks) := by
  induction ks with
  | nil => rfl
  | cons k ks ih =>
    rw [walkSections, walkSectionsTrace, walkSection_eq_trace, ih]
    unfold ofTrace
    cases (walkSectionTrace f shoff (shoff + (sizeofShdr : Int) * (k : Int))).2 with
    | some e => rfl
    | none =>
      simp only []
      cases (walkSectionsTrace f shoff ks).2 <;> rfl

theorem extractNeeded_eq_trace (f : List Nat) : extractNeeded f = ofTrace (extractTrace f) := by
  unfold extractNeeded extractTrace
  cases readHeader f with
  | error e => rfl
  | ok elf => exact walkSections_eq_trace f _ _

/-- Claim C13, evaluated where the code departs from it: the well-formed images
`imageMinimal` and `imageNeedsB` have one and two section headers, the span of line
114 has `e_shentsize * e_shnum` elements, 64 and 128, and the walk reads a section
header behind the end of the file; the walk over `e_shnum` headers stays inside. -/
theorem extractNeeded_reads_outside_wellFormed :
    WellFormed imageMinimal ∧ readManyCount 64 1 = 64
      ∧ extractNeeded imageMinimal = .error .outOfBounds
      ∧ extractExpected imageMinimal = .ok []
      ∧ WellFormed imageNeedsB
      ∧ extractNeeded imageNeedsB = .error .outOfBounds
      ∧ extractExpected imageNeedsB = .ok ["libB.so"] := by
  decide!

/-- Claim C14, evaluated where the code departs from it: the well-formed image
`imageTrailingData` has one section header, not a dynamic section, so it declares no
name, and the walk over `e_shnum` headers yields none; the walk over `e_shentsize * e_shnum` headers reads the data behind the table
as section headers and yields the name `evil.so`. -/
theorem extractNames_yields_undeclared_name :
    WellFormed imageTrailingData
      ∧ rawAt imageTrailingData 60 2 = 1 ∧ shType imageTrailingData 0 ≠ SHT_DYNAMIC
      ∧ declaredNames imageTrailingData = []
      ∧ extractNames imageTrailingData = .ok ["evil.so"]
      ∧ extractExpected imageTrailingData = .ok [] := by
  decide!

end Scotland2
